import Mathlib

/-!
A shallow embedding of `main.go` of gocrate.

The program packs an executable and three strings into a `Crate`, writes the crate as a JSON
document, reads it back, and installs, removes or unpacks the executable.

The embedding follows `main.go` function by function: `Save`, `LoadCrate`, `UnpackBin`,
`Install`, `Uninstall`, `buildCrate`, `getRoot` and `main` are the functions of the source
with the file-system state passed in and out.  The calls into the Go standard library are
modelled as Lean functions:

* a Go `string` and a `[]byte` are lists of bytes; a nil `[]byte` is `none`;
* `path.Clean`, `path.Join` and `path.Base` follow the library code;
* `json.Marshal`, `json.Unmarshal` and `json.Decoder.Decode` are modelled for the type `Crate`:
  strings are escaped and unquoted as the library does (invalid UTF-8 becomes U+FFFD), a
  `[]byte` is base64 text, the scanner accepts the JSON grammar, object keys select fields
  without regard to case, missing and unknown fields are let through, and a `Decoder` reads
  the first value of its input only;
* the file system is a set of symbolic links, a set of names (each a directory or a hard
  link to an inode) and a set of inodes, together with the process umask.  System calls
  resolve symbolic links as the kernel does; a path is looked up as it is written, so the
  paths of a state are written in one way (clean; absolute, or relative to the working
  directory).  There are no permission checks (install and uninstall run as root), the
  directory a new file is created in is taken to exist, and a write never stops half way;
* what the process reads from its surroundings (arguments, `runtime.GOOS`, the effective
  user, the lines `fmt.Scanln` returns, the answer to the GET request, whether `sudo` runs
  the command) is a value of type `World`;
* `log.Fatal*` is the outcome `Res.fatal`, a returned `error` is `Res.error`.
-/

namespace Gocrate

/-! ## Bytes and strings -/

abbrev Byte := Fin 256

abbrev Bytes := List Byte

/-- The byte with value `n % 256`. -/
def byte (n : Nat) : Byte := ⟨n % 256, Nat.mod_lt _ (by decide)⟩

/-! ## `unicode/utf8` -/

/-- The rune `utf8.RuneError`, U+FFFD. -/
def RuneError : Nat := 0xFFFD

/-- Continuation byte test: `0x80 <= b <= 0xBF`. -/
def isCont (b : Byte) : Bool := 0x80 ≤ b.val && b.val ≤ 0xBF

/-- `utf8.DecodeRune`: the first rune of `s` and its width in bytes; `(RuneError, 1)` for an
invalid or truncated encoding and `(RuneError, 0)` for the empty input.  The second byte is
checked against the accept range of the first (no overlong forms, no surrogates, nothing
above U+10FFFF). -/
def decodeRune : Bytes → Nat × Nat
  | [] => (RuneError, 0)
  | b0 :: rest =>
    if b0.val < 0x80 then (b0.val, 1)
    else if b0.val < 0xC2 then (RuneError, 1)
    else if b0.val < 0xE0 then
      match rest with
      | b1 :: _ =>
        if isCont b1 then ((b0.val % 32) * 64 + b1.val % 64, 2) else (RuneError, 1)
      | _ => (RuneError, 1)
    else if b0.val < 0xF0 then
      match rest with
      | b1 :: b2 :: _ =>
        let lo := if b0.val = 0xE0 then 0xA0 else 0x80
        let hi := if b0.val = 0xED then 0x9F else 0xBF
        if lo ≤ b1.val && b1.val ≤ hi && isCont b2 then
          ((b0.val % 16) * 4096 + (b1.val % 64) * 64 + b2.val % 64, 3)
        else (RuneError, 1)
      | _ => (RuneError, 1)
    else if b0.val < 0xF5 then
      match rest with
      | b1 :: b2 :: b3 :: _ =>
        let lo := if b0.val = 0xF0 then 0x90 else 0x80
        let hi := if b0.val = 0xF4 then 0x8F else 0xBF
        if lo ≤ b1.val && b1.val ≤ hi && isCont b2 && isCont b3 then
          ((b0.val % 8) * 262144 + (b1.val % 64) * 4096 + (b2.val % 64) * 64 + b3.val % 64, 4)
        else (RuneError, 1)
      | _ => (RuneError, 1)
    else (RuneError, 1)

/-- `utf8.AppendRune` on an empty buffer: the UTF-8 encoding of `r`, with surrogates and
out-of-range values replaced by U+FFFD. -/
def encodeRune (r : Nat) : Bytes :=
  if r ≤ 0x7F then [byte r]
  else if r ≤ 0x7FF then [byte (0xC0 + r / 64), byte (0x80 + r % 64)]
  else if r > 0x10FFFF ∨ (0xD800 ≤ r ∧ r ≤ 0xDFFF) then [0xEF, 0xBF, 0xBD]
  else if r ≤ 0xFFFF then
    [byte (0xE0 + r / 4096), byte (0x80 + r / 64 % 64), byte (0x80 + r % 64)]
  else
    [byte (0xF0 + r / 262144), byte (0x80 + r / 4096 % 64), byte (0x80 + r / 64 % 64),
      byte (0x80 + r % 64)]

/-- `utf8.Valid`, with `skip` bytes of the current rune still to be passed over. -/
def validUTF8From : Nat → Bytes → Bool
  | _, [] => true
  | skip + 1, _ :: rest => validUTF8From skip rest
  | 0, b :: rest =>
    let d := decodeRune (b :: rest)
    if d.1 = RuneError ∧ d.2 = 1 then false else validUTF8From (d.2 - 1) rest

/-- `utf8.Valid`: every rune of `s` decodes without error. -/
def validUTF8 (s : Bytes) : Bool := validUTF8From 0 s

/-- The UTF-8 bytes of a Lean string literal, used to write Go string constants. -/
def utf8 (s : String) : Bytes := s.data.flatMap (fun c => encodeRune c.toNat)

/-! ## Package `path` -/

def slash : Byte := 47

def dot : Byte := 46

/-- The inner loop of the `..` case of `path.Clean`: starting from index `w`, move left while
`w > dotdot` and the byte at `w` is not a slash. -/
def backtrack (out : Bytes) (dotdot : Nat) : Nat → Nat
  | 0 => 0
  | w + 1 => if w + 1 > dotdot ∧ out.getD (w + 1) 0 ≠ slash then backtrack out dotdot w else w + 1

/-- The main loop of `path.Clean`.  `out` is the output written so far (its length is `out.w`),
`rem` is the unread input `path[r:]`. -/
def cleanLoop (rooted : Bool) : Nat → Bytes → Nat → Bytes → Bytes
  | 0, out, _, _ => out
  | _ + 1, out, _, [] => out
  | fuel + 1, out, dotdot, c :: rest =>
    if c = slash then
      cleanLoop rooted fuel out dotdot rest
    else if c = dot ∧ (rest = [] ∨ rest.head? = some slash) then
      cleanLoop rooted fuel out dotdot rest
    else if c = dot ∧ rest.head? = some dot ∧
        (rest.tail = [] ∨ rest.tail.head? = some slash) then
      if out.length > dotdot then
        cleanLoop rooted fuel (out.take (backtrack out dotdot (out.length - 1))) dotdot rest.tail
      else if !rooted then
        let out1 := (if out.length > 0 then out ++ [slash] else out) ++ [dot, dot]
        cleanLoop rooted fuel out1 out1.length rest.tail
      else
        cleanLoop rooted fuel out dotdot rest.tail
    else
      let out1 :=
        if (rooted ∧ out.length ≠ 1) ∨ (!rooted ∧ out.length ≠ 0) then out ++ [slash] else out
      cleanLoop rooted fuel (out1 ++ (c :: rest).takeWhile (fun b => b ≠ slash)) dotdot
        ((c :: rest).dropWhile (fun b => b ≠ slash))

/-- `path.Clean`. -/
def Clean (path : Bytes) : Bytes :=
  match path with
  | [] => [dot]
  | c :: rest =>
    let rooted : Bool := c = slash
    let out :=
      if rooted then cleanLoop true (path.length + 1) [slash] 1 rest
      else cleanLoop false (path.length + 1) [] 0 path
    if out = [] then [dot] else out

/-- The buffer `path.Join` builds before cleaning: the non-empty elements separated by
slashes. -/
def joinBuf : Bytes → List Bytes → Bytes
  | buf, [] => buf
  | buf, e :: es =>
    if buf.length > 0 ∨ e ≠ [] then
      joinBuf ((if buf.length > 0 then buf ++ [slash] else buf) ++ e) es
    else joinBuf buf es

/-- `path.Join`. -/
def Join (elems : List Bytes) : Bytes :=
  if (elems.map List.length).sum = 0 then [] else Clean (joinBuf [] elems)

/-- Strip trailing slashes, the first loop of `path.Base`. -/
def stripTrailingSlashes (p : Bytes) : Bytes :=
  (p.reverse.dropWhile (fun b => b = slash)).reverse

/-- The part of `p` after its last slash (all of `p` when it has none). -/
def afterLastSlash (p : Bytes) : Bytes :=
  (p.reverse.takeWhile (fun b => b ≠ slash)).reverse

/-- `path.Base`. -/
def Base (path : Bytes) : Bytes :=
  if path = [] then [dot]
  else
    let p := afterLastSlash (stripTrailingSlashes path)
    if p = [] then [slash] else p

/-! ## `encoding/base64`, the standard padded encoding -/

/-- The `i`-th character of the alphabet `A-Z a-z 0-9 + /`. -/
def b64Char (i : Nat) : Byte :=
  if i < 26 then byte (65 + i)
  else if i < 52 then byte (97 + (i - 26))
  else if i < 62 then byte (48 + (i - 52))
  else if i = 62 then 43 else 47

/-- The decode map of the alphabet: the value of a character, `none` for any other byte. -/
def b64Val (c : Byte) : Option Nat :=
  if 65 ≤ c.val ∧ c.val ≤ 90 then some (c.val - 65)
  else if 97 ≤ c.val ∧ c.val ≤ 122 then some (c.val - 97 + 26)
  else if 48 ≤ c.val ∧ c.val ≤ 57 then some (c.val - 48 + 52)
  else if c.val = 43 then some 62
  else if c.val = 47 then some 63
  else none

/-- The padding character `=`. -/
def b64Pad : Byte := 61

/-- `base64.StdEncoding.EncodeToString`. -/
def b64Encode : Bytes → Bytes
  | [] => []
  | [a] => [b64Char (a.val / 4), b64Char (a.val % 4 * 16), b64Pad, b64Pad]
  | [a, b] =>
    [b64Char (a.val / 4), b64Char (a.val % 4 * 16 + b.val / 16), b64Char (b.val % 16 * 4), b64Pad]
  | a :: b :: c :: rest =>
    b64Char (a.val / 4) :: b64Char (a.val % 4 * 16 + b.val / 16) ::
      b64Char (b.val % 16 * 4 + c.val / 64) :: b64Char (c.val % 64) :: b64Encode rest

/-- Decoding of input from which line breaks have been removed: groups of four characters,
the last of which may end in `=` or `==`; anything else is corrupt input. -/
def b64DecodeQuanta : Bytes → Option Bytes
  | [] => some []
  | [_] => none
  | [_, _] => none
  | [_, _, _] => none
  | c0 :: c1 :: c2 :: c3 :: rest =>
    match b64Val c0, b64Val c1 with
    | some v0, some v1 =>
      if c2 = b64Pad then
        if c3 = b64Pad ∧ rest = [] then some [byte (v0 * 4 + v1 / 16)] else none
      else
        match b64Val c2 with
        | none => none
        | some v2 =>
          if c3 = b64Pad then
            if rest = [] then some [byte (v0 * 4 + v1 / 16), byte (v1 % 16 * 16 + v2 / 4)]
            else none
          else
            match b64Val c3 with
            | none => none
            | some v3 =>
              (b64DecodeQuanta rest).map (fun t =>
                byte (v0 * 4 + v1 / 16) :: byte (v1 % 16 * 16 + v2 / 4) ::
                  byte (v2 % 4 * 64 + v3) :: t)
    | _, _ => none

/-- `base64.StdEncoding.Decode`: carriage returns and line feeds are skipped wherever they
stand, the rest is decoded group by group. -/
def b64Decode (s : Bytes) : Option Bytes :=
  b64DecodeQuanta (s.filter (fun c => c ≠ 10 ∧ c ≠ 13))

/-! ## `encoding/json`: writing -/

def quote : Byte := 34

def backslash : Byte := 92

/-- The digit `"0123456789abcdef"[n]`. -/
def hexChar (n : Nat) : Byte := if n < 10 then byte (48 + n) else byte (87 + n)

/-- The table `htmlSafeSet`: the ASCII bytes written without escaping. -/
def htmlSafe (b : Byte) : Bool :=
  0x20 ≤ b.val && b.val < 0x80 && b ≠ quote && b ≠ backslash && b ≠ 38 && b ≠ 60 && b ≠ 62

/-- The escape written for an ASCII byte outside `htmlSafeSet` (as of Go 1.22; earlier
versions write `\u0008` and `\u000c` for backspace and form feed, which read back the
same). -/
def escapeAscii (b : Byte) : Bytes :=
  if b = backslash ∨ b = quote then [backslash, b]
  else if b = 8 then [backslash, 98]
  else if b = 12 then [backslash, 102]
  else if b = 10 then [backslash, 110]
  else if b = 13 then [backslash, 114]
  else if b = 9 then [backslash, 116]
  else [backslash, 117, 48, 48, hexChar (b.val / 16), hexChar (b.val % 16)]

/-- The loop of `appendString` with HTML escaping on (the default of `json.Marshal`); `skip`
counts the bytes of the current rune that are still to be passed over. -/
def escapeFrom : Nat → Bytes → Bytes
  | _, [] => []
  | skip + 1, _ :: rest => escapeFrom skip rest
  | 0, b :: rest =>
    if b.val < 0x80 then
      (if htmlSafe b then [b] else escapeAscii b) ++ escapeFrom 0 rest
    else
      let d := decodeRune (b :: rest)
      if d.1 = RuneError ∧ d.2 = 1 then
        [backslash, 117, 102, 102, 102, 100] ++ escapeFrom 0 rest
      else if d.1 = 0x2028 ∨ d.1 = 0x2029 then
        [backslash, 117, 50, 48, 50, hexChar (d.1 % 16)] ++ escapeFrom (d.2 - 1) rest
      else
        (b :: rest).take d.2 ++ escapeFrom (d.2 - 1) rest

/-- `appendString`: a Go string as a JSON string literal. -/
def appendString (s : Bytes) : Bytes := quote :: escapeFrom 0 s ++ [quote]

/-! ## `encoding/json`: reading

The scanner accepts one JSON value and leaves the input that follows it; the value is kept
as a tree with string literals still in their quoted (raw) form, as the decoder sees them.
-/

/-- The white space of JSON: space, tab, carriage return, line feed. -/
def isSpace (c : Byte) : Bool := c = 32 || c = 9 || c = 13 || c = 10

def skipSpace (s : Bytes) : Bytes := s.dropWhile isSpace

def isDigit (c : Byte) : Bool := 48 ≤ c.val && c.val ≤ 57

/-- The value of a hexadecimal digit, either case. -/
def hexVal (c : Byte) : Option Nat :=
  if 48 ≤ c.val ∧ c.val ≤ 57 then some (c.val - 48)
  else if 97 ≤ c.val ∧ c.val ≤ 102 then some (c.val - 97 + 10)
  else if 65 ≤ c.val ∧ c.val ≤ 70 then some (c.val - 65 + 10)
  else none

/-- The bytes that may follow a backslash besides `u`: `" \ / b f n r t`. -/
def isSimpleEscape (e : Byte) : Bool :=
  e = quote || e = backslash || e = slash || e = 98 || e = 102 || e = 110 || e = 114 || e = 116

/-- The scanner inside a string literal (`stateInString` and the escape states): the input
starts after the opening quote; the result is the raw contents and the input after the
closing quote. -/
def scanString : Bytes → Option (Bytes × Bytes)
  | [] => none
  | c :: rest =>
    if c = quote then some ([], rest)
    else if c = backslash then
      match rest with
      | [] => none
      | e :: rest2 =>
        if isSimpleEscape e then
          (scanString rest2).map (fun r => (c :: e :: r.1, r.2))
        else if e = 117 then
          match rest2 with
          | h1 :: h2 :: h3 :: h4 :: rest3 =>
            if (hexVal h1).isSome ∧ (hexVal h2).isSome ∧ (hexVal h3).isSome ∧
                (hexVal h4).isSome then
              (scanString rest3).map (fun r => (c :: e :: h1 :: h2 :: h3 :: h4 :: r.1, r.2))
            else none
          | _ => none
        else none
    else if c.val < 0x20 then none
    else (scanString rest).map (fun r => (c :: r.1, r.2))

/-- The scanner after the integer part of a number (`stateDot`, `stateDot0`): a decimal point
must be followed by at least one digit. -/
def scanFrac (lit s : Bytes) : Option (Bytes × Bytes) :=
  match s with
  | [] => some (lit, s)
  | c :: s1 =>
    if c = dot then
      let fs := s1.takeWhile isDigit
      if fs = [] then none else some (lit ++ c :: fs, s1.drop fs.length)
    else some (lit, s)

/-- The scanner after the fraction of a number (`stateE`, `stateESign`, `stateE0`): an `e` or
`E` must be followed by an optional sign and at least one digit. -/
def scanExp (lit s : Bytes) : Option (Bytes × Bytes) :=
  match s with
  | [] => some (lit, s)
  | c :: s1 =>
    if c = 101 ∨ c = 69 then
      let sg := s1.takeWhile (fun x => x = 43 ∨ x = 45) |>.take 1
      let s2 := s1.drop sg.length
      let es := s2.takeWhile isDigit
      if es = [] then none else some (lit ++ c :: sg ++ es, s2.drop es.length)
    else some (lit, s)

/-- The scanner on a number (`stateNeg`, `state0`, `state1`, then the fraction and the
exponent): the literal and the input after it. -/
def scanNumber (s : Bytes) : Option (Bytes × Bytes) :=
  let sign := s.takeWhile (fun c => c = 45) |>.take 1
  match s.drop sign.length with
  | [] => none
  | d :: s1 =>
    if !isDigit d then none
    else
      let ds := if d = 48 then [] else s1.takeWhile isDigit
      match scanFrac (sign ++ d :: ds) (s1.drop ds.length) with
      | none => none
      | some (lit, s2) => scanExp lit s2

/-- A scanned JSON value. -/
inductive JSON where
  | null
  | bool (b : Bool)
  | num (lit : Bytes)
  | str (raw : Bytes)
  | arr (items : List JSON)
  | obj (members : List (Bytes × JSON))

/-- Strip `lit` from the front of `s`. -/
def stripLit : Bytes → Bytes → Option Bytes
  | [], s => some s
  | _ :: _, [] => none
  | a :: as, b :: bs => if a = b then stripLit as bs else none

mutual

/-- Scan one value, white space before it skipped (`stateBeginValue`). -/
def parseValue : Nat → Bytes → Option (JSON × Bytes)
  | 0, _ => none
  | fuel + 1, input =>
    match skipSpace input with
    | [] => none
    | c :: rest =>
      if c = 123 then
        match skipSpace rest with
        | [] => none
        | c1 :: rest1 =>
          if c1 = 125 then some (JSON.obj [], rest1)
          else (parseMembers fuel (c1 :: rest1)).map (fun r => (JSON.obj r.1, r.2))
      else if c = 91 then
        match skipSpace rest with
        | [] => none
        | c1 :: rest1 =>
          if c1 = 93 then some (JSON.arr [], rest1)
          else (parseElements fuel (c1 :: rest1)).map (fun r => (JSON.arr r.1, r.2))
      else if c = quote then
        (scanString rest).map (fun r => (JSON.str r.1, r.2))
      else if c = 45 ∨ isDigit c then
        (scanNumber (c :: rest)).map (fun r => (JSON.num r.1, r.2))
      else if c = 116 then
        (stripLit [114, 117, 101] rest).map (fun r => (JSON.bool true, r))
      else if c = 102 then
        (stripLit [97, 108, 115, 101] rest).map (fun r => (JSON.bool false, r))
      else if c = 110 then
        (stripLit [117, 108, 108] rest).map (fun r => (JSON.null, r))
      else none

/-- Scan `"key" : value` pairs separated by commas up to the closing brace. -/
def parseMembers : Nat → Bytes → Option (List (Bytes × JSON) × Bytes)
  | 0, _ => none
  | fuel + 1, input =>
    match skipSpace input with
    | [] => none
    | c :: rest =>
      if c = quote then
        match scanString rest with
        | none => none
        | some (key, rest1) =>
          match skipSpace rest1 with
          | [] => none
          | c2 :: rest2 =>
            if c2 = 58 then
              match parseValue fuel rest2 with
              | none => none
              | some (v, rest3) =>
                match skipSpace rest3 with
                | [] => none
                | c4 :: rest4 =>
                  if c4 = 44 then
                    (parseMembers fuel rest4).map (fun r => ((key, v) :: r.1, r.2))
                  else if c4 = 125 then some ([(key, v)], rest4)
                  else none
            else none
      else none

/-- Scan values separated by commas up to the closing bracket. -/
def parseElements : Nat → Bytes → Option (List JSON × Bytes)
  | 0, _ => none
  | fuel + 1, input =>
    match parseValue fuel input with
    | none => none
    | some (v, rest) =>
      match skipSpace rest with
      | [] => none
      | c :: rest1 =>
        if c = 44 then (parseElements fuel rest1).map (fun r => (v :: r.1, r.2))
        else if c = 93 then some ([v], rest1)
        else none

end

/-- The function `getu4`: the code unit of an escape `\uXXXX` at the front of `s`. -/
def getu4 : Bytes → Option Nat
  | b :: u :: h1 :: h2 :: h3 :: h4 :: _ =>
    if b = backslash ∧ u = 117 then
      match hexVal h1, hexVal h2, hexVal h3, hexVal h4 with
      | some a, some b, some c, some d => some (a * 4096 + b * 256 + c * 16 + d)
      | _, _, _, _ => none
    else none
  | _ => none

/-- The byte an escape `\e` other than `\u` stands for (`unquoteBytes` also takes `\'`, which
the scanner never lets through). -/
def simpleEscape (e : Byte) : Option Byte :=
  if e = quote ∨ e = backslash ∨ e = slash ∨ e = 39 then some e
  else if e = 98 then some 8
  else if e = 102 then some 12
  else if e = 110 then some 10
  else if e = 114 then some 13
  else if e = 116 then some 9
  else none

/-- The main loop of `unquoteBytes` on the contents of a string literal; `skip` counts the
bytes of the current escape or rune that are still to be passed over.  Escapes are replaced
by what they stand for, a surrogate escape without its partner and any invalid UTF-8 by
U+FFFD.  (The first loop of `unquoteBytes`, which returns the input unchanged when it needs no
change, gives the same result as this one.) -/
def unquoteFrom : Nat → Bytes → Option Bytes
  | _, [] => some []
  | skip + 1, _ :: rest => unquoteFrom skip rest
  | 0, c :: rest =>
    if c = backslash then
      match rest with
      | [] => none
      | e :: _ =>
        if e = 117 then
          match getu4 (c :: rest) with
          | none => none
          | some rr =>
            if 0xD800 ≤ rr ∧ rr < 0xE000 then
              match getu4 (rest.drop 5) with
              | some rr1 =>
                if rr < 0xDC00 ∧ 0xDC00 ≤ rr1 ∧ rr1 < 0xE000 then
                  (unquoteFrom 11 rest).map (fun t =>
                    encodeRune ((rr - 0xD800) * 1024 + (rr1 - 0xDC00) + 0x10000) ++ t)
                else (unquoteFrom 5 rest).map (fun t => encodeRune RuneError ++ t)
              | none => (unquoteFrom 5 rest).map (fun t => encodeRune RuneError ++ t)
            else (unquoteFrom 5 rest).map (fun t => encodeRune rr ++ t)
        else
          match simpleEscape e with
          | none => none
          | some x => (unquoteFrom 1 rest).map (fun t => x :: t)
    else if c = quote ∨ c.val < 0x20 then none
    else if c.val < 0x80 then (unquoteFrom 0 rest).map (fun t => c :: t)
    else
      let d := decodeRune (c :: rest)
      (unquoteFrom (d.2 - 1) rest).map (fun t => encodeRune d.1 ++ t)

/-- The function `unquoteBytes` on the contents of a scanned string literal. -/
def unquote (raw : Bytes) : Option Bytes := unquoteFrom 0 raw

/-! ## The crate and its JSON form -/

/-- The struct `Crate` of `main.go`. -/
structure Crate where
  ProjectName : Bytes
  BinaryName : Bytes
  BinaryFile : Option Bytes
  SourceURL : Bytes
deriving DecidableEq

/-- The zero value `Crate{}`. -/
def Crate.zero : Crate := ⟨[], [], none, []⟩

/-- The length `len(c.BinaryFile)`; a nil slice has length 0. -/
def Crate.payloadLen (c : Crate) : Nat := (c.BinaryFile.getD []).length

/-- What `json.Marshal` writes for a `[]byte`: `null` for nil, else the base64 text in quotes. -/
def marshalBytes : Option Bytes → Bytes
  | none => utf8 "null"
  | some b => quote :: b64Encode b ++ [quote]

/-- `json.Marshal(c)`: the four fields in declaration order. -/
def Marshal (c : Crate) : Bytes :=
  utf8 "\x7b\"ProjectName\":" ++ appendString c.ProjectName ++
  utf8 ",\"BinaryName\":" ++ appendString c.BinaryName ++
  utf8 ",\"BinaryFile\":" ++ marshalBytes c.BinaryFile ++
  utf8 ",\"SourceURL\":" ++ appendString c.SourceURL ++ utf8 "\x7d"

deriving instance DecidableEq for Except

/-- The errors of the system calls the model distinguishes. -/
inductive Errno where
  | ENOENT
  | EINVAL
  | EISDIR
  | ENOTEMPTY
  | EBADF
  | ELOOP
deriving DecidableEq

/-- Why a document was not decoded. -/
inductive DecodeErr where
  /-- The file could not be read. -/
  | read (e : Errno)
  /-- The error `io.EOF`: nothing but white space. -/
  | eof
  /-- A `SyntaxError` or `io.ErrUnexpectedEOF`. -/
  | malformed
  /-- An `UnmarshalTypeError`. -/
  | typeMismatch
  /-- A `base64.CorruptInputError`. -/
  | base64
deriving DecidableEq

inductive Field where
  | ProjectName
  | BinaryName
  | BinaryFile
  | SourceURL
deriving DecidableEq

/-- The function `foldRune` as far as it matters for names in ASCII: the long s and the Kelvin
sign are the only runes outside ASCII that fold to an ASCII letter (`S` and `K`); every other
rune outside ASCII folds to a rune outside ASCII, which stands for itself here. -/
def foldRune (r : Nat) : Nat := if r = 0x17F then 0x53 else if r = 0x212A then 0x4B else r

/-- The function `foldName`: ASCII letters to upper case, other runes folded. -/
def foldNameFrom : Nat → Bytes → Bytes
  | _, [] => []
  | skip + 1, _ :: rest => foldNameFrom skip rest
  | 0, c :: rest =>
    if c.val < 0x80 then
      (if 97 ≤ c.val ∧ c.val ≤ 122 then byte (c.val - 32) else c) :: foldNameFrom 0 rest
    else
      let d := decodeRune (c :: rest)
      encodeRune (foldRune d.1) ++ foldNameFrom (d.2 - 1) rest

def foldName (s : Bytes) : Bytes := foldNameFrom 0 s

/-- The field an object key selects: the exact name, or else the name equal under folding. -/
def fieldOf (key : Bytes) : Option Field :=
  let k := foldName key
  if k = utf8 "PROJECTNAME" then some Field.ProjectName
  else if k = utf8 "BINARYNAME" then some Field.BinaryName
  else if k = utf8 "BINARYFILE" then some Field.BinaryFile
  else if k = utf8 "SOURCEURL" then some Field.SourceURL
  else none

/-- Decode a value into a field of type `string`: a string is stored, `null` leaves the field
as it is, anything else is a type error. -/
def decodeString (old : Bytes) : JSON → Except DecodeErr Bytes
  | JSON.str raw =>
    match unquote raw with
    | some s => Except.ok s
    | none => Except.error DecodeErr.malformed
  | JSON.null => Except.ok old
  | _ => Except.error DecodeErr.typeMismatch

/-- The decimal value of a list of digits. -/
def digitsVal (ds : Bytes) : Nat := ds.foldl (fun n d => n * 10 + (d.val - 48)) 0

/-- Decode an array element into a `uint8`: an unsigned decimal literal below 256
(`strconv.ParseUint`, then the overflow check); `null` leaves the element as it is. -/
def decodeElem : JSON → Except DecodeErr Byte
  | JSON.num lit =>
    if lit.all isDigit ∧ digitsVal lit < 256 then Except.ok (byte (digitsVal lit))
    else Except.error DecodeErr.typeMismatch
  | JSON.null => Except.ok 0
  | _ => Except.error DecodeErr.typeMismatch

/-- Decode the elements of an array in order; the first error is the one reported. -/
def decodeElems : List JSON → Except DecodeErr Bytes
  | [] => Except.ok []
  | x :: xs =>
    match decodeElem x with
    | Except.error e => Except.error e
    | Except.ok b => (decodeElems xs).map (fun t => b :: t)

/-- Decode a value into a field of type `[]byte`: a string is base64 text, `null` makes the
slice nil, an array is decoded element by element, anything else is a type error.  (The
elements of an array are decoded into a fresh slice; Go reuses the old slice, which shows
only when the field occurs twice and the later array contains `null`.) -/
def decodeBytes : JSON → Except DecodeErr (Option Bytes)
  | JSON.str raw =>
    match unquote raw with
    | some s =>
      match b64Decode s with
      | some b => Except.ok (some b)
      | none => Except.error DecodeErr.base64
    | none => Except.error DecodeErr.malformed
  | JSON.null => Except.ok none
  | JSON.arr items => (decodeElems items).map some
  | _ => Except.error DecodeErr.typeMismatch

/-- Store a value in the field a key selected. -/
def setField (c : Crate) (f : Field) (v : JSON) : Except DecodeErr Crate :=
  match f with
  | Field.ProjectName => (decodeString c.ProjectName v).map (fun s => { c with ProjectName := s })
  | Field.BinaryName => (decodeString c.BinaryName v).map (fun s => { c with BinaryName := s })
  | Field.BinaryFile => (decodeBytes v).map (fun b => { c with BinaryFile := b })
  | Field.SourceURL => (decodeString c.SourceURL v).map (fun s => { c with SourceURL := s })

/-- The members of an object decoded in order into the struct: a key that selects no field is
skipped with its value, a later member for the same field overrides an earlier one, and the
first error is the one reported. -/
def decodeMembers : Crate → List (Bytes × JSON) → Except DecodeErr Crate
  | c, [] => Except.ok c
  | c, (k, v) :: ms =>
    match unquote k with
    | none => Except.error DecodeErr.malformed
    | some key =>
      match fieldOf key with
      | none => decodeMembers c ms
      | some f =>
        match setField c f v with
        | Except.ok c1 => decodeMembers c1 ms
        | Except.error e => Except.error e

/-- Decode a scanned value into a zero `Crate`: `null` changes nothing, an object is decoded
member by member, every other value is a type error. -/
def unmarshalCrate : JSON → Except DecodeErr Crate
  | JSON.null => Except.ok Crate.zero
  | JSON.obj ms => decodeMembers Crate.zero ms
  | _ => Except.error DecodeErr.typeMismatch

/-- `json.NewDecoder(file).Decode(&crate)` on a file with contents `data`: the first value of
the stream is scanned and decoded; what follows it is not read. -/
def decoderDecode (data : Bytes) : Except DecodeErr Crate :=
  if skipSpace data = [] then Except.error DecodeErr.eof
  else
    match parseValue (data.length + 1) data with
    | none => Except.error DecodeErr.malformed
    | some (v, _) => unmarshalCrate v

/-- `json.Unmarshal(data, &crate)`: `data` must be one value with nothing but white space
after it (`checkValid`), which is then decoded. -/
def jsonUnmarshal (data : Bytes) : Except DecodeErr Crate :=
  match parseValue (data.length + 1) data with
  | none => Except.error DecodeErr.malformed
  | some (v, rest) =>
    if skipSpace rest = [] then unmarshalCrate v else Except.error DecodeErr.malformed

/-! ## Package `os`: the file system

A path names a file through the directory tree.  The state keeps the symbolic links (path
and target), the names (a name refers to a regular file by its inode, or is a directory) and
the inodes (contents and permission bits).  Two names with the same inode are hard links to
one file.  A path is looked up as it is written: the paths of a state and the targets of
its symbolic links are clean and written in one way (absolute, or relative to the working
directory).
-/

/-- What `stat` sees at a path: a regular file with its contents and permission bits, or a
directory. -/
inductive Node where
  | file (data : Bytes) (mode : Nat)
  | dir
deriving DecidableEq

/-- What `lstat` sees at a path: a symbolic link, or a node. -/
inductive LNode where
  | symlink (target : Bytes)
  | node (n : Node)
deriving DecidableEq

/-- What a name refers to: a regular file, by its inode, or a directory. -/
inductive Entry where
  | file (ino : Nat)
  | dir
deriving DecidableEq

/-- The file-system state: symbolic links, names, inodes, and the umask of the process. -/
structure FS where
  links : List (Bytes × Bytes)
  names : List (Bytes × Entry)
  inodes : List (Nat × (Bytes × Nat))
  umask : Nat
deriving DecidableEq

def lookup {κ α : Type} [DecidableEq κ] (k : κ) : List (κ × α) → Option α
  | [] => none
  | (k1, v) :: t => if k1 = k then some v else lookup k t

/-- Put `v` under key `k`, replacing what is there. -/
def store {κ α : Type} [DecidableEq κ] (k : κ) (v : α) : List (κ × α) → List (κ × α)
  | [] => [(k, v)]
  | (k1, v1) :: t => if k1 = k then (k, v) :: t else (k1, v1) :: store k v t

/-- Remove what is under key `k`. -/
def erase {κ α : Type} [DecidableEq κ] (k : κ) : List (κ × α) → List (κ × α)
  | [] => []
  | (k1, v1) :: t => if k1 = k then erase k t else (k1, v1) :: erase k t

/-- The error every system call gives for a path it cannot take: the empty path does not
exist, a path with a NUL byte is invalid. -/
def pathErr (p : Bytes) : Option Errno :=
  if p = [] then some Errno.ENOENT
  else if (0 : Byte) ∈ p then some Errno.EINVAL
  else none

/-- Whether `s` starts with `p`. -/
def startsWith : Bytes → Bytes → Bool
  | [], _ => true
  | _ :: _, [] => false
  | a :: as, b :: bs => a = b && startsWith as bs

/-- Whether the symbolic link `l` is met on the way to `p`: it names a directory of the path
or, when the last name is followed too, the path itself. -/
def onPath (follow : Bool) (p : Bytes) (l : Bytes × Bytes) : Bool :=
  startsWith (l.1 ++ [slash]) p || (follow && decide (l.1 = p))

/-- The link with the shortest path, the one met first. -/
def shortest : List (Bytes × Bytes) → Option (Bytes × Bytes)
  | [] => none
  | x :: xs =>
    match shortest xs with
    | none => some x
    | some y => if x.1.length ≤ y.1.length then some x else some y

/-- The first symbolic link met on the way to `p`, if any. -/
def linkOn (links : List (Bytes × Bytes)) (follow : Bool) (p : Bytes) : Option (Bytes × Bytes) :=
  shortest (links.filter (onPath follow p))

/-- Path resolution: each symbolic link met is replaced by its target, at most `n` times
(then the error is `ELOOP`). -/
def resolveFrom (links : List (Bytes × Bytes)) (follow : Bool) : Nat → Bytes → Except Errno Bytes
  | 0, _ => Except.error Errno.ELOOP
  | n + 1, p =>
    match linkOn links follow p with
    | none => Except.ok p
    | some l => resolveFrom links follow n (l.2 ++ p.drop l.1.length)

/-- The path `p` names after symbolic links are resolved; the last name is followed as well
when `follow` is set.  The kernel resolves at most 40 links. -/
def FS.resolve (fs : FS) (follow : Bool) (p : Bytes) : Except Errno Bytes :=
  match pathErr p with
  | some e => Except.error e
  | none => resolveFrom fs.links follow 40 p

/-- The contents and permission bits of inode `i`. -/
def FS.inode (fs : FS) (i : Nat) : Bytes × Nat := (lookup i fs.inodes).getD ([], 0)

/-- The node under the resolved name `r`. -/
def FS.node (fs : FS) (r : Bytes) : Option Node :=
  match lookup r fs.names with
  | none => none
  | some Entry.dir => some Node.dir
  | some (Entry.file i) => some (Node.file (fs.inode i).1 (fs.inode i).2)

/-- `os.Stat`: symbolic links are followed. -/
def osStat (p : Bytes) (fs : FS) : Except Errno Node :=
  match fs.resolve true p with
  | Except.error e => Except.error e
  | Except.ok r =>
    match fs.node r with
    | some n => Except.ok n
    | none => Except.error Errno.ENOENT

/-- `os.Lstat`: a symbolic link at the last name is not followed. -/
def osLstat (p : Bytes) (fs : FS) : Except Errno LNode :=
  match fs.resolve false p with
  | Except.error e => Except.error e
  | Except.ok r =>
    match lookup r fs.links with
    | some t => Except.ok (LNode.symlink t)
    | none =>
      match fs.node r with
      | some n => Except.ok (LNode.node n)
      | none => Except.error Errno.ENOENT

/-- The node seen at path `p`, symbolic links followed; `none` when `os.Stat` fails. -/
def FS.get (fs : FS) (p : Bytes) : Option Node := (osStat p fs).toOption

/-- What stands at path `p` itself, a symbolic link there not followed; `none` when
`os.Lstat` fails. -/
def FS.lget (fs : FS) (p : Bytes) : Option LNode := (osLstat p fs).toOption

/-- `os.IsNotExist(err)` for the error of a system call; false for a nil error. -/
def IsNotExist {α : Type} : Except Errno α → Bool
  | Except.error Errno.ENOENT => true
  | _ => false

/-- The inode a name refers to (0 for a directory). -/
def Entry.ino : Entry → Nat
  | Entry.file i => i
  | Entry.dir => 0

/-- An inode number no name and no inode of the state uses: one more than the largest in
use. -/
def FS.freshIno (fs : FS) : Nat :=
  (fs.inodes.map (fun (kv : Nat × (Bytes × Nat)) => kv.1) ++
    fs.names.map (fun (kv : Bytes × Entry) => kv.2.ino)).foldr max 0 + 1

/-- Opening with `O_CREATE|O_TRUNC`, symbolic links followed: an existing regular file is
emptied and keeps its permission bits, a missing one is created empty with `perm` less the
umask (also where a symbolic link points to nothing), a directory cannot be opened for
writing.  The result is the new state and the inode of the open file. -/
def openTrunc (p : Bytes) (perm : Nat) (fs : FS) : Except Errno (FS × Nat) :=
  match fs.resolve true p with
  | Except.error e => Except.error e
  | Except.ok r =>
    match lookup r fs.names with
    | some Entry.dir => Except.error Errno.EISDIR
    | some (Entry.file i) =>
      Except.ok ({ fs with inodes := store i ([], (fs.inode i).2) fs.inodes }, i)
    | none =>
      Except.ok ({ fs with
        names := store r (Entry.file fs.freshIno) fs.names
        inodes := store fs.freshIno ([], perm &&& (0o777 ^^^ (fs.umask &&& 0o777))) fs.inodes },
        fs.freshIno)

/-- `os.Create`: open with `O_RDWR|O_CREATE|O_TRUNC` and mode 0666. -/
def osCreate (p : Bytes) (fs : FS) : Except Errno (FS × Nat) := openTrunc p 0o666 fs

/-- A `Write` of `data` to the just emptied open file with inode `i`. -/
def fileWrite (i : Nat) (data : Bytes) (fs : FS) : Except Errno FS :=
  match lookup i fs.inodes with
  | some (_, m) => Except.ok { fs with inodes := store i (data, m) fs.inodes }
  | none => Except.error Errno.EBADF

/-- `os.WriteFile`: open with `O_WRONLY|O_CREATE|O_TRUNC` and `perm`, then write. -/
def osWriteFile (p : Bytes) (data : Bytes) (perm : Nat) (fs : FS) : Except Errno FS :=
  match openTrunc p perm fs with
  | Except.error e => Except.error e
  | Except.ok (fs1, file) => fileWrite file data fs1

/-- `os.Open`: open for reading, symbolic links followed; a directory can be opened too. -/
def osOpen (p : Bytes) (fs : FS) : Except Errno Node := osStat p fs

/-- Reading an opened node to its end (`io.ReadAll`, or the reads of a `json.Decoder`): a
directory cannot be read. -/
def readAll : Node → Except Errno Bytes
  | Node.file data _ => Except.ok data
  | Node.dir => Except.error Errno.EISDIR

/-- `os.Remove`: the name itself is removed, a symbolic link there is not followed: unlink
a symbolic link or a file (the file lives on under its other names and is freed with the
last one), or remove a directory that has nothing below it. -/
def osRemove (p : Bytes) (fs : FS) : Except Errno FS :=
  match fs.resolve false p with
  | Except.error e => Except.error e
  | Except.ok r =>
    match lookup r fs.links with
    | some _ => Except.ok { fs with links := erase r fs.links }
    | none =>
      match lookup r fs.names with
      | none => Except.error Errno.ENOENT
      | some (Entry.file i) =>
        Except.ok { fs with
          names := erase r fs.names
          inodes :=
            if (erase r fs.names).any (fun kv => decide (kv.2 = Entry.file i)) then fs.inodes
            else erase i fs.inodes }
      | some Entry.dir =>
        if fs.names.any (fun kv => startsWith (r ++ [slash]) kv.1) ||
            fs.links.any (fun kv => startsWith (r ++ [slash]) kv.1) then
          Except.error Errno.ENOTEMPTY
        else Except.ok { fs with names := erase r fs.names }

/-! ## The functions of `main.go` -/

/-- The errors the functions return, one constructor for each `fmt.Errorf` of the source. -/
inductive Err where
  /-- The message `file already exists at %s`. -/
  | alreadyExists (path : Bytes)
  /-- The message `failed to create file: %w`. -/
  | createFile (e : Errno)
  /-- The message `failed to write crate to file: %w`. -/
  | writeCrate (e : Errno)
  /-- The message `failed to open file: %w`. -/
  | openFile (e : Errno)
  /-- The message `failed to decode crate: %w`. -/
  | decodeCrate (e : DecodeErr)
  /-- The message `failed to write binary file: %w`. -/
  | writeBinary (e : Errno)
  /-- The message `failed to remove binary file: %w`. -/
  | removeBinary (e : Errno)
  /-- The message `error rerunning with sudo: %v`. -/
  | rerunSudo
deriving DecidableEq

/-- The ways the process is terminated by `log.Fatal*`, one constructor for each message of
the source. -/
inductive Fatal where
  /-- The message `Error writing binary file: %v`. -/
  | unpackWrite (e : Errno)
  /-- The message `Installing on windows not available yet`. -/
  | windowsInstall
  /-- The message `Error opening binary file: %v`. -/
  | openBinary (e : Errno)
  /-- The message `Error reading binary file: %v`. -/
  | readBinary (e : Errno)
  /-- The message `Error reading project name:`. -/
  | readProjectName
  /-- The message `Error reading binary file name:`. -/
  | readBinaryName
  /-- The message `Error reading source URL:`. -/
  | readSourceURL
  /-- The message `Error saving crate:`. -/
  | savingCrate (e : Err)
  /-- The message `Error getting root: %v`. -/
  | gettingRoot (e : Err)
  /-- The message `Error loading crate: %v`. -/
  | loadingCrate (e : Err)
  /-- The message `No binary file found in crate: %s`. -/
  | noBinary (projectName : Bytes)
  /-- The message `Error installing crate: %v`. -/
  | installing (e : Err)
  /-- The message `Error uninstalling crate: %v`. -/
  | uninstalling (e : Err)
  /-- The message `Error reading prefix path: %v`. -/
  | readPrefixPath
  /-- The message `Please provide a source URL to pull the crate.`. -/
  | noSourceURL
  /-- The message `Error pulling crate from URL: %v`. -/
  | pulling
  /-- The message `Failed to pull crate, status code: %d`. -/
  | pullStatus (code : Nat)
  /-- The message `Error reading response body: %v`. -/
  | readBody
  /-- The message `Error unmarshalling crate: %v`. -/
  | unmarshalling (e : DecodeErr)
  /-- The message `Error reading action: %v`. -/
  | readAction
  /-- The message `Error installing pulled crate: %v`. -/
  | installingPulled (e : Err)
  /-- The message `Error saving pulled crate: %v`. -/
  | savingPulled (e : Err)
deriving DecidableEq

/-- The outcome of a call: a value, a returned error, or termination by `log.Fatal*`. -/
inductive Res (α : Type) where
  | ok (a : α)
  | error (e : Err)
  | fatal (f : Fatal)
deriving DecidableEq

/-- The method `Crate.Save`. -/
def Save (c : Crate) (savePath : Bytes) (fs : FS) : Res Unit × FS :=
  if !IsNotExist (osStat savePath fs) then (Res.error (Err.alreadyExists savePath), fs)
  else
    match osCreate savePath fs with
    | Except.error e => (Res.error (Err.createFile e), fs)
    | Except.ok (fs1, file) =>
      let crateBytes := Marshal c
      match fileWrite file crateBytes fs1 with
      | Except.error e => (Res.error (Err.writeCrate e), fs1)
      | Except.ok fs2 => (Res.ok (), fs2)

/-- The function `LoadCrate`. -/
def LoadCrate (filePath : Bytes) (fs : FS) : Res Crate × FS :=
  match osOpen filePath fs with
  | Except.error e => (Res.error (Err.openFile e), fs)
  | Except.ok file =>
    match readAll file with
    | Except.error e => (Res.error (Err.decodeCrate (DecodeErr.read e)), fs)
    | Except.ok data =>
      match decoderDecode data with
      | Except.error e => (Res.error (Err.decodeCrate e), fs)
      | Except.ok crate => (Res.ok crate, fs)

/-- The method `Crate.UnpackBin`. -/
def UnpackBin (c : Crate) (pfx : Bytes) (fs : FS) : Res Unit × FS :=
  let filePath := Join [pfx, c.BinaryName]
  match osWriteFile filePath (c.BinaryFile.getD []) 0o755 fs with
  | Except.error e => (Res.fatal (Fatal.unpackWrite e), fs)
  | Except.ok fs1 => (Res.ok (), fs1)

/-- The method `Crate.Install`; `goos` is `runtime.GOOS`. -/
def Install (goos : String) (c : Crate) (fs : FS) : Res Unit × FS :=
  if goos = "windows" then (Res.fatal Fatal.windowsInstall, fs)
  else if goos = "linux" then
    let filePath := Join [utf8 "/bin", c.BinaryName]
    match osWriteFile filePath (c.BinaryFile.getD []) 0o755 fs with
    | Except.error e => (Res.error (Err.writeBinary e), fs)
    | Except.ok fs1 => (Res.ok (), fs1)
  else (Res.ok (), fs)

/-- The method `Crate.Uninstall`. -/
def Uninstall (c : Crate) (fs : FS) : Res Unit × FS :=
  let filePath := Join [utf8 "/bin", c.BinaryName]
  match osRemove filePath fs with
  | Except.error e => (Res.error (Err.removeBinary e), fs)
  | Except.ok fs1 => (Res.ok (), fs1)

/-- The function `buildCrate`. -/
def buildCrate (projectName binFile sourceURL : Bytes) (fs : FS) : Res Crate × FS :=
  match osOpen binFile fs with
  | Except.error e => (Res.fatal (Fatal.openBinary e), fs)
  | Except.ok file =>
    match readAll file with
    | Except.error e => (Res.fatal (Fatal.readBinary e), fs)
    | Except.ok content =>
      (Res.ok
        { ProjectName := projectName
          BinaryName := Base binFile
          BinaryFile := some content
          SourceURL := sourceURL }, fs)

/-! ## The process: `main` and `getRoot` -/

/-- The errors of `fmt.Scanln` the program tells apart: `io.EOF`, and any other. -/
inductive ScanErr where
  | eof
  | other
deriving DecidableEq

/-- What a call of `fmt.Scanln(&s)` did: the text it stored in `s` and the error it returned,
if any. -/
structure ScanResult where
  token : Bytes
  err : Option ScanErr
deriving DecidableEq

/-- The result of `http.Get`. -/
inductive HttpResult where
  /-- The request failed. -/
  | failed
  /-- A response with its status code and its body (`none`: reading the body fails). -/
  | response (status : Nat) (body : Option Bytes)

/-- Everything the process reads from its surroundings. -/
structure World where
  /-- The arguments `os.Args[1:]`. -/
  args : List Bytes
  /-- The constant `runtime.GOOS`. -/
  goos : String
  /-- The result of `os.Geteuid()`. -/
  euid : Nat
  /-- Whether `sudo` runs the command it is given. -/
  sudoRuns : Bool
  /-- The results of the calls of `fmt.Scanln`, in order. -/
  stdin : List ScanResult
  /-- The answer of the network to a GET request. -/
  http : Bytes → HttpResult
  fs : FS

/-- How the process ends: `main` returns or `os.Exit(0)` is called, or `log.Fatal*`. -/
inductive Exit where
  | success
  | fatal (f : Fatal)
deriving DecidableEq

/-- The next call of `fmt.Scanln`; with no input left it stores nothing and returns
`io.EOF`. -/
def scanln : List ScanResult → ScanResult × List ScanResult
  | [] => (⟨[], some ScanErr.eof⟩, [])
  | r :: rest => (r, rest)

/-- What `getRoot` comes to: it returns nil, it returns an error, or the process has exited
with status 0 after the run under `sudo`. -/
inductive RootResult where
  | proceed
  | failed (fs : FS)
  | exited (fs : FS)

/-- The function `getRoot`; `child` is the run of the program that `sudo` starts. -/
def getRoot (child : World → Exit × FS) (w : World) : RootResult :=
  if w.euid ≠ 0 then
    if w.goos = "windows" then RootResult.proceed
    else if !w.sudoRuns then RootResult.failed w.fs
    else
      match child { w with euid := 0 } with
      | (Exit.success, fs1) => RootResult.exited fs1
      | (Exit.fatal _, fs1) => RootResult.failed fs1
  else RootResult.proceed

/-- The body of `main`; `child` is the run of the program that `sudo` starts. -/
def mainWith (child : World → Exit × FS) (w : World) : Exit × FS :=
  let command := w.args.getD 0 []
  let subCommand := w.args.getD 1 []
  if command ∈ [utf8 "build", utf8 "Build", utf8 "B", utf8 "b"] then
    let (r1, in1) := scanln w.stdin
    if r1.err.isSome then (Exit.fatal Fatal.readProjectName, w.fs)
    else
      let (r2, in2) := scanln in1
      if r2.err.isSome then (Exit.fatal Fatal.readBinaryName, w.fs)
      else
        let (r3, _) := scanln in2
        if r3.err = some ScanErr.eof then (Exit.fatal Fatal.readSourceURL, w.fs)
        else
          match buildCrate r1.token r2.token r3.token w.fs with
          | (Res.ok crate, fs1) =>
            match Save crate (r1.token ++ utf8 ".json") fs1 with
            | (Res.ok _, fs2) => (Exit.success, fs2)
            | (Res.error e, fs2) => (Exit.fatal (Fatal.savingCrate e), fs2)
            | (Res.fatal f, fs2) => (Exit.fatal f, fs2)
          | (Res.error e, fs1) => (Exit.fatal (Fatal.savingCrate e), fs1)
          | (Res.fatal f, fs1) => (Exit.fatal f, fs1)
  else if command ∈ [utf8 "install", utf8 "Install", utf8 "I", utf8 "i"] then
    match getRoot child w with
    | RootResult.failed fs1 => (Exit.fatal (Fatal.gettingRoot Err.rerunSudo), fs1)
    | RootResult.exited fs1 => (Exit.success, fs1)
    | RootResult.proceed =>
      match LoadCrate subCommand w.fs with
      | (Res.ok crate, fs1) =>
        if crate.BinaryFile = none ∨ crate.payloadLen = 0 then
          (Exit.fatal (Fatal.noBinary crate.ProjectName), fs1)
        else
          match Install w.goos crate fs1 with
          | (Res.ok _, fs2) => (Exit.success, fs2)
          | (Res.error e, fs2) => (Exit.fatal (Fatal.installing e), fs2)
          | (Res.fatal f, fs2) => (Exit.fatal f, fs2)
      | (Res.error e, fs1) => (Exit.fatal (Fatal.loadingCrate e), fs1)
      | (Res.fatal f, fs1) => (Exit.fatal f, fs1)
  else if command ∈ [utf8 "uninstall", utf8 "Uninstall", utf8 "U", utf8 "u"] then
    match getRoot child w with
    | RootResult.failed fs1 => (Exit.fatal (Fatal.gettingRoot Err.rerunSudo), fs1)
    | RootResult.exited fs1 => (Exit.success, fs1)
    | RootResult.proceed =>
      match LoadCrate subCommand w.fs with
      | (Res.ok crate, fs1) =>
        match Uninstall crate fs1 with
        | (Res.ok _, fs2) => (Exit.success, fs2)
        | (Res.error e, fs2) => (Exit.fatal (Fatal.uninstalling e), fs2)
        | (Res.fatal f, fs2) => (Exit.fatal f, fs2)
      | (Res.error e, fs1) => (Exit.fatal (Fatal.loadingCrate e), fs1)
      | (Res.fatal f, fs1) => (Exit.fatal f, fs1)
  else if command ∈ [utf8 "get-bin", utf8 "Get-bin", utf8 "g", utf8 "G"] then
    match LoadCrate subCommand w.fs with
    | (Res.ok crate, fs1) =>
      if crate.BinaryFile = none ∨ crate.payloadLen = 0 then
        (Exit.fatal (Fatal.noBinary crate.ProjectName), fs1)
      else
        let (r, _) := scanln w.stdin
        if r.err.isSome then (Exit.fatal Fatal.readPrefixPath, fs1)
        else
          match UnpackBin crate r.token fs1 with
          | (Res.ok _, fs2) => (Exit.success, fs2)
          | (Res.error e, fs2) => (Exit.fatal (Fatal.installing e), fs2)
          | (Res.fatal f, fs2) => (Exit.fatal f, fs2)
    | (Res.error e, fs1) => (Exit.fatal (Fatal.loadingCrate e), fs1)
    | (Res.fatal f, fs1) => (Exit.fatal f, fs1)
  else if command ∈ [utf8 "pull", utf8 "Pull", utf8 "P", utf8 "p"] then
    if subCommand.length = 0 then (Exit.fatal Fatal.noSourceURL, w.fs)
    else
      match w.http subCommand with
      | HttpResult.failed => (Exit.fatal Fatal.pulling, w.fs)
      | HttpResult.response status body =>
        if status ≠ 200 then (Exit.fatal (Fatal.pullStatus status), w.fs)
        else
          match body with
          | none => (Exit.fatal Fatal.readBody, w.fs)
          | some respBytes =>
            match jsonUnmarshal respBytes with
            | Except.error e => (Exit.fatal (Fatal.unmarshalling e), w.fs)
            | Except.ok crate =>
              let (r, _) := scanln w.stdin
              if r.err.isSome then (Exit.fatal Fatal.readAction, w.fs)
              else if r.token = utf8 "install" then
                match Install w.goos crate w.fs with
                | (Res.ok _, fs2) => (Exit.success, fs2)
                | (Res.error e, fs2) => (Exit.fatal (Fatal.installingPulled e), fs2)
                | (Res.fatal f, fs2) => (Exit.fatal f, fs2)
              else if r.token = utf8 "save" then
                match Save crate (crate.ProjectName ++ utf8 ".json") w.fs with
                | (Res.ok _, fs2) => (Exit.success, fs2)
                | (Res.error e, fs2) => (Exit.fatal (Fatal.savingPulled e), fs2)
                | (Res.fatal f, fs2) => (Exit.fatal f, fs2)
              else (Exit.success, w.fs)
  else (Exit.success, w.fs)

/-- The program run by `sudo`: its effective user is root, so `getRoot` returns at once and
never starts a further run. -/
def mainAsRoot (w : World) : Exit × FS :=
  mainWith (fun w1 => (Exit.success, w1.fs)) { w with euid := 0 }

/-- The function `main`. -/
def main (w : World) : Exit × FS := mainWith mainAsRoot w

/-! ## States without links

A state written as a list of paths with the nodes there: no symbolic links, and one inode
for each regular file, numbered from 1 in the order of the list. -/

def namesOf : Nat → List (Bytes × Node) → List (Bytes × Entry)
  | _, [] => []
  | i, (p, Node.file _ _) :: t => (p, Entry.file i) :: namesOf (i + 1) t
  | i, (p, Node.dir) :: t => (p, Entry.dir) :: namesOf i t

def inodesOf : Nat → List (Bytes × Node) → List (Nat × (Bytes × Nat))
  | _, [] => []
  | i, (_, Node.file d m) :: t => (i, (d, m)) :: inodesOf (i + 1) t
  | i, (_, Node.dir) :: t => inodesOf i t

/-- The state without links that holds the given nodes at the given paths. -/
def FS.ofNodes (l : List (Bytes × Node)) (umask : Nat) : FS :=
  { links := [], names := namesOf 1 l, inodes := inodesOf 1 l, umask := umask }

/-! ## Concrete inputs -/

/-- An empty file system with the usual umask 022. -/
def emptyFS : FS := FS.ofNodes [] 0o022

/-- The crate of the scenario: project `tool`, payload `7F 45 4C 46`, no source URL. -/
def toolCrate : Crate := ⟨utf8 "tool", utf8 "tool", some [0x7F, 0x45, 0x4C, 0x46], []⟩

def toolPath : Bytes := utf8 "tool.json"

/-- The file system after `toolCrate` was saved to `tool.json`. -/
def toolSavedFS : FS := (Save toolCrate toolPath emptyFS).2

/-- A file system holding a built executable at `build/tool`. -/
def sourceFS : FS :=
  FS.ofNodes [(utf8 "build/tool", Node.file [0x7F, 0x45, 0x4C, 0x46] 0o755)] 0o022

/-- A crate document whose payload is the empty string. -/
def emptyPayloadDoc : Bytes :=
  utf8 "\x7b\"ProjectName\":\"x\",\"BinaryName\":\"x\",\"BinaryFile\":\"\",\"SourceURL\":\"\"\x7d"

/-- The run `pull http://h/x.json` as root on linux: the server answers 200 with
`emptyPayloadDoc`, and the user answers `install`. -/
def pullEmptyWorld : World :=
  { args := [utf8 "pull", utf8 "http://h/x.json"]
    goos := "linux"
    euid := 0
    sudoRuns := true
    stdin := [⟨utf8 "install", none⟩]
    http := fun _ => HttpResult.response 200 (some emptyPayloadDoc)
    fs := emptyFS }

/-- The run `install x.json` as root on linux, where `x.json` holds `emptyPayloadDoc`. -/
def installEmptyWorld : World :=
  { args := [utf8 "install", utf8 "x.json"]
    goos := "linux"
    euid := 0
    sudoRuns := true
    stdin := []
    http := fun _ => HttpResult.failed
    fs := FS.ofNodes [(utf8 "x.json", Node.file emptyPayloadDoc 0o644)] 0o022 }

/-- The run `pull http://h/x.json` where the server answers 404. -/
def pullNotFoundWorld : World :=
  { args := [utf8 "pull", utf8 "http://h/x.json"]
    goos := "linux"
    euid := 0
    sudoRuns := true
    stdin := [⟨utf8 "install", none⟩]
    http := fun _ => HttpResult.response 404 (some (Marshal toolCrate))
    fs := emptyFS }

/-- A crate document whose binary name climbs out of `/bin`. -/
def climbingDoc : Bytes :=
  utf8 ("\x7b\"ProjectName\":\"p\",\"BinaryName\":\"../etc/passwd\"," ++
    "\"BinaryFile\":\"f0VMRg==\",\"SourceURL\":\"\"\x7d")

/-- The crate `climbingDoc` decodes to. -/
def climbingCrate : Crate :=
  ⟨utf8 "p", utf8 "../etc/passwd", some [0x7F, 0x45, 0x4C, 0x46], []⟩

/-- A file system with the directories `/bin` and `/etc`, the file `/etc/passwd` with mode
0644, and the crate document `p.json`. -/
def etcFS : FS :=
  FS.ofNodes [(utf8 "/bin", Node.dir), (utf8 "/etc", Node.dir),
      (utf8 "/etc/passwd", Node.file (utf8 "root:x:0:0") 0o644),
      (utf8 "p.json", Node.file climbingDoc 0o644)] 0o022

/-- The state `etcFS` with the contents of `/etc/passwd` replaced by the payload. -/
def etcFSAfter : FS :=
  FS.ofNodes [(utf8 "/bin", Node.dir), (utf8 "/etc", Node.dir),
      (utf8 "/etc/passwd", Node.file [0x7F, 0x45, 0x4C, 0x46] 0o644),
      (utf8 "p.json", Node.file climbingDoc 0o644)] 0o022

/-- A file system in which `/bin/tool` is a symbolic link to the file `/etc/target`. -/
def linkedFS : FS :=
  { FS.ofNodes [(utf8 "/bin", Node.dir), (utf8 "/etc", Node.dir),
      (utf8 "/etc/target", Node.file (utf8 "config") 0o644)] 0o022 with
    links := [(utf8 "/bin/tool", utf8 "/etc/target")] }

/-- A file system in which `/bin/tool` and `/opt/tool` are two names (hard links) of one
file. -/
def hardLinkedFS : FS :=
  { links := []
    names := [(utf8 "/bin", Entry.dir), (utf8 "/opt", Entry.dir),
      (utf8 "/bin/tool", Entry.file 1), (utf8 "/opt/tool", Entry.file 1)]
    inodes := [(1, (utf8 "old", 0o755))]
    umask := 0o022 }

/-- A file system in which `/bin/tool` is a symbolic link whose target does not exist. -/
def danglingFS : FS :=
  { FS.ofNodes [(utf8 "/bin", Node.dir)] 0o022 with
    links := [(utf8 "/bin/tool", utf8 "/opt/gone")] }

/-- A file system in which `/bin` is a symbolic link to the directory `/usr/bin`, which holds
an older `tool` with mode 0700; `/etc/passwd` is there too. -/
def mergedFS : FS :=
  { FS.ofNodes [(utf8 "/usr", Node.dir), (utf8 "/usr/bin", Node.dir),
      (utf8 "/usr/bin/tool", Node.file (utf8 "old") 0o700),
      (utf8 "/etc", Node.dir), (utf8 "/etc/passwd", Node.file (utf8 "root:x:0:0") 0o644)]
      0o022 with
    links := [(utf8 "/bin", utf8 "/usr/bin")] }

/-- The state `mergedFS` with the contents of `/usr/bin/tool` replaced by the payload. -/
def mergedFSAfter : FS :=
  { FS.ofNodes [(utf8 "/usr", Node.dir), (utf8 "/usr/bin", Node.dir),
      (utf8 "/usr/bin/tool", Node.file [0x7F, 0x45, 0x4C, 0x46] 0o700),
      (utf8 "/etc", Node.dir), (utf8 "/etc/passwd", Node.file (utf8 "root:x:0:0") 0o644)]
      0o022 with
    links := [(utf8 "/bin", utf8 "/usr/bin")] }

/-- The run `install p.json` as root on linux in `etcFS`. -/
def installClimbingWorld : World :=
  { args := [utf8 "install", utf8 "p.json"]
    goos := "linux"
    euid := 0
    sudoRuns := true
    stdin := []
    http := fun _ => HttpResult.failed
    fs := etcFS }

/-- A plain file name: not empty, without a slash, and neither `.` nor `..`. -/
def plainName (s : Bytes) : Prop := s ≠ [] ∧ slash ∉ s ∧ s ≠ [dot] ∧ s ≠ [dot, dot]

/-- A byte that stands for itself inside a JSON string literal. -/
def plainByte (x : Byte) : Prop := x ≠ quote ∧ x ≠ backslash ∧ 0x20 ≤ x.val

/-- The scanned value of what `json.Marshal` writes for a `[]byte`. -/
def bytesJSON : Option Bytes → JSON
  | none => JSON.null
  | some b => JSON.str (b64Encode b)

/-- The members the scanner finds in `Marshal c`: the four field names with the string
literals as written. -/
def marshalMembers (c : Crate) : List (Bytes × JSON) :=
  [(utf8 "ProjectName", JSON.str (escapeFrom 0 c.ProjectName)),
    (utf8 "BinaryName", JSON.str (escapeFrom 0 c.BinaryName)),
    (utf8 "BinaryFile", bytesJSON c.BinaryFile),
    (utf8 "SourceURL", JSON.str (escapeFrom 0 c.SourceURL))]

/-- A crate whose source URL is the single byte FF, which is not valid UTF-8. -/
def latin1Crate : Crate := ⟨utf8 "tool", utf8 "tool", some [0x7F, 0x45, 0x4C, 0x46], [0xFF]⟩

/-- The crate that comes back after `latin1Crate` was saved: the byte FF has become U+FFFD. -/
def latin1Loaded : Crate :=
  ⟨utf8 "tool", utf8 "tool", some [0x7F, 0x45, 0x4C, 0x46], [0xEF, 0xBF, 0xBD]⟩

/-- An array element that decodes into a byte: an unsigned decimal literal below 256, or
`null`. -/
def isByteElem : JSON → Bool
  | JSON.num lit => lit.all isDigit && decide (digitsVal lit < 256)
  | JSON.null => true
  | _ => false

/-- A value that cannot be stored in field `f`: for a string field, anything but a string or
`null`; for `BinaryFile`, anything but `null`, a string of well-formed base64 text, or an
array of byte elements. -/
def rejectedValue : Field → JSON → Prop
  | Field.BinaryFile, JSON.str raw => ∀ s, unquote raw = some s → b64Decode s = none
  | Field.BinaryFile, JSON.null => False
  | Field.BinaryFile, JSON.arr items => ∃ x ∈ items, isByteElem x = false
  | Field.BinaryFile, _ => True
  | _, JSON.str _ => False
  | _, JSON.null => False
  | _, _ => True

/-- A file system with six documents: an object without members, an object with a fifth
member, `null`, a truncated object, an array, and an object whose project name is a
number. -/
def documentsFS : FS :=
  FS.ofNodes [(utf8 "empty.json", Node.file (utf8 "\x7b\x7d") 0o644),
      (utf8 "extra.json", Node.file (utf8 ("\x7b\"ProjectName\":\"p\",\"BinaryName\":\"b\"," ++
        "\"BinaryFile\":\"\",\"SourceURL\":\"\",\"Extra\":1\x7d")) 0o644),
      (utf8 "null.json", Node.file (utf8 "null") 0o644),
      (utf8 "cut.json", Node.file (utf8 "\x7b\"ProjectName\":") 0o644),
      (utf8 "array.json", Node.file (utf8 "[1]") 0o644),
      (utf8 "number.json", Node.file (utf8 "\x7b\"ProjectName\":5\x7d") 0o644)] 0o022

/-! ## The file system: basic facts -/

theorem lookup_store {κ α : Type} [DecidableEq κ] (q p : κ) (v : α) (l : List (κ × α)) :
    lookup q (store p v l) = if p = q then some v else lookup q l := by
  induction l with
  | nil => simp [store, lookup]
  | cons kv t ih =>
    obtain ⟨k, w⟩ := kv
    by_cases hk : k = p
    · subst hk
      simp only [store, if_true, lookup]
      by_cases hq : k = q <;> simp [hq]
    · simp only [store, if_neg hk, lookup, ih]
      by_cases hq : k = q
      · subst hq
        simp [Ne.symm hk]
      · simp [hq]

theorem lookup_erase {κ α : Type} [DecidableEq κ] (q p : κ) (l : List (κ × α)) :
    lookup q (erase p l) = if p = q then none else lookup q l := by
  induction l with
  | nil => simp [erase, lookup]
  | cons kv t ih =>
    obtain ⟨k, w⟩ := kv
    by_cases hk : k = p
    · subst hk
      simp only [erase, if_true, lookup, ih]
      by_cases hq : k = q <;> simp [hq]
    · simp only [erase, if_neg hk, lookup, ih]
      by_cases hq : k = q
      · subst hq
        simp [Ne.symm hk]
      · simp [hq]

theorem lookup_mem {κ α : Type} [DecidableEq κ] (k : κ) (v : α) (l : List (κ × α))
    (h : lookup k l = some v) : (k, v) ∈ l := by
  induction l with
  | nil => simp [lookup] at h
  | cons kv t ih =>
    obtain ⟨k1, w⟩ := kv
    simp only [lookup] at h
    split_ifs at h with hk
    · injection h with h
      subst hk
      subst h
      exact List.mem_cons_self _ _
    · exact List.mem_cons_of_mem _ (ih h)

theorem le_foldr_max (l : List Nat) (x : Nat) (h : x ∈ l) : x ≤ l.foldr max 0 := by
  induction l with
  | nil => exact absurd h (List.not_mem_nil _)
  | cons a t ih =>
    simp only [List.foldr_cons]
    rcases List.mem_cons.mp h with h | h
    · subst h
      exact Nat.le_max_left _ _
    · exact Nat.le_trans (ih h) (Nat.le_max_right _ _)

/-- No name of the state refers to the fresh inode. -/
theorem freshIno_unused (fs : FS) (k : Bytes) : lookup k fs.names ≠ some (Entry.file fs.freshIno) := by
  intro h
  have hm := lookup_mem _ _ _ h
  have : fs.freshIno ∈ fs.inodes.map (fun (kv : Nat × (Bytes × Nat)) => kv.1) ++
      fs.names.map (fun (kv : Bytes × Entry) => kv.2.ino) := by
    apply List.mem_append_right
    exact List.mem_map.mpr ⟨(k, Entry.file fs.freshIno), hm, rfl⟩
  have := le_foldr_max _ _ this
  unfold FS.freshIno at this
  omega

/-- Resolution reads the symbolic links only. -/
theorem resolve_congr {fs fs1 : FS} (h : fs1.links = fs.links) (b : Bool) (q : Bytes) :
    fs1.resolve b q = fs.resolve b q := by
  unfold FS.resolve
  rw [h]

/-- What `stat` sees under a resolved name is the same in two states that agree on the name
and on the inode it refers to. -/
theorem node_congr {fs fs1 : FS} (r : Bytes) (hn : lookup r fs1.names = lookup r fs.names)
    (hi : ∀ i, lookup r fs.names = some (Entry.file i) → lookup i fs1.inodes = lookup i fs.inodes) :
    fs1.node r = fs.node r := by
  unfold FS.node
  rw [hn]
  cases hl : lookup r fs.names with
  | none => rfl
  | some e =>
    cases e with
    | dir => rfl
    | file i => simp only [FS.inode, hi i hl]

theorem get_eq_some {fs : FS} {p : Bytes} {n : Node} :
    fs.get p = some n ↔ osStat p fs = Except.ok n := by
  unfold FS.get
  cases osStat p fs <;> simp [Except.toOption]

theorem get_eq_none {fs : FS} {p : Bytes} :
    fs.get p = none ↔ ∃ e, osStat p fs = Except.error e := by
  unfold FS.get
  cases osStat p fs <;> simp [Except.toOption]

/-- A successful `os.WriteFile`: the path resolves to a name `r`; afterwards `r` refers to an
inode `i` that holds `data`; the symbolic links, every other name and every other inode are
as before; and either `r` is new, with a new inode and mode `perm` less the umask, or `r`
referred to `i` before and the mode is kept. -/
theorem osWriteFile_ok {p data : Bytes} {perm : Nat} {fs fs1 : FS}
    (h : osWriteFile p data perm fs = Except.ok fs1) :
    ∃ r i m, fs.resolve true p = Except.ok r ∧ fs1.links = fs.links ∧ fs1.umask = fs.umask ∧
      lookup r fs1.names = some (Entry.file i) ∧
      (∀ k, k ≠ r → lookup k fs1.names = lookup k fs.names) ∧
      lookup i fs1.inodes = some (data, m) ∧
      (∀ j, j ≠ i → lookup j fs1.inodes = lookup j fs.inodes) ∧
      ((lookup r fs.names = none ∧ m = perm &&& (0o777 ^^^ (fs.umask &&& 0o777)) ∧
          ∀ k, lookup k fs.names ≠ some (Entry.file i)) ∨
        (lookup r fs.names = some (Entry.file i) ∧ m = (fs.inode i).2)) := by
  unfold osWriteFile openTrunc at h
  cases hr : fs.resolve true p with
  | error e => simp [hr] at h
  | ok r =>
    simp only [hr] at h
    cases hl : lookup r fs.names with
    | none =>
      simp only [hl, fileWrite, lookup_store, if_true] at h
      injection h with h
      subst h
      refine ⟨r, fs.freshIno, _, rfl, rfl, rfl, ?_, ?_, ?_, ?_, Or.inl ⟨hl, rfl, ?_⟩⟩
      · simp [lookup_store]
      · intro k hk
        simp only [lookup_store, if_neg (Ne.symm hk)]
      · simp [lookup_store]
      · intro j hj
        simp only [lookup_store, if_neg (Ne.symm hj)]
      · exact freshIno_unused fs
    | some e =>
      cases e with
      | dir => simp [hl] at h
      | file i =>
        simp only [hl, fileWrite, lookup_store, if_true] at h
        injection h with h
        subst h
        refine ⟨r, i, _, rfl, rfl, rfl, hl, fun k _ => rfl, ?_, ?_, Or.inr ⟨hl, rfl⟩⟩
        · simp [lookup_store]
        · intro j hj
          simp only [lookup_store, if_neg (Ne.symm hj)]

/-- After a successful `os.WriteFile` the path shows a regular file holding `data`; its mode
is `perm` less the umask if nothing was seen at the path before, and the mode of the file
seen there before otherwise. -/
theorem osWriteFile_get {p data : Bytes} {perm : Nat} {fs fs1 : FS}
    (h : osWriteFile p data perm fs = Except.ok fs1) :
    ∃ m, fs1.get p = some (Node.file data m) ∧
      (fs.get p = none → m = perm &&& (0o777 ^^^ (fs.umask &&& 0o777))) ∧
      (∀ d m0, fs.get p = some (Node.file d m0) → m = m0) := by
  obtain ⟨r, i, m, hr, hlinks, _, hname, _, hino, _, hcase⟩ := osWriteFile_ok h
  refine ⟨m, ?_, ?_, ?_⟩
  · rw [get_eq_some]
    simp [osStat, resolve_congr hlinks, hr, FS.node, hname, FS.inode, hino]
  · intro hnone
    rcases hcase with ⟨_, hm, _⟩ | ⟨hold, _⟩
    · exact hm
    · exfalso
      obtain ⟨e, he⟩ := get_eq_none.mp hnone
      simp [osStat, hr, FS.node, hold] at he
  · intro d m0 hsome
    have hs := get_eq_some.mp hsome
    rcases hcase with ⟨hnew, _, _⟩ | ⟨hold, hm⟩
    · simp [osStat, hr, FS.node, hnew] at hs
    · simp only [osStat, hr, FS.node, hold, Except.ok.injEq, Node.file.injEq] at hs
      rw [hm]
      exact hs.2

/-- Two states with the same symbolic links that show the same under every name but `r`:
every path that does not lead to `r` shows the same in both, to `stat` and to `lstat`. -/
theorem views_congr {fs fs1 : FS} {r : Bytes} (hlinks : fs1.links = fs.links)
    (hnode : ∀ k, k ≠ r → fs1.node k = fs.node k) :
    (∀ q, fs.resolve true q ≠ Except.ok r → fs1.get q = fs.get q) ∧
    (∀ q, fs.resolve false q ≠ Except.ok r → fs1.lget q = fs.lget q) := by
  constructor
  · intro q hq
    unfold FS.get osStat
    rw [resolve_congr hlinks]
    cases hres : fs.resolve true q with
    | error e => rfl
    | ok k =>
      have hk : k ≠ r := fun hkr => hq (by rw [hres, hkr])
      simp only [hnode k hk]
  · intro q hq
    unfold FS.lget osLstat
    rw [resolve_congr hlinks, hlinks]
    cases hres : fs.resolve false q with
    | error e => rfl
    | ok k =>
      have hk : k ≠ r := fun hkr => hq (by rw [hres, hkr])
      simp only [hnode k hk]

/-- After a successful `os.WriteFile` to the name `r`, a path that does not lead to `r`
shows what it showed before, provided no other name is a hard link to the file that was at
`r`. -/
theorem osWriteFile_others {p data : Bytes} {perm : Nat} {fs fs1 : FS} {r : Bytes}
    (h : osWriteFile p data perm fs = Except.ok fs1) (hr : fs.resolve true p = Except.ok r)
    (hsole : ∀ i, lookup r fs.names = some (Entry.file i) →
      ∀ k, k ≠ r → lookup k fs.names ≠ some (Entry.file i)) :
    (∀ q, fs.resolve true q ≠ Except.ok r → fs1.get q = fs.get q) ∧
    (∀ q, fs.resolve false q ≠ Except.ok r → fs1.lget q = fs.lget q) := by
  obtain ⟨r1, i, m, hr1, hlinks, _, hname, hnames, hino, hinos, hcase⟩ := osWriteFile_ok h
  rw [hr] at hr1
  injection hr1 with hr1
  subst hr1
  apply views_congr hlinks
  intro k hk
  apply node_congr k (hnames k hk)
  intro j hj
  apply hinos
  intro hji
  subst hji
  rcases hcase with ⟨_, _, hfresh⟩ | ⟨hold, _⟩
  · exact hfresh k hj
  · exact hsole j hold k hk hj

/-! ## Symbolic links and the last name of a path -/

theorem shortest_mem {l : List (Bytes × Bytes)} {y : Bytes × Bytes} (h : shortest l = some y) :
    y ∈ l := by
  induction l generalizing y with
  | nil => simp [shortest] at h
  | cons x xs ih =>
    simp only [shortest] at h
    cases hs : shortest xs with
    | none =>
      simp only [hs, Option.some.injEq] at h
      subst h
      exact List.mem_cons_self _ _
    | some z =>
      simp only [hs] at h
      split_ifs at h
      · simp only [Option.some.injEq] at h
        subst h
        exact List.mem_cons_self _ _
      · simp only [Option.some.injEq] at h
        subst h
        exact List.mem_cons_of_mem _ (ih hs)

theorem shortest_eq_none {l : List (Bytes × Bytes)} (h : shortest l = none) : l = [] := by
  cases l with
  | nil => rfl
  | cons x xs =>
    exfalso
    simp only [shortest] at h
    cases hs : shortest xs with
    | none => simp [hs] at h
    | some y =>
      simp only [hs] at h
      split_ifs at h

theorem startsWith_length : ∀ (a p : Bytes), startsWith a p = true → a.length ≤ p.length
  | [], _, _ => Nat.zero_le _
  | _ :: _, [], h => by simp [startsWith] at h
  | x :: a, y :: p, h => by
    simp only [startsWith, Bool.and_eq_true] at h
    have := startsWith_length a p h.2
    simp only [List.length_cons]
    omega

/-- A symbolic link at a directory of the path is shorter than the path. -/
theorem onPath_length {p : Bytes} {x : Bytes × Bytes} (h : onPath false p x = true) :
    x.1.length < p.length := by
  simp only [onPath, Bool.false_and, Bool.or_false] at h
  have := startsWith_length _ _ h
  simp only [List.length_append, List.length_singleton] at this
  omega

theorem onPath_follow {p : Bytes} {x : Bytes × Bytes} (h : onPath true p x = true) :
    onPath false p x = true ∨ x.1 = p := by
  simp only [onPath, Bool.true_and, Bool.or_eq_true, decide_eq_true_eq] at h
  rcases h with h | h
  · left
    simp [onPath, h]
  · exact Or.inr h

theorem onPath_of_dir {p : Bytes} {x : Bytes × Bytes} (h : onPath false p x = true) :
    onPath true p x = true := by
  simp only [onPath, Bool.false_and, Bool.or_false] at h
  simp [onPath, h]

/-- The first link met at a directory of the path is met first also when the last name is
followed: a link at the last name is longer. -/
theorem shortest_follow (p : Bytes) (l : Bytes × Bytes) :
    ∀ (L : List (Bytes × Bytes)), shortest (L.filter (onPath false p)) = some l →
      shortest (L.filter (onPath true p)) = some l
  | [], h => by simp [shortest] at h
  | x :: xs, h => by
    have ih := shortest_follow p l xs
    by_cases hf : onPath false p x = true
    · have hg := onPath_of_dir hf
      rw [List.filter_cons_of_pos hf] at h
      rw [List.filter_cons_of_pos hg]
      simp only [shortest] at h ⊢
      cases hs : shortest (xs.filter (onPath false p)) with
      | some y =>
        rw [hs] at h
        rw [shortest_follow p y xs hs]
        exact h
      | none =>
        rw [hs] at h
        have hnil := shortest_eq_none hs
        cases hs2 : shortest (xs.filter (onPath true p)) with
        | none => exact h
        | some y =>
          have hy := List.mem_filter.mp (shortest_mem hs2)
          have hyp : y.1 = p := by
            rcases onPath_follow hy.2 with hyf | hyp
            · have : y ∈ xs.filter (onPath false p) := List.mem_filter.mpr ⟨hy.1, hyf⟩
              rw [hnil] at this
              exact absurd this (List.not_mem_nil _)
            · exact hyp
          have hlen := onPath_length hf
          have : x.1.length ≤ y.1.length := by
            rw [hyp]
            omega
          simp only [if_pos this]
          exact h
    · have hf0 : ¬ onPath false p x = true := hf
      rw [List.filter_cons_of_neg hf0] at h
      by_cases hg : onPath true p x = true
      · rw [List.filter_cons_of_pos hg]
        have hxp : x.1 = p := by
          rcases onPath_follow hg with h1 | h1
          · exact absurd h1 hf
          · exact h1
        have hl := onPath_length (List.mem_filter.mp (shortest_mem h)).2
        simp only [shortest, ih h]
        have : ¬ x.1.length ≤ l.1.length := by
          rw [hxp]
          omega
        rw [if_neg this]
      · rw [List.filter_cons_of_neg hg]
        exact ih h

theorem lookup_none {κ α : Type} [DecidableEq κ] (k : κ) (l : List (κ × α))
    (h : lookup k l = none) : ∀ x ∈ l, x.1 ≠ k := by
  induction l with
  | nil =>
    intro x hx
    exact absurd hx (List.not_mem_nil _)
  | cons kv t ih =>
    obtain ⟨k1, v⟩ := kv
    simp only [lookup] at h
    split_ifs at h with hk
    intro x hx
    rcases List.mem_cons.mp hx with hx | hx
    · subst hx
      exact hk
    · exact ih h x hx

/-- When no symbolic link stands at a path and none at a directory of it, none is met with
the last name followed either. -/
theorem linkOn_follow_none {links : List (Bytes × Bytes)} {p : Bytes}
    (h : linkOn links false p = none) (hl : lookup p links = none) :
    linkOn links true p = none := by
  unfold linkOn at h ⊢
  have hnil := shortest_eq_none h
  have : links.filter (onPath true p) = [] := by
    rw [List.filter_eq_nil_iff]
    intro x hx hg
    rcases onPath_follow hg with h1 | h1
    · have : x ∈ links.filter (onPath false p) := List.mem_filter.mpr ⟨hx, h1⟩
      rw [hnil] at this
      exact absurd this (List.not_mem_nil _)
    · exact lookup_none p links hl x hx h1
  rw [this]
  rfl

theorem resolveFrom_follow (links : List (Bytes × Bytes)) (r : Bytes)
    (hl : lookup r links = none) :
    ∀ (n : Nat) (p : Bytes), resolveFrom links false n p = Except.ok r →
      resolveFrom links true n p = Except.ok r
  | 0, _, h => by simp [resolveFrom] at h
  | n + 1, p, h => by
    simp only [resolveFrom] at h ⊢
    cases hf : linkOn links false p with
    | none =>
      simp only [hf, Except.ok.injEq] at h
      subst h
      rw [linkOn_follow_none hf hl]
    | some l =>
      simp only [hf] at h
      have : linkOn links true p = some l := shortest_follow p l links hf
      rw [this]
      exact resolveFrom_follow links r hl n _ h

/-- If the name a path leads to, symbolic links at its directories followed, is not a
symbolic link itself, the path leads to the same name when the last name is followed too:
`stat` and `lstat` look at the same name. -/
theorem resolve_follow {fs : FS} {p r : Bytes} (hr : fs.resolve false p = Except.ok r)
    (hl : lookup r fs.links = none) : fs.resolve true p = Except.ok r := by
  unfold FS.resolve at hr ⊢
  cases hp : pathErr p with
  | some e => simp [hp] at hr
  | none =>
    simp only [hp] at hr ⊢
    exact resolveFrom_follow fs.links r hl 40 p hr

/-- Where the name a path leads to is not a symbolic link, `lstat` sees at the path the node
that `stat` sees. -/
theorem lget_of_get {fs : FS} {p r : Bytes} {n : Node} (hr : fs.resolve false p = Except.ok r)
    (hl : lookup r fs.links = none) (hg : fs.get p = some n) :
    fs.lget p = some (LNode.node n) := by
  have hs := get_eq_some.mp hg
  simp only [osStat, resolve_follow hr hl] at hs
  cases hn : fs.node r with
  | none => simp [hn] at hs
  | some n1 =>
    simp only [hn, Except.ok.injEq] at hs
    subst hs
    simp [FS.lget, osLstat, hr, hl, hn, Except.toOption]

/-- In a state without symbolic links `lstat` sees what `stat` sees. -/
theorem lget_eq_get {fs : FS} (h : fs.links = []) (p : Bytes) :
    fs.lget p = (fs.get p).map LNode.node := by
  unfold FS.lget FS.get osLstat osStat FS.resolve
  rw [h]
  cases pathErr p with
  | some e => rfl
  | none =>
    have hres : ∀ b, resolveFrom [] b 40 p = Except.ok p := fun b => rfl
    simp only [hres, lookup]
    cases fs.node p <;> rfl

/-- Removing a name that is a regular file: the name is gone; the symbolic links, every
other name and every other inode are as before. -/
theorem osRemove_file (p r : Bytes) (i : Nat) (fs : FS) (hr : fs.resolve false p = Except.ok r)
    (hl : lookup r fs.links = none) (hn : lookup r fs.names = some (Entry.file i)) :
    ∃ fs2, osRemove p fs = Except.ok fs2 ∧ fs2.links = fs.links ∧ lookup r fs2.names = none ∧
      (∀ k, k ≠ r → lookup k fs2.names = lookup k fs.names) ∧
      (∀ j, j ≠ i → lookup j fs2.inodes = lookup j fs.inodes) := by
  refine ⟨{ fs with
      names := erase r fs.names
      inodes :=
        if (erase r fs.names).any (fun kv => decide (kv.2 = Entry.file i)) then fs.inodes
        else erase i fs.inodes }, ?_, rfl, ?_, ?_, ?_⟩
  · simp only [osRemove, hr, hl, hn]
  · simp [lookup_erase]
  · intro k hk
    simp only [lookup_erase, if_neg (Ne.symm hk)]
  · intro j hj
    show lookup j (if _ then _ else _) = _
    split_ifs
    · rfl
    · simp only [lookup_erase, if_neg (Ne.symm hj)]

/-! ## Package `path`: facts -/

/-- The loop of `path.Clean` reads at least one byte in each round, so any fuel that is at
least the length of the unread input gives the same result. -/
theorem cleanLoop_fuel (rooted : Bool) (f : Nat) :
    ∀ (g : Nat) (out : Bytes) (dotdot : Nat) (rem : Bytes), rem.length ≤ f → rem.length ≤ g →
      cleanLoop rooted f out dotdot rem = cleanLoop rooted g out dotdot rem := by
  induction f with
  | zero =>
    intro g out dotdot rem hf _
    have : rem = [] := List.length_eq_zero.mp (Nat.le_zero.mp hf)
    subst this
    cases g <;> rfl
  | succ f ih =>
    intro g out dotdot rem hf hg
    cases rem with
    | nil => cases g <;> rfl
    | cons c rest =>
      simp only [List.length_cons] at hf hg
      obtain ⟨g, rfl⟩ : ∃ g1, g = g1 + 1 := ⟨g - 1, by omega⟩
      have htail : rest.tail.length ≤ rest.length := by
        cases rest <;> simp
      have hdrop : c ≠ slash →
          ((c :: rest).dropWhile (fun b => decide (b ≠ slash))).length ≤ rest.length := by
        intro hc
        simp only [List.dropWhile_cons, ne_eq, hc, not_false_eq_true, decide_True, if_true]
        exact (List.dropWhile_sublist _).length_le
      rw [cleanLoop, cleanLoop]
      split_ifs with h1
      all_goals first
        | exact ih g _ _ _ (by omega) (by omega)
        | exact ih g _ _ _ (by have := hdrop h1; omega) (by have := hdrop h1; omega)


theorem utf8_bin : utf8 "/bin" = [47, 98, 105, 110] := by decide

theorem takeWhile_no_slash (s : Bytes) (h : slash ∉ s) :
    s.takeWhile (fun b => decide (b ≠ slash)) = s := by
  rw [List.takeWhile_eq_self_iff]
  intro x hx
  have : x ≠ slash := fun hxs => h (hxs ▸ hx)
  simp [this]

theorem dropWhile_no_slash (s : Bytes) (h : slash ∉ s) :
    s.dropWhile (fun b => decide (b ≠ slash)) = [] := by
  rw [List.dropWhile_eq_nil_iff]
  intro x hx
  have : x ≠ slash := fun hxs => h (hxs ▸ hx)
  simp [this]

/-- The loop of `path.Clean` on `/bin/` followed by a plain name copies the path. -/
theorem cleanLoop_bin_plain (s : Bytes) (hs : plainName s) (n : Nat) :
    cleanLoop true (n + 4) [47] 1 ([98, 105, 110, 47] ++ s) = [47, 98, 105, 110, 47] ++ s := by
  obtain ⟨hne, hns, hd, hdd⟩ := hs
  have step1 : cleanLoop true (n + 4) [47] 1 ([98, 105, 110, 47] ++ s) =
      cleanLoop true (n + 3) [47, 98, 105, 110] 1 (47 :: s) := by
    simp [cleanLoop, slash, dot, List.takeWhile, List.dropWhile]
  have step2 : cleanLoop true (n + 3) [47, 98, 105, 110] 1 (47 :: s) =
      cleanLoop true (n + 2) [47, 98, 105, 110] 1 s := by
    simp [cleanLoop, slash]
  rw [step1, step2]
  cases s with
  | nil => exact absurd rfl hne
  | cons c rest =>
    have hc : c ≠ slash := fun h => hns (h ▸ List.mem_cons_self _ _)
    have hrest : slash ∉ rest := fun h => hns (List.mem_cons_of_mem _ h)
    have hA : ¬ (c = dot ∧ (rest = [] ∨ rest.head? = some slash)) := by
      rintro ⟨h1, h2 | h2⟩
      · exact hd (by rw [h1, h2])
      · cases rest with
        | nil => simp at h2
        | cons r t =>
          simp only [List.head?, Option.some.injEq] at h2
          exact hrest (h2 ▸ List.mem_cons_self _ _)
    have hB : ¬ (c = dot ∧ rest.head? = some dot ∧
        (rest.tail = [] ∨ rest.tail.head? = some slash)) := by
      rintro ⟨h1, h2, h3⟩
      cases rest with
      | nil => simp at h2
      | cons r t =>
        simp only [List.head?, Option.some.injEq] at h2
        simp only [List.tail] at h3
        rcases h3 with h3 | h3
        · exact hdd (by rw [h1, h2, h3])
        · cases t with
          | nil => simp at h3
          | cons r2 t2 =>
            simp only [List.head?, Option.some.injEq] at h3
            exact hrest (h3 ▸ List.mem_cons_of_mem _ (List.mem_cons_self _ _))
    have step3 : cleanLoop true (n + 2) [47, 98, 105, 110] 1 (c :: rest) =
        cleanLoop true (n + 1) ([47, 98, 105, 110, 47] ++
          (c :: rest).takeWhile (fun b => decide (b ≠ slash))) 1
          ((c :: rest).dropWhile (fun b => decide (b ≠ slash))) := by
      rw [cleanLoop, if_neg hc, if_neg hA, if_neg hB]
      simp [slash]
    rw [step3, takeWhile_no_slash _ hns, dropWhile_no_slash _ hns, cleanLoop]

theorem joinBuf_bin (s : Bytes) :
    joinBuf [] [[47, 98, 105, 110], s] = 47 :: 98 :: 105 :: 110 :: 47 :: s := by
  simp [joinBuf, slash]

theorem Clean_bin_plain (s : Bytes) (hs : plainName s) :
    Clean (47 :: 98 :: 105 :: 110 :: 47 :: s) = 47 :: 98 :: 105 :: 110 :: 47 :: s := by
  have h := cleanLoop_bin_plain s hs (s.length + 2)
  simp only [List.cons_append, List.nil_append] at h
  have hlen : (47 :: 98 :: 105 :: 110 :: 47 :: s : Bytes).length + 1 = (s.length + 2) + 4 := by
    simp only [List.length_cons]
  have hr : decide ((47 : Byte) = slash) = true := by decide
  unfold Clean
  simp only [hr, if_true]
  rw [hlen, show ([slash] : Bytes) = [47] from rfl, h]
  simp

/-- For a plain file name, `path.Join("/bin", name)` is `/bin/` followed by the name. -/
theorem Join_bin_plain (s : Bytes) (hs : plainName s) :
    Join [utf8 "/bin", s] = utf8 "/bin/" ++ s := by
  have h5 : utf8 "/bin/" = [47, 98, 105, 110, 47] := by decide
  rw [h5, utf8_bin]
  unfold Join
  have hsum : ¬ ((List.map List.length [[47, 98, 105, 110], s]).sum = 0) := by
    simp
  rw [if_neg hsum, joinBuf_bin, Clean_bin_plain s hs]
  rfl

theorem takeWhile_append_stop {α : Type} (f : α → Bool) (l1 l2 : List α)
    (h1 : ∀ x ∈ l1, f x = true) (h2 : l2 = [] ∨ ∃ y t, l2 = y :: t ∧ f y = false) :
    (l1 ++ l2).takeWhile f = l1 := by
  induction l1 with
  | nil =>
    rcases h2 with h2 | ⟨y, t, h2, hy⟩
    · simp [h2]
    · simp [h2, List.takeWhile, hy]
  | cons a t ih =>
    have ha : f a = true := h1 a (List.mem_cons_self _ _)
    simp only [List.cons_append, List.takeWhile_cons, ha, if_true]
    rw [ih (fun x hx => h1 x (List.mem_cons_of_mem _ hx))]

/-- The function `path.Base` gives the last segment: of a path `d ++ s`, where `d` is empty
or ends in a slash and `s` is not empty and has no slash, it gives `s`. -/
theorem Base_last_segment (d s : Bytes) (hd : d = [] ∨ d.getLast? = some slash) (hs : s ≠ [])
    (hns : slash ∉ s) : Base (d ++ s) = s := by
  have hne : d ++ s ≠ [] := by simp [hs]
  obtain ⟨a, t, hrev⟩ : ∃ a t, s.reverse = a :: t := by
    cases hr : s.reverse with
    | nil => exact absurd (List.reverse_eq_nil_iff.mp hr) hs
    | cons a t => exact ⟨a, t, rfl⟩
  have ha : a ≠ slash := by
    intro h
    apply hns
    have : a ∈ s.reverse := by rw [hrev]; exact List.mem_cons_self _ _
    rw [← h]
    exact List.mem_reverse.mp this
  have hstrip : stripTrailingSlashes (d ++ s) = d ++ s := by
    unfold stripTrailingSlashes
    rw [List.reverse_append, hrev]
    have hs1 : s = t.reverse ++ [a] := by
      have := congrArg List.reverse hrev
      simpa using this
    simp only [List.cons_append, List.dropWhile_cons, ha, decide_False, Bool.false_eq_true,
      if_false]
    simp [hs1]
  have hafter : afterLastSlash (d ++ s) = s := by
    unfold afterLastSlash
    rw [List.reverse_append, takeWhile_append_stop, List.reverse_reverse]
    · intro x hx
      have : x ≠ slash := fun h => hns (h ▸ List.mem_reverse.mp hx)
      simp [this]
    · rcases hd with hd | hd
      · left
        simp [hd]
      · right
        cases hr : d.reverse with
        | nil =>
          have : d = [] := List.reverse_eq_nil_iff.mp hr
          simp [this] at hd
        | cons y t =>
          refine ⟨y, t, rfl, ?_⟩
          have : d = (y :: t).reverse := by rw [← hr, List.reverse_reverse]
          rw [this] at hd
          simp at hd
          simp [hd]
  unfold Base
  rw [if_neg hne]
  simp only [hstrip, hafter, if_neg hs]

/-! ## UTF-8: decoding then encoding a valid rune gives back its bytes -/

theorem byte_of_val (b : Byte) (n : Nat) (h : n = b.val) : byte n = b := by
  apply Fin.ext
  have := b.isLt
  simp only [byte, h]
  omega

theorem encodeRune_two (b0 b1 : Byte) (h0 : 0xC2 ≤ b0.val) (h0' : b0.val < 0xE0)
    (h1 : 0x80 ≤ b1.val) (h1' : b1.val ≤ 0xBF) :
    encodeRune ((b0.val % 32) * 64 + b1.val % 64) = [b0, b1] := by
  unfold encodeRune
  rw [if_neg (by omega), if_pos (by omega)]
  rw [byte_of_val b0 _ (by omega), byte_of_val b1 _ (by omega)]

theorem encodeRune_three (b0 b1 b2 : Byte) (h0 : 0xE0 ≤ b0.val) (h0' : b0.val < 0xF0)
    (h1 : (if b0.val = 0xE0 then 0xA0 else 0x80) ≤ b1.val)
    (h1' : b1.val ≤ (if b0.val = 0xED then 0x9F else 0xBF))
    (h2 : 0x80 ≤ b2.val) (h2' : b2.val ≤ 0xBF) :
    encodeRune ((b0.val % 16) * 4096 + (b1.val % 64) * 64 + b2.val % 64) = [b0, b1, b2] := by
  unfold encodeRune
  split_ifs at h1 h1' <;>
  · rw [if_neg (by omega), if_neg (by omega), if_neg (by omega), if_pos (by omega)]
    rw [byte_of_val b0 _ (by omega), byte_of_val b1 _ (by omega), byte_of_val b2 _ (by omega)]

theorem encodeRune_four (b0 b1 b2 b3 : Byte) (h0 : 0xF0 ≤ b0.val) (h0' : b0.val < 0xF5)
    (h1 : (if b0.val = 0xF0 then 0x90 else 0x80) ≤ b1.val)
    (h1' : b1.val ≤ (if b0.val = 0xF4 then 0x8F else 0xBF))
    (h2 : 0x80 ≤ b2.val) (h2' : b2.val ≤ 0xBF) (h3 : 0x80 ≤ b3.val) (h3' : b3.val ≤ 0xBF) :
    encodeRune ((b0.val % 8) * 262144 + (b1.val % 64) * 4096 + (b2.val % 64) * 64 + b3.val % 64) =
      [b0, b1, b2, b3] := by
  unfold encodeRune
  split_ifs at h1 h1' <;>
  · rw [if_neg (by omega), if_neg (by omega), if_neg (by omega), if_neg (by omega)]
    rw [byte_of_val b0 _ (by omega), byte_of_val b1 _ (by omega), byte_of_val b2 _ (by omega),
      byte_of_val b3 _ (by omega)]

/-- A rune of more than one byte that `decodeRune` accepts: the bytes after the first one
are `pre`, all of them at least 0x80; encoding the rune gives the bytes back; and the result
depends on these bytes only. -/
theorem decodeRune_valid (b : Byte) (t : Bytes) (hb : 0x80 ≤ b.val)
    (hv : ¬ ((decodeRune (b :: t)).1 = RuneError ∧ (decodeRune (b :: t)).2 = 1)) :
    ∃ pre post, t = pre ++ post ∧ pre.length + 1 = (decodeRune (b :: t)).2 ∧
      (∀ x ∈ pre, 0x80 ≤ x.val) ∧ encodeRune (decodeRune (b :: t)).1 = b :: pre ∧
      ∀ X, decodeRune (b :: (pre ++ X)) = decodeRune (b :: t) := by
  have hlt : ¬ b.val < 0x80 := by omega
  by_cases hC2 : b.val < 0xC2
  · exact absurd (by simp [decodeRune, hlt, hC2]) hv
  by_cases hE0 : b.val < 0xE0
  · cases t with
    | nil => exact absurd (by simp [decodeRune, hlt, hC2, hE0]) hv
    | cons b1 t1 =>
      by_cases hc : isCont b1 = true
      · have hd : ∀ X, decodeRune (b :: b1 :: X) = ((b.val % 32) * 64 + b1.val % 64, 2) := by
          intro X
          simp [decodeRune, hlt, hC2, hE0, hc]
        simp only [isCont, Bool.and_eq_true, decide_eq_true_eq] at hc
        refine ⟨[b1], t1, rfl, by rw [hd]; rfl, ?_, ?_, ?_⟩
        · intro x hx
          simp only [List.mem_singleton] at hx
          rw [hx]
          exact hc.1
        · rw [hd]
          exact encodeRune_two b b1 (by omega) hE0 hc.1 hc.2
        · intro X
          rw [List.singleton_append, hd, hd]
      · exact absurd (by simp [decodeRune, hlt, hC2, hE0, hc]) hv
  by_cases hF0 : b.val < 0xF0
  · rcases t with _ | ⟨b1, _ | ⟨b2, t2⟩⟩
    · exact absurd (by simp [decodeRune, hlt, hC2, hE0, hF0]) hv
    · exact absurd (by simp [decodeRune, hlt, hC2, hE0, hF0]) hv
    · by_cases hc : ((if b.val = 0xE0 then 0xA0 else 0x80) ≤ b1.val ∧
          b1.val ≤ (if b.val = 0xED then 0x9F else 0xBF)) ∧ isCont b2 = true
      · have hd : ∀ X, decodeRune (b :: b1 :: b2 :: X) =
            ((b.val % 16) * 4096 + (b1.val % 64) * 64 + b2.val % 64, 3) := by
          intro X
          simp [decodeRune, hlt, hC2, hE0, hF0, hc.1.1, hc.1.2, hc.2]
        obtain ⟨⟨h1, h1'⟩, h2⟩ := hc
        simp only [isCont, Bool.and_eq_true, decide_eq_true_eq] at h2
        refine ⟨[b1, b2], t2, rfl, by rw [hd]; rfl, ?_, ?_, ?_⟩
        · intro x hx
          simp only [List.mem_cons, List.mem_singleton, List.not_mem_nil, or_false] at hx
          rcases hx with hx | hx
          · rw [hx]
            split_ifs at h1 <;> omega
          · rw [hx]
            exact h2.1
        · rw [hd]
          exact encodeRune_three b b1 b2 (by omega) hF0 h1 h1' h2.1 h2.2
        · intro X
          simp only [List.cons_append, List.nil_append]
          rw [hd, hd]
      · refine absurd ?_ hv
        simp only [decodeRune, hlt, hC2, hE0, hF0, if_false, if_true]
        simp only [not_and_or, Bool.not_eq_true] at hc
        rcases hc with (hc | hc) | hc
        · simp [hc]
        · simp [hc]
        · simp [hc]
  by_cases hF5 : b.val < 0xF5
  · rcases t with _ | ⟨b1, _ | ⟨b2, _ | ⟨b3, t3⟩⟩⟩
    · exact absurd (by simp [decodeRune, hlt, hC2, hE0, hF0, hF5]) hv
    · exact absurd (by simp [decodeRune, hlt, hC2, hE0, hF0, hF5]) hv
    · exact absurd (by simp [decodeRune, hlt, hC2, hE0, hF0, hF5]) hv
    · by_cases hc : (((if b.val = 0xF0 then 0x90 else 0x80) ≤ b1.val ∧
          b1.val ≤ (if b.val = 0xF4 then 0x8F else 0xBF)) ∧ isCont b2 = true) ∧ isCont b3 = true
      · have hd : ∀ X, decodeRune (b :: b1 :: b2 :: b3 :: X) =
            ((b.val % 8) * 262144 + (b1.val % 64) * 4096 + (b2.val % 64) * 64 + b3.val % 64,
              4) := by
          intro X
          simp [decodeRune, hlt, hC2, hE0, hF0, hF5, hc.1.1.1, hc.1.1.2, hc.1.2, hc.2]
        obtain ⟨⟨⟨h1, h1'⟩, h2⟩, h3⟩ := hc
        simp only [isCont, Bool.and_eq_true, decide_eq_true_eq] at h2 h3
        refine ⟨[b1, b2, b3], t3, rfl, by rw [hd]; rfl, ?_, ?_, ?_⟩
        · intro x hx
          simp only [List.mem_cons, List.mem_singleton, List.not_mem_nil, or_false] at hx
          rcases hx with hx | hx | hx
          · rw [hx]
            split_ifs at h1 <;> omega
          · rw [hx]
            exact h2.1
          · rw [hx]
            exact h3.1
        · rw [hd]
          exact encodeRune_four b b1 b2 b3 (by omega) hF5 h1 h1' h2.1 h2.2 h3.1 h3.2
        · intro X
          simp only [List.cons_append, List.nil_append]
          rw [hd, hd]
      · refine absurd ?_ hv
        simp only [decodeRune, hlt, hC2, hE0, hF0, hF5, if_false, if_true]
        simp only [not_and_or, Bool.not_eq_true] at hc
        rcases hc with ((hc | hc) | hc) | hc
        · simp [hc]
        · simp [hc]
        · simp [hc]
        · simp [hc]
  · exact absurd (by simp [decodeRune, hlt, hC2, hE0, hF0, hF5]) hv

/-! ## JSON strings: what is written is read back -/


theorem hexVal_hexChar (n : Nat) (h : n < 16) : hexVal (hexChar n) = some n := by
  interval_cases n <;> decide

theorem scanString_cons (c : Byte) (rest : Bytes) :
    scanString (c :: rest) =
      if c = quote then some ([], rest)
      else if c = backslash then
        match rest with
        | [] => none
        | e :: rest2 =>
          if isSimpleEscape e then
            (scanString rest2).map (fun r => (c :: e :: r.1, r.2))
          else if e = 117 then
            match rest2 with
            | h1 :: h2 :: h3 :: h4 :: rest3 =>
              if (hexVal h1).isSome ∧ (hexVal h2).isSome ∧ (hexVal h3).isSome ∧
                  (hexVal h4).isSome then
                (scanString rest3).map (fun r => (c :: e :: h1 :: h2 :: h3 :: h4 :: r.1, r.2))
              else none
            | _ => none
          else none
      else if c.val < 0x20 then none
      else (scanString rest).map (fun r => (c :: r.1, r.2)) := by
  rw [scanString.eq_def]
  rfl

theorem scanString_plain (pre X : Bytes) (h : ∀ x ∈ pre, plainByte x) :
    scanString (pre ++ X) = (scanString X).map (fun r => (pre ++ r.1, r.2)) := by
  induction pre with
  | nil => simp
  | cons c t ih =>
    obtain ⟨h1, h2, h3⟩ := h c (List.mem_cons_self _ _)
    have h3' : ¬ c.val < 0x20 := by omega
    rw [List.cons_append, scanString_cons, if_neg h1, if_neg h2, if_neg h3',
      ih (fun x hx => h x (List.mem_cons_of_mem _ hx))]
    cases scanString X <;> simp

theorem scanString_simple (e : Byte) (X : Bytes) (h : isSimpleEscape e = true) :
    scanString (backslash :: e :: X) =
      (scanString X).map (fun r => (backslash :: e :: r.1, r.2)) := by
  rw [scanString_cons, if_neg (by decide), if_pos rfl]
  simp only [h, if_true]

theorem scanString_u (h1 h2 h3 h4 : Byte) (X : Bytes)
    (hh : (hexVal h1).isSome ∧ (hexVal h2).isSome ∧ (hexVal h3).isSome ∧ (hexVal h4).isSome) :
    scanString (backslash :: 117 :: h1 :: h2 :: h3 :: h4 :: X) =
      (scanString X).map (fun r => (backslash :: 117 :: h1 :: h2 :: h3 :: h4 :: r.1, r.2)) := by
  rw [scanString_cons, if_neg (by decide), if_pos rfl]
  simp only [show isSimpleEscape 117 = false by decide, Bool.false_eq_true, if_false, if_true, hh,
    and_self]

theorem escapeFrom_skip (k : Nat) (b : Byte) (t : Bytes) :
    escapeFrom (k + 1) (b :: t) = escapeFrom k t := by
  rw [escapeFrom]

theorem take_rune (b : Byte) (pre post : Bytes) (n : Nat) (h : pre.length + 1 = n) :
    (b :: (pre ++ post)).take n = b :: pre := by
  subst h
  simp

theorem plainByte_of_high (x : Byte) (h : 0x80 ≤ x.val) : plainByte x := by
  refine ⟨?_, ?_, by omega⟩
  · intro hx
    rw [hx] at h
    exact absurd h (by decide)
  · intro hx
    rw [hx] at h
    exact absurd h (by decide)

/-- The scanner reads the escaped form of any Go string up to the closing quote. -/
theorem scanString_escapeFrom (s : Bytes) :
    ∀ (k : Nat) (R : Bytes),
      scanString (escapeFrom k s ++ quote :: R) = some (escapeFrom k s, R) := by
  induction s with
  | nil =>
    intro k R
    have : escapeFrom k [] = [] := by cases k <;> rfl
    rw [this, List.nil_append, scanString_cons, if_pos rfl]
  | cons b t ih =>
    intro k R
    cases k with
    | succ k => rw [escapeFrom_skip]; exact ih k R
    | zero =>
      rw [escapeFrom.eq_3]
      by_cases hb : b.val < 0x80
      · rw [if_pos hb]
        by_cases hs : htmlSafe b = true
        · rw [if_pos hs, List.append_assoc, scanString_plain [b] _ ?_, ih 0 R]
          · rfl
          · intro x hx
            rw [List.mem_singleton] at hx
            subst hx
            simp only [htmlSafe, Bool.and_eq_true, decide_eq_true_eq, ne_eq] at hs
            exact ⟨hs.1.1.1.1.2, hs.1.1.1.2, hs.1.1.1.1.1.1⟩
        · rw [if_neg hs, List.append_assoc]
          unfold escapeAscii
          split_ifs with h1 h2 h3 h4 h5 h6
          · rw [List.cons_append, List.cons_append, List.nil_append,
              scanString_simple b _ (by rcases h1 with h1 | h1 <;> subst h1 <;> decide), ih 0 R]
            rfl
          · rw [List.cons_append, List.cons_append, List.nil_append,
              scanString_simple _ _ (by decide), ih 0 R]
            rfl
          · rw [List.cons_append, List.cons_append, List.nil_append,
              scanString_simple _ _ (by decide), ih 0 R]
            rfl
          · rw [List.cons_append, List.cons_append, List.nil_append,
              scanString_simple _ _ (by decide), ih 0 R]
            rfl
          · rw [List.cons_append, List.cons_append, List.nil_append,
              scanString_simple _ _ (by decide), ih 0 R]
            rfl
          · rw [List.cons_append, List.cons_append, List.nil_append,
              scanString_simple _ _ (by decide), ih 0 R]
            rfl
          · have hx : b.val / 16 < 16 := by omega
            have hy : b.val % 16 < 16 := by omega
            simp only [List.cons_append, List.nil_append]
            rw [scanString_u _ _ _ _ _ ⟨by decide, by decide,
              by rw [hexVal_hexChar _ hx]; rfl, by rw [hexVal_hexChar _ hy]; rfl⟩, ih 0 R]
            rfl
      · rw [if_neg hb]
        simp only []
        by_cases hv : (decodeRune (b :: t)).1 = RuneError ∧ (decodeRune (b :: t)).2 = 1
        · rw [if_pos hv]
          simp only [List.cons_append, List.nil_append]
          rw [scanString_u _ _ _ _ _ ⟨by decide, by decide, by decide, by decide⟩, ih 0 R]
          rfl
        · rw [if_neg hv]
          obtain ⟨pre, post, ht, hlen, hhigh, _, _⟩ := decodeRune_valid b t (by omega) hv
          by_cases hls : (decodeRune (b :: t)).1 = 0x2028 ∨ (decodeRune (b :: t)).1 = 0x2029
          · rw [if_pos hls]
            have hy : (decodeRune (b :: t)).1 % 16 < 16 := by omega
            simp only [List.cons_append, List.nil_append]
            rw [scanString_u _ _ _ _ _ ⟨by decide, by decide, by decide,
              by rw [hexVal_hexChar _ hy]; rfl⟩, ih _ R]
            rfl
          · rw [if_neg hls]
            have htake : (b :: t).take (decodeRune (b :: t)).2 = b :: pre := by
              rw [ht]
              exact take_rune b pre post _ (by rw [← ht]; exact hlen)
            rw [htake, List.append_assoc, scanString_plain (b :: pre) _ ?_, ih _ R]
            · rfl
            · intro x hx
              rcases List.mem_cons.mp hx with hx | hx
              · subst hx
                exact plainByte_of_high _ (by omega)
              · exact plainByte_of_high _ (hhigh x hx)

theorem unquoteFrom_zero_cons (c : Byte) (rest : Bytes) :
    unquoteFrom 0 (c :: rest) =
      if c = backslash then
        match rest with
        | [] => none
        | e :: _ =>
          if e = 117 then
            match getu4 (c :: rest) with
            | none => none
            | some rr =>
              if 0xD800 ≤ rr ∧ rr < 0xE000 then
                match getu4 (rest.drop 5) with
                | some rr1 =>
                  if rr < 0xDC00 ∧ 0xDC00 ≤ rr1 ∧ rr1 < 0xE000 then
                    (unquoteFrom 11 rest).map (fun t =>
                      encodeRune ((rr - 0xD800) * 1024 + (rr1 - 0xDC00) + 0x10000) ++ t)
                  else (unquoteFrom 5 rest).map (fun t => encodeRune RuneError ++ t)
                | none => (unquoteFrom 5 rest).map (fun t => encodeRune RuneError ++ t)
              else (unquoteFrom 5 rest).map (fun t => encodeRune rr ++ t)
          else
            match simpleEscape e with
            | none => none
            | some x => (unquoteFrom 1 rest).map (fun t => x :: t)
      else if c = quote ∨ c.val < 0x20 then none
      else if c.val < 0x80 then (unquoteFrom 0 rest).map (fun t => c :: t)
      else
        let d := decodeRune (c :: rest)
        (unquoteFrom (d.2 - 1) rest).map (fun t => encodeRune d.1 ++ t) := by
  rw [unquoteFrom.eq_def]
  rfl

theorem unquoteFrom_succ_cons (k : Nat) (c : Byte) (rest : Bytes) :
    unquoteFrom (k + 1) (c :: rest) = unquoteFrom k rest := by
  rw [unquoteFrom.eq_def]

theorem unquoteFrom_skip (pre X : Bytes) :
    unquoteFrom pre.length (pre ++ X) = unquoteFrom 0 X := by
  induction pre with
  | nil => rfl
  | cons a t ih => rw [List.length_cons, List.cons_append, unquoteFrom_succ_cons, ih]

theorem unquoteFrom_ascii (c : Byte) (X : Bytes) (h : plainByte c) (hc : c.val < 0x80) :
    unquoteFrom 0 (c :: X) = (unquoteFrom 0 X).map (fun t => c :: t) := by
  obtain ⟨h1, h2, h3⟩ := h
  rw [unquoteFrom_zero_cons, if_neg h2, if_neg (by rintro (h | h); exact h1 h; omega), if_pos hc]

theorem unquoteFrom_simple (e x : Byte) (X : Bytes) (he : e ≠ 117) (hx : simpleEscape e = some x) :
    unquoteFrom 0 (backslash :: e :: X) = (unquoteFrom 0 X).map (fun t => x :: t) := by
  rw [unquoteFrom_zero_cons, if_pos rfl]
  simp only [if_neg he, hx]
  exact congrArg _ (unquoteFrom_succ_cons 0 e X)

theorem unquoteFrom_u (h1 h2 h3 h4 : Byte) (a b c d : Nat) (X : Bytes)
    (ha : hexVal h1 = some a) (hb : hexVal h2 = some b) (hc : hexVal h3 = some c)
    (hd : hexVal h4 = some d)
    (hns : ¬ (0xD800 ≤ a * 4096 + b * 256 + c * 16 + d ∧ a * 4096 + b * 256 + c * 16 + d < 0xE000)) :
    unquoteFrom 0 (backslash :: 117 :: h1 :: h2 :: h3 :: h4 :: X) =
      (unquoteFrom 0 X).map (fun t => encodeRune (a * 4096 + b * 256 + c * 16 + d) ++ t) := by
  have hg : getu4 (backslash :: 117 :: h1 :: h2 :: h3 :: h4 :: X) =
      some (a * 4096 + b * 256 + c * 16 + d) := by
    simp [getu4, ha, hb, hc, hd]
  rw [unquoteFrom_zero_cons, if_pos rfl]
  simp only [if_true, hg, if_neg hns]
  rw [show (5 : Nat) = [(117 : Byte), h1, h2, h3, h4].length from rfl,
    show (117 : Byte) :: h1 :: h2 :: h3 :: h4 :: X = [(117 : Byte), h1, h2, h3, h4] ++ X from rfl,
    unquoteFrom_skip]

theorem unquoteFrom_rune (b : Byte) (pre X : Bytes) (d : Nat × Nat) (hb : 0x80 ≤ b.val)
    (hd : decodeRune (b :: (pre ++ X)) = d) (hlen : pre.length + 1 = d.2)
    (henc : encodeRune d.1 = b :: pre) :
    unquoteFrom 0 (b :: (pre ++ X)) = (unquoteFrom 0 X).map (fun t => b :: (pre ++ t)) := by
  have h1 : b ≠ backslash := (plainByte_of_high b hb).2.1
  have h2 : b ≠ quote := (plainByte_of_high b hb).1
  rw [unquoteFrom_zero_cons, if_neg h1, if_neg (by rintro (h | h); exact h2 h; omega),
    if_neg (by omega)]
  simp only [hd, henc]
  rw [show d.2 - 1 = pre.length by omega, unquoteFrom_skip]
  rfl

theorem validUTF8From_zero_cons (b : Byte) (t : Bytes) :
    validUTF8From 0 (b :: t) =
      if (decodeRune (b :: t)).1 = RuneError ∧ (decodeRune (b :: t)).2 = 1 then false
      else validUTF8From ((decodeRune (b :: t)).2 - 1) t := by
  rw [validUTF8From]

theorem validUTF8From_succ_cons (k : Nat) (b : Byte) (t : Bytes) :
    validUTF8From (k + 1) (b :: t) = validUTF8From k t := by
  rw [validUTF8From]

theorem decodeRune_ascii (b : Byte) (t : Bytes) (h : b.val < 0x80) :
    decodeRune (b :: t) = (b.val, 1) := by
  simp [decodeRune, h]

/-- Unquoting the escaped form of a valid UTF-8 string gives the string back. -/
theorem unquoteFrom_escapeFrom (s : Bytes) :
    ∀ k : Nat, validUTF8From k s = true → unquoteFrom 0 (escapeFrom k s) = some (s.drop k) := by
  induction s with
  | nil =>
    intro k _
    have : escapeFrom k [] = [] := by cases k <;> rfl
    rw [this]
    simp [unquoteFrom]
  | cons b t ih =>
    intro k hk
    cases k with
    | succ k =>
      rw [escapeFrom_skip, List.drop_succ_cons]
      rw [validUTF8From_succ_cons] at hk
      exact ih k hk
    | zero =>
      rw [validUTF8From_zero_cons] at hk
      rw [escapeFrom.eq_3, List.drop_zero]
      by_cases hb : b.val < 0x80
      · rw [decodeRune_ascii b t hb] at hk
        have hne : ¬ (b.val = RuneError) := by
          unfold RuneError
          omega
        have hk0 : validUTF8From 0 t = true := by simpa [hne] using hk
        have iht := ih 0 hk0
        rw [List.drop_zero] at iht
        rw [if_pos hb]
        by_cases hs : htmlSafe b = true
        · rw [if_pos hs, List.singleton_append, unquoteFrom_ascii b _ ?_ hb, iht]
          · rfl
          · simp only [htmlSafe, Bool.and_eq_true, decide_eq_true_eq, ne_eq] at hs
            exact ⟨hs.1.1.1.1.2, hs.1.1.1.2, hs.1.1.1.1.1.1⟩
        · rw [if_neg hs]
          unfold escapeAscii
          split_ifs with h1 h2 h3 h4 h5 h6
          · rw [List.cons_append, List.cons_append, List.nil_append,
              unquoteFrom_simple b b _ (by rcases h1 with h1 | h1 <;> subst h1 <;> decide)
                (by rcases h1 with h1 | h1 <;> subst h1 <;> decide), iht]
            rfl
          · rw [List.cons_append, List.cons_append, List.nil_append,
              unquoteFrom_simple _ 8 _ (by decide) (by decide), iht, h2]
            rfl
          · rw [List.cons_append, List.cons_append, List.nil_append,
              unquoteFrom_simple _ 12 _ (by decide) (by decide), iht, h3]
            rfl
          · rw [List.cons_append, List.cons_append, List.nil_append,
              unquoteFrom_simple _ 10 _ (by decide) (by decide), iht, h4]
            rfl
          · rw [List.cons_append, List.cons_append, List.nil_append,
              unquoteFrom_simple _ 13 _ (by decide) (by decide), iht, h5]
            rfl
          · rw [List.cons_append, List.cons_append, List.nil_append,
              unquoteFrom_simple _ 9 _ (by decide) (by decide), iht, h6]
            rfl
          · have hx : b.val / 16 < 16 := by omega
            have hy : b.val % 16 < 16 := by omega
            simp only [List.cons_append, List.nil_append]
            rw [unquoteFrom_u _ _ _ _ 0 0 (b.val / 16) (b.val % 16) _ (by decide) (by decide)
              (hexVal_hexChar _ hx) (hexVal_hexChar _ hy) (by omega), iht]
            have hr : 0 * 4096 + 0 * 256 + b.val / 16 * 16 + b.val % 16 = b.val := by omega
            rw [hr]
            unfold encodeRune
            rw [if_pos (by omega), byte_of_val b _ rfl]
            rfl
      · rw [if_neg hb]
        simp only []
        by_cases hv : (decodeRune (b :: t)).1 = RuneError ∧ (decodeRune (b :: t)).2 = 1
        · rw [if_pos hv] at hk
          exact absurd hk (by decide)
        · rw [if_neg hv] at hk
          rw [if_neg hv]
          obtain ⟨pre, post, ht, hlen, hhigh, henc, hdet⟩ := decodeRune_valid b t (by omega) hv
          have iht := ih _ hk
          have hdrop : t.drop ((decodeRune (b :: t)).2 - 1) = post := by
            rw [show (decodeRune (b :: t)).2 - 1 = pre.length by omega, ht]
            simp
          rw [hdrop] at iht
          by_cases hls : (decodeRune (b :: t)).1 = 0x2028 ∨ (decodeRune (b :: t)).1 = 0x2029
          · rw [if_pos hls]
            have hy : (decodeRune (b :: t)).1 % 16 < 16 := by omega
            simp only [List.cons_append, List.nil_append]
            rw [unquoteFrom_u _ _ _ _ 2 0 2 ((decodeRune (b :: t)).1 % 16) _ (by decide)
              (by decide) (by decide) (hexVal_hexChar _ hy) (by omega), iht]
            have hr : 2 * 4096 + 0 * 256 + 2 * 16 + (decodeRune (b :: t)).1 % 16 =
                (decodeRune (b :: t)).1 := by omega
            rw [hr, henc, ht]
            rfl
          · rw [if_neg hls]
            have htake : (b :: t).take (decodeRune (b :: t)).2 = b :: pre := by
              rw [ht]
              exact take_rune b pre post _ (by rw [← ht]; exact hlen)
            rw [htake, List.cons_append,
              unquoteFrom_rune b pre _ (decodeRune (b :: t)) (by omega) (hdet _) hlen henc, iht, ht]
            rfl

/-! ## Base64: what is written is read back -/

theorem b64Val_b64Char (i : Nat) (h : i < 64) : b64Val (b64Char i) = some i := by
  interval_cases i <;> decide

/-- Every character of the alphabet is a plain ASCII byte, and none is a line break or the
padding character. -/
theorem b64Char_text (i : Nat) (h : i < 64) :
    plainByte (b64Char i) ∧ (b64Char i).val < 0x80 ∧ b64Char i ≠ 10 ∧ b64Char i ≠ 13 ∧
      b64Char i ≠ b64Pad := by
  unfold plainByte
  interval_cases i <;> decide

theorem b64Pad_text : plainByte b64Pad ∧ b64Pad.val < 0x80 ∧ b64Pad ≠ 10 ∧ b64Pad ≠ 13 := by
  unfold plainByte
  decide

theorem b64Encode_text (bs : Bytes) :
    ∀ x ∈ b64Encode bs, plainByte x ∧ x.val < 0x80 ∧ x ≠ 10 ∧ x ≠ 13 := by
  induction bs using b64Encode.induct with
  | case1 => simp [b64Encode]
  | case2 a =>
    have ha := a.isLt
    intro x hx
    simp only [b64Encode, List.mem_cons, List.mem_singleton, List.not_mem_nil, or_false] at hx
    rcases hx with hx | hx | hx | hx <;> subst hx
    · exact ⟨(b64Char_text _ (by omega)).1, (b64Char_text _ (by omega)).2.1,
        (b64Char_text _ (by omega)).2.2.1, (b64Char_text _ (by omega)).2.2.2.1⟩
    · exact ⟨(b64Char_text _ (by omega)).1, (b64Char_text _ (by omega)).2.1,
        (b64Char_text _ (by omega)).2.2.1, (b64Char_text _ (by omega)).2.2.2.1⟩
    · exact b64Pad_text
    · exact b64Pad_text
  | case3 a b =>
    have ha := a.isLt
    have hb := b.isLt
    intro x hx
    simp only [b64Encode, List.mem_cons, List.mem_singleton, List.not_mem_nil, or_false] at hx
    rcases hx with hx | hx | hx | hx <;> subst hx
    · exact ⟨(b64Char_text _ (by omega)).1, (b64Char_text _ (by omega)).2.1,
        (b64Char_text _ (by omega)).2.2.1, (b64Char_text _ (by omega)).2.2.2.1⟩
    · exact ⟨(b64Char_text _ (by omega)).1, (b64Char_text _ (by omega)).2.1,
        (b64Char_text _ (by omega)).2.2.1, (b64Char_text _ (by omega)).2.2.2.1⟩
    · exact ⟨(b64Char_text _ (by omega)).1, (b64Char_text _ (by omega)).2.1,
        (b64Char_text _ (by omega)).2.2.1, (b64Char_text _ (by omega)).2.2.2.1⟩
    · exact b64Pad_text
  | case4 a b c rest ih =>
    have ha := a.isLt
    have hb := b.isLt
    have hc := c.isLt
    intro x hx
    simp only [b64Encode, List.mem_cons] at hx
    rcases hx with hx | hx | hx | hx | hx
    · subst hx
      exact ⟨(b64Char_text _ (by omega)).1, (b64Char_text _ (by omega)).2.1,
        (b64Char_text _ (by omega)).2.2.1, (b64Char_text _ (by omega)).2.2.2.1⟩
    · subst hx
      exact ⟨(b64Char_text _ (by omega)).1, (b64Char_text _ (by omega)).2.1,
        (b64Char_text _ (by omega)).2.2.1, (b64Char_text _ (by omega)).2.2.2.1⟩
    · subst hx
      exact ⟨(b64Char_text _ (by omega)).1, (b64Char_text _ (by omega)).2.1,
        (b64Char_text _ (by omega)).2.2.1, (b64Char_text _ (by omega)).2.2.2.1⟩
    · subst hx
      exact ⟨(b64Char_text _ (by omega)).1, (b64Char_text _ (by omega)).2.1,
        (b64Char_text _ (by omega)).2.2.1, (b64Char_text _ (by omega)).2.2.2.1⟩
    · exact ih x hx

theorem b64DecodeQuanta_b64Encode (bs : Bytes) : b64DecodeQuanta (b64Encode bs) = some bs := by
  induction bs using b64Encode.induct with
  | case1 => rfl
  | case2 a =>
    have ha := a.isLt
    rw [b64Encode, b64DecodeQuanta.eq_5, b64Val_b64Char _ (by omega), b64Val_b64Char _ (by omega)]
    simp only [if_true, and_self]
    rw [byte_of_val a _ (by omega)]
  | case3 a b =>
    have ha := a.isLt
    have hb := b.isLt
    rw [b64Encode, b64DecodeQuanta.eq_5, b64Val_b64Char _ (by omega), b64Val_b64Char _ (by omega)]
    simp only [if_neg (b64Char_text _ (show b.val % 16 * 4 < 64 by omega)).2.2.2.2,
      b64Val_b64Char _ (show b.val % 16 * 4 < 64 by omega), if_true]
    rw [byte_of_val a _ (by omega), byte_of_val b _ (by omega)]
  | case4 a b c rest ih =>
    have ha := a.isLt
    have hb := b.isLt
    have hc := c.isLt
    rw [b64Encode, b64DecodeQuanta.eq_5, b64Val_b64Char _ (by omega), b64Val_b64Char _ (by omega)]
    simp only [if_neg (b64Char_text _ (show b.val % 16 * 4 + c.val / 64 < 64 by omega)).2.2.2.2,
      b64Val_b64Char _ (show b.val % 16 * 4 + c.val / 64 < 64 by omega),
      if_neg (b64Char_text _ (show c.val % 64 < 64 by omega)).2.2.2.2,
      b64Val_b64Char _ (show c.val % 64 < 64 by omega), ih, Option.map_some']
    rw [byte_of_val a _ (by omega), byte_of_val b _ (by omega), byte_of_val c _ (by omega)]

/-- Decoding the base64 text of a byte sequence gives the sequence back. -/
theorem b64Decode_b64Encode (bs : Bytes) : b64Decode (b64Encode bs) = some bs := by
  unfold b64Decode
  rw [List.filter_eq_self.mpr, b64DecodeQuanta_b64Encode]
  intro x hx
  obtain ⟨_, _, h10, h13⟩ := b64Encode_text bs x hx
  simp [h10, h13]

/-- Unquoting a literal of plain ASCII bytes changes nothing. -/
theorem unquoteFrom_text (x : Bytes) (h : ∀ c ∈ x, plainByte c ∧ c.val < 0x80) :
    unquoteFrom 0 x = some x := by
  induction x with
  | nil => rfl
  | cons c t ih =>
    rw [unquoteFrom_ascii c t (h c (List.mem_cons_self _ _)).1 (h c (List.mem_cons_self _ _)).2,
      ih (fun y hy => h y (List.mem_cons_of_mem _ hy))]
    rfl

/-! ## The scanner on the document `Marshal` writes -/

theorem skipSpace_cons (c : Byte) (X : Bytes) (h : isSpace c = false) :
    skipSpace (c :: X) = c :: X := by
  simp [skipSpace, List.dropWhile, h]

theorem parseValue_string (f : Nat) (s R : Bytes) :
    parseValue (f + 1) (appendString s ++ R) = some (JSON.str (escapeFrom 0 s), R) := by
  have h : appendString s ++ R = quote :: (escapeFrom 0 s ++ quote :: R) := by
    simp [appendString]
  rw [h, parseValue.eq_2, skipSpace_cons _ _ (by decide)]
  simp only [show ¬ (quote = (123 : Byte)) by decide, show ¬ (quote = (91 : Byte)) by decide,
    if_false, if_true, scanString_escapeFrom, Option.map_some']

theorem parseValue_bytes (f : Nat) (b : Option Bytes) (R : Bytes) :
    parseValue (f + 1) (marshalBytes b ++ R) = some (bytesJSON b, R) := by
  cases b with
  | none =>
    have h : marshalBytes none ++ R = 110 :: 117 :: 108 :: 108 :: R := by
      rw [marshalBytes, show utf8 "null" = [110, 117, 108, 108] by decide]
      rfl
    rw [h, parseValue.eq_2, skipSpace_cons _ _ (by decide)]
    simp only [show ¬ ((110 : Byte) = 123) by decide, show ¬ ((110 : Byte) = 91) by decide,
      show ¬ ((110 : Byte) = quote) by decide,
      show ¬ ((110 : Byte) = 45 ∨ isDigit 110 = true) by decide,
      show ¬ ((110 : Byte) = 116) by decide, show ¬ ((110 : Byte) = 102) by decide, if_false,
      if_true, stripLit, Option.map_some', bytesJSON]
  | some x =>
    have h : marshalBytes (some x) ++ R = quote :: (b64Encode x ++ quote :: R) := by
      simp [marshalBytes]
    rw [h, parseValue.eq_2, skipSpace_cons _ _ (by decide)]
    simp only [show ¬ (quote = (123 : Byte)) by decide, show ¬ (quote = (91 : Byte)) by decide,
      if_false, if_true]
    rw [scanString_plain _ _ (fun c hc => (b64Encode_text x c hc).1), scanString_cons, if_pos rfl]
    simp [bytesJSON]

/-- One member `"key":value` followed by a comma or the closing brace. -/
theorem parseMembers_member (f : Nat) (key X R : Bytes) (v : JSON) (c4 : Byte)
    (hkey : ∀ x ∈ key, plainByte x) (hv : parseValue f X = some (v, c4 :: R))
    (hc4 : isSpace c4 = false) :
    parseMembers (f + 1) (quote :: (key ++ quote :: 58 :: X)) =
      if c4 = 44 then (parseMembers f R).map (fun r => ((key, v) :: r.1, r.2))
      else if c4 = 125 then some ([(key, v)], R) else none := by
  rw [parseMembers.eq_2, skipSpace_cons _ _ (by decide)]
  simp only [if_true]
  rw [scanString_plain key _ hkey, scanString_cons, if_pos rfl]
  simp only [Option.map_some', List.append_nil]
  rw [skipSpace_cons _ _ (by decide)]
  simp only [if_true, hv]
  rw [skipSpace_cons _ _ hc4]

theorem Marshal_eq (c : Crate) :
    Marshal c = 123 :: quote :: (utf8 "ProjectName" ++ quote :: 58 ::
      (appendString c.ProjectName ++ 44 :: quote :: (utf8 "BinaryName" ++ quote :: 58 ::
      (appendString c.BinaryName ++ 44 :: quote :: (utf8 "BinaryFile" ++ quote :: 58 ::
      (marshalBytes c.BinaryFile ++ 44 :: quote :: (utf8 "SourceURL" ++ quote :: 58 ::
      (appendString c.SourceURL ++ [125])))))))) := by
  have h1 : utf8 "\x7b\"ProjectName\":" = 123 :: quote :: (utf8 "ProjectName" ++ [quote, 58]) := by
    decide
  have h2 : utf8 ",\"BinaryName\":" = 44 :: quote :: (utf8 "BinaryName" ++ [quote, 58]) := by
    decide
  have h3 : utf8 ",\"BinaryFile\":" = 44 :: quote :: (utf8 "BinaryFile" ++ [quote, 58]) := by
    decide
  have h4 : utf8 ",\"SourceURL\":" = 44 :: quote :: (utf8 "SourceURL" ++ [quote, 58]) := by
    decide
  have h5 : utf8 "\x7d" = [125] := by decide
  rw [Marshal, h1, h2, h3, h4, h5]
  simp only [List.cons_append, List.append_assoc, List.nil_append]

set_option maxRecDepth 8000 in
theorem fieldNames_plain :
    (∀ x ∈ utf8 "ProjectName", plainByte x) ∧ (∀ x ∈ utf8 "BinaryName", plainByte x) ∧
    (∀ x ∈ utf8 "BinaryFile", plainByte x) ∧ (∀ x ∈ utf8 "SourceURL", plainByte x) := by
  unfold plainByte
  decide

theorem parseMembers_field (f : Nat) (key V R : Bytes) (v : JSON)
    (hkey : ∀ x ∈ key, plainByte x) (hV : ∀ R1, parseValue f (V ++ R1) = some (v, R1)) :
    parseMembers (f + 1) (quote :: (key ++ quote :: 58 :: (V ++ 44 :: R))) =
      (parseMembers f R).map (fun r => ((key, v) :: r.1, r.2)) := by
  rw [parseMembers_member f key (V ++ 44 :: R) R v 44 hkey (hV _) (by decide), if_pos rfl]

theorem parseMembers_last (f : Nat) (key V : Bytes) (v : JSON)
    (hkey : ∀ x ∈ key, plainByte x) (hV : ∀ R1, parseValue f (V ++ R1) = some (v, R1)) :
    parseMembers (f + 1) (quote :: (key ++ quote :: 58 :: (V ++ [125]))) =
      some ([(key, v)], []) := by
  rw [parseMembers_member f key (V ++ [125]) [] v 125 hkey (hV _) (by decide),
    if_neg (by decide), if_pos rfl]

/-- The scanner reads `Marshal c` as an object with the four members, and nothing is left. -/
theorem parseValue_Marshal (c : Crate) (n : Nat) :
    parseValue (n + 6) (Marshal c) = some (JSON.obj (marshalMembers c), []) := by
  obtain ⟨k1, k2, k3, k4⟩ := fieldNames_plain
  have m4 := parseMembers_last (n + 1) (utf8 "SourceURL") (appendString c.SourceURL) _ k4
    (parseValue_string n c.SourceURL)
  have m3 := parseMembers_field (n + 2) (utf8 "BinaryFile") (marshalBytes c.BinaryFile)
    (quote :: (utf8 "SourceURL" ++ quote :: 58 :: (appendString c.SourceURL ++ [125]))) _ k3
    (parseValue_bytes (n + 1) c.BinaryFile)
  rw [m4] at m3
  have m2 := parseMembers_field (n + 3) (utf8 "BinaryName") (appendString c.BinaryName)
    (quote :: (utf8 "BinaryFile" ++ quote :: 58 :: (marshalBytes c.BinaryFile ++ 44 ::
      quote :: (utf8 "SourceURL" ++ quote :: 58 :: (appendString c.SourceURL ++ [125]))))) _ k2
    (parseValue_string (n + 2) c.BinaryName)
  rw [m3] at m2
  have m1 := parseMembers_field (n + 4) (utf8 "ProjectName") (appendString c.ProjectName)
    (quote :: (utf8 "BinaryName" ++ quote :: 58 :: (appendString c.BinaryName ++ 44 ::
      quote :: (utf8 "BinaryFile" ++ quote :: 58 :: (marshalBytes c.BinaryFile ++ 44 ::
      quote :: (utf8 "SourceURL" ++ quote :: 58 :: (appendString c.SourceURL ++ [125]))))))) _ k1
    (parseValue_string (n + 3) c.ProjectName)
  rw [m2] at m1
  rw [Marshal_eq, parseValue.eq_2, skipSpace_cons _ _ (by decide)]
  simp only [if_true]
  rw [skipSpace_cons _ _ (by decide)]
  simp only [show ¬ (quote = (125 : Byte)) by decide, if_false]
  rw [m1]
  rfl

theorem Marshal_length (c : Crate) : 5 ≤ (Marshal c).length := by
  rw [Marshal_eq]
  simp only [List.length_cons, List.length_append]
  omega

/-- The decoder gives back the crate from its JSON form, when the three strings are valid
UTF-8. -/
theorem decoderDecode_Marshal (c : Crate) (h1 : validUTF8 c.ProjectName = true)
    (h2 : validUTF8 c.BinaryName = true) (h3 : validUTF8 c.SourceURL = true) :
    decoderDecode (Marshal c) = Except.ok c := by
  have hne : skipSpace (Marshal c) ≠ [] := by
    rw [Marshal_eq, skipSpace_cons _ _ (by decide)]
    exact List.cons_ne_nil _ _
  obtain ⟨n, hn⟩ : ∃ n, (Marshal c).length + 1 = n + 6 := ⟨(Marshal c).length - 5, by
    have := Marshal_length c
    omega⟩
  have u1 : unquote (escapeFrom 0 c.ProjectName) = some c.ProjectName :=
    unquoteFrom_escapeFrom c.ProjectName 0 h1
  have u2 : unquote (escapeFrom 0 c.BinaryName) = some c.BinaryName :=
    unquoteFrom_escapeFrom c.BinaryName 0 h2
  have u3 : unquote (escapeFrom 0 c.SourceURL) = some c.SourceURL :=
    unquoteFrom_escapeFrom c.SourceURL 0 h3
  have hk1 : unquote (utf8 "ProjectName") = some (utf8 "ProjectName") := by decide
  have hk2 : unquote (utf8 "BinaryName") = some (utf8 "BinaryName") := by decide
  have hk3 : unquote (utf8 "BinaryFile") = some (utf8 "BinaryFile") := by decide
  have hk4 : unquote (utf8 "SourceURL") = some (utf8 "SourceURL") := by decide
  have hf1 : fieldOf (utf8 "ProjectName") = some Field.ProjectName := by decide
  have hf2 : fieldOf (utf8 "BinaryName") = some Field.BinaryName := by decide
  have hf3 : fieldOf (utf8 "BinaryFile") = some Field.BinaryFile := by decide
  have hf4 : fieldOf (utf8 "SourceURL") = some Field.SourceURL := by decide
  have hb : decodeBytes (bytesJSON c.BinaryFile) = Except.ok c.BinaryFile := by
    cases hbf : c.BinaryFile with
    | none => rfl
    | some x =>
      simp only [bytesJSON, decodeBytes, unquote,
        unquoteFrom_text _ (fun y hy => ⟨(b64Encode_text x y hy).1, (b64Encode_text x y hy).2.1⟩),
        b64Decode_b64Encode]
  unfold decoderDecode
  rw [if_neg hne, hn, parseValue_Marshal]
  simp only [unmarshalCrate, marshalMembers, decodeMembers, hk1, hk2, hk3, hk4, hf1, hf2, hf3,
    hf4, setField, decodeString, u1, u2, u3, hb, Except.map, Crate.zero]

/-! ## `Save` -/

/-- When `os.Stat` sees something at the path, it does not report `ENOENT`. -/
theorem osStat_of_get {p : Bytes} {fs : FS} (h : fs.get p ≠ none) :
    IsNotExist (osStat p fs) = false := by
  unfold FS.get at h
  cases hs : osStat p fs with
  | error e =>
    rw [hs] at h
    exact absurd rfl h
  | ok n => rfl

/-- A successful `Save` found nothing at the path and then did what `os.WriteFile` does
with the JSON form of the crate and mode 0666. -/
theorem Save_ok {c : Crate} {p : Bytes} {fs fs1 : FS} (h : Save c p fs = (Res.ok (), fs1)) :
    fs.get p = none ∧ osWriteFile p (Marshal c) 0o666 fs = Except.ok fs1 := by
  unfold Save at h
  cases hst : IsNotExist (osStat p fs) with
  | false => simp [hst] at h
  | true =>
    have hget : fs.get p = none := by
      by_contra hne
      rw [osStat_of_get hne] at hst
      exact Bool.noConfusion hst
    refine ⟨hget, ?_⟩
    simp only [hst, Bool.not_true, Bool.false_eq_true, if_false, osCreate] at h
    unfold osWriteFile
    cases ho : openTrunc p 0o666 fs with
    | error e => simp [ho] at h
    | ok x =>
      obtain ⟨fs0, file⟩ := x
      simp only [ho] at h
      cases hw : fileWrite file (Marshal c) fs0 with
      | error e => simp [hw] at h
      | ok fs2 =>
        simp only [hw] at h
        injection h with _ h
        show fileWrite file (Marshal c) fs0 = Except.ok fs1
        rw [hw, h]

/-- C2. `Save` never overwrites.  If anything exists at path `p`, `c.Save(p)` returns the
error `file already exists` and the file system is returned unchanged (so the file at `p` and
every other file keep their bytes).  In particular, after a first `Save` at `p` succeeded and
gave the state `fs1`, the file at `p` holds the JSON form of the first crate, and a second
`Save` of any crate at `p` fails with that error and returns `fs1` unchanged. -/
theorem Save_never_overwrites (c c2 : Crate) (p : Bytes) (fs : FS) :
    (fs.get p ≠ none → Save c p fs = (Res.error (Err.alreadyExists p), fs)) ∧
    (∀ fs1, Save c p fs = (Res.ok (), fs1) →
      (∃ m, fs1.get p = some (Node.file (Marshal c) m)) ∧
      Save c2 p fs1 = (Res.error (Err.alreadyExists p), fs1)) := by
  have key : ∀ (c0 : Crate) (fs0 : FS), fs0.get p ≠ none →
      Save c0 p fs0 = (Res.error (Err.alreadyExists p), fs0) := by
    intro c0 fs0 h0
    simp [Save, osStat_of_get h0]
  refine ⟨key c fs, ?_⟩
  intro fs1 h1
  obtain ⟨m, hfile, _, _⟩ := osWriteFile_get (Save_ok h1).2
  exact ⟨⟨m, hfile⟩, key c2 fs1 (by simp [hfile])⟩

/-- C2, at a concrete input: `tool.json` exists after the first save, the second save fails
and the file system is the same. -/
theorem Save_never_overwrites_witness :
    (toolSavedFS.get toolPath ≠ none ∧
      Save Crate.zero toolPath toolSavedFS = (Res.error (Err.alreadyExists toolPath), toolSavedFS)) ∧
    (Save toolCrate toolPath emptyFS = (Res.ok (), toolSavedFS) ∧
      (∃ m, toolSavedFS.get toolPath = some (Node.file (Marshal toolCrate) m)) ∧
      Save Crate.zero toolPath toolSavedFS = (Res.error (Err.alreadyExists toolPath), toolSavedFS)) :=
  ⟨⟨by decide, (Save_never_overwrites Crate.zero Crate.zero toolPath toolSavedFS).1 (by decide)⟩,
    ⟨by decide,
      (Save_never_overwrites toolCrate Crate.zero toolPath emptyFS).2 toolSavedFS (by decide)⟩⟩

/-! ## `Save` then `LoadCrate` -/

/-- C1, refuted as stated.  The crate `latin1Crate` has a non-empty project name and the
source URL `"\xff"`, a Go string that is not valid UTF-8.  Nothing exists at `tool.json`,
`Save` succeeds, and `LoadCrate` succeeds but returns a crate whose source URL is U+FFFD
(`EF BF BD`), not the one saved. -/
theorem Save_LoadCrate_invalid_utf8 :
    latin1Crate.ProjectName ≠ [] ∧ emptyFS.get toolPath = none ∧
    (Save latin1Crate toolPath emptyFS).1 = Res.ok () ∧
    LoadCrate toolPath (Save latin1Crate toolPath emptyFS).2 =
      (Res.ok latin1Loaded, (Save latin1Crate toolPath emptyFS).2) ∧
    latin1Loaded ≠ latin1Crate := by
  refine ⟨by decide, by decide, by decide, by decide, by decide⟩

/-- C1, amended.  Round trip of `Save` and `LoadCrate`: for every crate whose `ProjectName`,
`BinaryName` and `SourceURL` are valid UTF-8 (with any byte sequence, nil included, as
`BinaryFile`) and every path, if `c.Save(p)` succeeds then `LoadCrate(p)` succeeds in the
resulting state and returns a crate equal to `c` in all four fields. -/
theorem Save_LoadCrate_roundtrip (c : Crate) (p : Bytes) (fs fs1 : FS)
    (h1 : validUTF8 c.ProjectName = true) (h2 : validUTF8 c.BinaryName = true)
    (h3 : validUTF8 c.SourceURL = true) (hs : Save c p fs = (Res.ok (), fs1)) :
    LoadCrate p fs1 = (Res.ok c, fs1) := by
  obtain ⟨m, hfile, _, _⟩ := osWriteFile_get (Save_ok hs).2
  simp only [LoadCrate, osOpen, get_eq_some.mp hfile, readAll, decoderDecode_Marshal c h1 h2 h3]

/-- C1 amended, at the scenario of the specification: project `tool`, payload `7F 45 4C 46`,
empty source URL, saved to `tool.json` and loaded again. -/
theorem Save_LoadCrate_roundtrip_witness :
    validUTF8 toolCrate.ProjectName = true ∧ validUTF8 toolCrate.BinaryName = true ∧
    validUTF8 toolCrate.SourceURL = true ∧
    Save toolCrate toolPath emptyFS = (Res.ok (), toolSavedFS) ∧
    LoadCrate toolPath toolSavedFS = (Res.ok toolCrate, toolSavedFS) :=
  ⟨by decide, by decide, by decide, by decide,
    Save_LoadCrate_roundtrip toolCrate toolPath emptyFS toolSavedFS (by decide) (by decide)
      (by decide) (by decide)⟩

/-! ## `Uninstall` -/

/-- C7. Uninstalling an absent binary is an error and changes nothing.  If nothing exists at
the path `Uninstall` resolves, `path.Join("/bin", c.BinaryName)`, it returns the error
`failed to remove binary file` and the file system is returned unchanged; and two crates
with the same `BinaryName` give the same outcome whatever their other fields are.  Nothing
exists at the path when `lstat` finds nothing there: no file, no directory and no symbolic
link (in a state without symbolic links that is what `stat` finds, see `lget_eq_get`). -/
theorem Uninstall_absent_fails (c : Crate) (fs : FS)
    (h : fs.lget (Join [utf8 "/bin", c.BinaryName]) = none) :
    (∃ e, Uninstall c fs = (Res.error (Err.removeBinary e), fs)) ∧
    ∀ c2 : Crate, c2.BinaryName = c.BinaryName → Uninstall c2 fs = Uninstall c fs := by
  constructor
  · unfold FS.lget osLstat at h
    cases hr : fs.resolve false (Join [utf8 "/bin", c.BinaryName]) with
    | error e => exact ⟨e, by simp [Uninstall, osRemove, hr]⟩
    | ok r =>
      simp only [hr] at h
      cases hl : lookup r fs.links with
      | some t => simp [hl, Except.toOption] at h
      | none =>
        simp only [hl, FS.node] at h
        cases hn : lookup r fs.names with
        | none => exact ⟨Errno.ENOENT, by simp [Uninstall, osRemove, hr, hl, hn]⟩
        | some e =>
          exfalso
          cases e <;> simp [hn, Except.toOption] at h
  · intro c2 h2
    simp [Uninstall, h2]

/-- C7, at a concrete input: nothing is at `/bin/tool` in the empty file system. -/
theorem Uninstall_absent_fails_witness :
    emptyFS.lget (Join [utf8 "/bin", toolCrate.BinaryName]) = none ∧
    ((∃ e, Uninstall toolCrate emptyFS = (Res.error (Err.removeBinary e), emptyFS)) ∧
      ∀ c2 : Crate, c2.BinaryName = toolCrate.BinaryName →
        Uninstall c2 emptyFS = Uninstall toolCrate emptyFS) :=
  ⟨by decide, Uninstall_absent_fails toolCrate emptyFS (by decide)⟩

/-- A symbolic link whose target does not exist is something at the path: in `danglingFS`
`stat` finds nothing at `/bin/tool`, `lstat` finds the link, and `Uninstall` removes it. -/
theorem Uninstall_removes_dangling_link :
    danglingFS.get (Join [utf8 "/bin", toolCrate.BinaryName]) = none ∧
    danglingFS.lget (Join [utf8 "/bin", toolCrate.BinaryName]) =
      some (LNode.symlink (utf8 "/opt/gone")) ∧
    Uninstall toolCrate danglingFS = (Res.ok (), FS.ofNodes [(utf8 "/bin", Node.dir)] 0o022) := by
  refine ⟨by decide, by decide, by decide⟩

/-! ## `Install` -/

/-- A successful `Install` on linux is a successful `os.WriteFile` of the payload at the
joined path with mode 0755. -/
theorem Install_linux_ok {c : Crate} {fs fs1 : FS} (h : Install "linux" c fs = (Res.ok (), fs1)) :
    osWriteFile (Join [utf8 "/bin", c.BinaryName]) (c.BinaryFile.getD []) 0o755 fs =
      Except.ok fs1 := by
  unfold Install at h
  rw [if_neg (by decide), if_pos rfl] at h
  cases hw : osWriteFile (Join [utf8 "/bin", c.BinaryName]) (c.BinaryFile.getD []) 0o755 fs with
  | error e => simp [hw] at h
  | ok fs0 =>
    simp only [hw] at h
    injection h with _ h
    rw [h]

/-- In `mergedFS` the file `/usr/bin/tool` has no other name. -/
theorem mergedFS_sole (i : Nat)
    (hi : lookup (utf8 "/usr/bin/tool") mergedFS.names = some (Entry.file i))
    (k : Bytes) (hk : k ≠ utf8 "/usr/bin/tool") :
    lookup k mergedFS.names ≠ some (Entry.file i) := by
  intro h
  rw [show lookup (utf8 "/usr/bin/tool") mergedFS.names = some (Entry.file 1) by decide] at hi
  injection hi with hi
  injection hi with hi
  subst hi
  have hm := lookup_mem _ _ _ h
  rw [show mergedFS.names = [(utf8 "/usr", Entry.dir), (utf8 "/usr/bin", Entry.dir),
    (utf8 "/usr/bin/tool", Entry.file 1), (utf8 "/etc", Entry.dir),
    (utf8 "/etc/passwd", Entry.file 2)] by decide] at hm
  simp at hm
  exact hk hm

/-- C6, refuted as stated.  In `linkedFS` the path `/bin/tool` is a symbolic link to
`/etc/target`: `Install` succeeds and writes the payload through the link, `Uninstall`
succeeds and removes the link only, and `/etc/target`, which held `config`, holds the
payload afterwards.  In `hardLinkedFS` the file at `/bin/tool` has the second name
`/opt/tool`: after `Install` and `Uninstall` the file `/opt/tool`, which held `old`, holds
the payload. -/
theorem Install_Uninstall_through_link :
    ((Install "linux" toolCrate linkedFS).1 = Res.ok () ∧
      (Uninstall toolCrate (Install "linux" toolCrate linkedFS).2).1 = Res.ok () ∧
      linkedFS.get (utf8 "/etc/target") = some (Node.file (utf8 "config") 0o644) ∧
      (Uninstall toolCrate (Install "linux" toolCrate linkedFS).2).2.get (utf8 "/etc/target") =
        some (Node.file [0x7F, 0x45, 0x4C, 0x46] 0o644)) ∧
    ((Install "linux" toolCrate hardLinkedFS).1 = Res.ok () ∧
      (Uninstall toolCrate (Install "linux" toolCrate hardLinkedFS).2).1 = Res.ok () ∧
      hardLinkedFS.get (utf8 "/opt/tool") = some (Node.file (utf8 "old") 0o755) ∧
      (Uninstall toolCrate (Install "linux" toolCrate hardLinkedFS).2).2.get (utf8 "/opt/tool") =
        some (Node.file [0x7F, 0x45, 0x4C, 0x46] 0o755)) := by
  refine ⟨⟨by decide, by decide, by decide, by decide⟩,
    ⟨by decide, by decide, by decide, by decide⟩⟩

/-- C6, amended.  Install and Uninstall are inverse on linux where the name installed is not
a link.  Let `P` be `path.Join("/bin", c.BinaryName)`, the path both resolve, and `r` the
name `P` leads to when the symbolic links at its directories are followed.  In a state where
`r` is not a symbolic link and the file at `r`, if there is one, has no other name (hard
link): if `c.Install()` succeeds and gives the state `fs1`, then `c.Uninstall()` run in
`fs1` succeeds; afterwards nothing exists at `P` (for `stat` and for `lstat`), the symbolic
links are as before `Install`, and every path that does not lead to `r` shows what it showed
before `Install`, to `stat` and to `lstat`. -/
theorem Install_then_Uninstall (c : Crate) (fs fs1 : FS) (r : Bytes)
    (hr : fs.resolve false (Join [utf8 "/bin", c.BinaryName]) = Except.ok r)
    (hlink : lookup r fs.links = none)
    (hsole : ∀ i, lookup r fs.names = some (Entry.file i) →
      ∀ k, k ≠ r → lookup k fs.names ≠ some (Entry.file i))
    (h : Install "linux" c fs = (Res.ok (), fs1)) :
    ∃ fs2, Uninstall c fs1 = (Res.ok (), fs2) ∧
      fs2.get (Join [utf8 "/bin", c.BinaryName]) = none ∧
      fs2.lget (Join [utf8 "/bin", c.BinaryName]) = none ∧
      fs2.links = fs.links ∧
      (∀ q, fs.resolve true q ≠ Except.ok r → fs2.get q = fs.get q) ∧
      (∀ q, fs.resolve false q ≠ Except.ok r → fs2.lget q = fs.lget q) := by
  have hrt := resolve_follow hr hlink
  obtain ⟨r1, i, m, hr1, hlinks, _, hname, hnames, hino, hinos, hcase⟩ :=
    osWriteFile_ok (Install_linux_ok h)
  rw [hrt] at hr1
  injection hr1 with hr1
  subst hr1
  obtain ⟨fs2, hrm, hlinks2, hgone, hnames2, hinos2⟩ :=
    osRemove_file (Join [utf8 "/bin", c.BinaryName]) _ _ fs1
      (by rw [resolve_congr hlinks]; exact hr) (by rw [hlinks]; exact hlink) hname
  have hnode : ∀ k, k ≠ r → fs2.node k = fs.node k := by
    intro k hk
    apply node_congr k (by rw [hnames2 k hk, hnames k hk])
    intro j hj
    have hji : j ≠ i := by
      intro hji
      subst hji
      rcases hcase with ⟨_, _, hfresh⟩ | ⟨hold, _⟩
      · exact hfresh k hj
      · exact hsole j hold k hk hj
    rw [hinos2 j hji, hinos j hji]
  have hl2 : fs2.links = fs.links := hlinks2.trans hlinks
  have hv := views_congr hl2 hnode
  refine ⟨fs2, by simp [Uninstall, hrm], ?_, ?_, hl2, hv.1, hv.2⟩
  · simp [FS.get, osStat, resolve_congr hl2, hrt, FS.node, hgone, Except.toOption]
  · simp [FS.lget, osLstat, resolve_congr hl2, hr, hl2, hlink, FS.node, hgone, Except.toOption]

/-- C6 amended, at a concrete input: in `mergedFS` the path `/bin/tool` leads to
`/usr/bin/tool`, an older file without a second name; installing `toolCrate` succeeds,
uninstalling it succeeds, nothing is at `/bin/tool` afterwards and the other paths are as
before. -/
theorem Install_then_Uninstall_witness :
    mergedFS.resolve false (Join [utf8 "/bin", toolCrate.BinaryName]) =
      Except.ok (utf8 "/usr/bin/tool") ∧
    lookup (utf8 "/usr/bin/tool") mergedFS.links = none ∧
    Install "linux" toolCrate mergedFS = (Res.ok (), mergedFSAfter) ∧
    ∃ fs2, Uninstall toolCrate mergedFSAfter = (Res.ok (), fs2) ∧
      fs2.get (Join [utf8 "/bin", toolCrate.BinaryName]) = none ∧
      fs2.lget (Join [utf8 "/bin", toolCrate.BinaryName]) = none ∧
      fs2.links = mergedFS.links ∧
      (∀ q, mergedFS.resolve true q ≠ Except.ok (utf8 "/usr/bin/tool") →
        fs2.get q = mergedFS.get q) ∧
      (∀ q, mergedFS.resolve false q ≠ Except.ok (utf8 "/usr/bin/tool") →
        fs2.lget q = mergedFS.lget q) :=
  ⟨by decide, by decide, by decide,
    Install_then_Uninstall toolCrate mergedFS mergedFSAfter (utf8 "/usr/bin/tool") (by decide)
      (by decide) mergedFS_sole (by decide)⟩

/-- C4. On an operating system that is neither windows nor linux (here darwin), `Install`
returns nil for every crate and every file system, and nothing has been written. -/
theorem Install_darwin_writes_nothing (c : Crate) (fs : FS) :
    Install "darwin" c fs = (Res.ok (), fs) := by
  unfold Install
  rw [if_neg (by decide), if_neg (by decide)]

/-! ## `Install`: the path written -/

/-- C5, refuted as stated.  The crate document `p.json` names the binary `../etc/passwd`.
It loads, `install p.json` ends with success, and the one file written is `/etc/passwd`,
outside `/bin`: its contents are now the payload, and its mode is still 0644, not 0755.
Nothing exists at `/bin/../etc/passwd` taken literally.  A plain name does not keep the
write inside `/bin` either: in `linkedFS`, where `/bin/tool` is a symbolic link to
`/etc/target`, installing `toolCrate` writes the payload to `/etc/target` and leaves the
link at `/bin/tool`; in `hardLinkedFS`, where the file at `/bin/tool` has the second name
`/opt/tool`, it replaces the contents seen at `/opt/tool`. -/
theorem Install_leaves_bin :
    LoadCrate (utf8 "p.json") etcFS = (Res.ok climbingCrate, etcFS) ∧
    Install "linux" climbingCrate etcFS = (Res.ok (), etcFSAfter) ∧
    main installClimbingWorld = (Exit.success, etcFSAfter) ∧
    etcFS.get (utf8 "/etc/passwd") = some (Node.file (utf8 "root:x:0:0") 0o644) ∧
    etcFSAfter.get (utf8 "/etc/passwd") = some (Node.file [0x7F, 0x45, 0x4C, 0x46] 0o644) ∧
    etcFSAfter.get (utf8 "/bin/" ++ climbingCrate.BinaryName) = none ∧
    (plainName toolCrate.BinaryName ∧
      (Install "linux" toolCrate linkedFS).1 = Res.ok () ∧
      linkedFS.get (utf8 "/etc/target") = some (Node.file (utf8 "config") 0o644) ∧
      (Install "linux" toolCrate linkedFS).2.get (utf8 "/etc/target") =
        some (Node.file [0x7F, 0x45, 0x4C, 0x46] 0o644) ∧
      (Install "linux" toolCrate linkedFS).2.lget (utf8 "/bin/tool") =
        some (LNode.symlink (utf8 "/etc/target"))) ∧
    ((Install "linux" toolCrate hardLinkedFS).1 = Res.ok () ∧
      hardLinkedFS.get (utf8 "/opt/tool") = some (Node.file (utf8 "old") 0o755) ∧
      (Install "linux" toolCrate hardLinkedFS).2.get (utf8 "/opt/tool") =
        some (Node.file [0x7F, 0x45, 0x4C, 0x46] 0o755)) := by
  refine ⟨by decide, by decide, by decide, by decide, by decide, by decide,
    ⟨by unfold plainName; decide, by decide, by decide, by decide, by decide⟩,
    ⟨by decide, by decide, by decide⟩⟩

/-- C5, amended.  Let `P` be `path.Join("/bin", c.BinaryName)` and `r` the name `P` leads to
when the symbolic links at its directories are followed.  On linux, in a state where `r` is
not a symbolic link and the file at `r`, if there is one, has no other name (hard link), a
successful `c.Install()` creates or replaces exactly one file, the one at `P`: afterwards
`P` is a regular file (not a link) whose contents are exactly the payload; the symbolic
links are as before, and every path that does not lead to `r` shows what it showed before,
to `stat` and to `lstat`.  The mode of the file is 0755 less the umask when the file is new,
and the mode it had when it was replaced.  When `c.BinaryName` is a plain file name (not
empty, no slash, not `.` or `..`) the path `P` is `/bin/` followed by that name, a direct
child of `/bin`. -/
theorem Install_writes_joined_path (c : Crate) (fs fs1 : FS) (r : Bytes)
    (hr : fs.resolve false (Join [utf8 "/bin", c.BinaryName]) = Except.ok r)
    (hlink : lookup r fs.links = none)
    (hsole : ∀ i, lookup r fs.names = some (Entry.file i) →
      ∀ k, k ≠ r → lookup k fs.names ≠ some (Entry.file i))
    (h : Install "linux" c fs = (Res.ok (), fs1)) :
    (∃ m, fs1.get (Join [utf8 "/bin", c.BinaryName]) =
        some (Node.file (c.BinaryFile.getD []) m) ∧
      fs1.lget (Join [utf8 "/bin", c.BinaryName]) =
        some (LNode.node (Node.file (c.BinaryFile.getD []) m)) ∧
      (fs.get (Join [utf8 "/bin", c.BinaryName]) = none →
        m = 0o755 &&& (0o777 ^^^ (fs.umask &&& 0o777))) ∧
      (∀ d m0, fs.get (Join [utf8 "/bin", c.BinaryName]) = some (Node.file d m0) → m = m0)) ∧
    fs1.links = fs.links ∧
    (∀ q, fs.resolve true q ≠ Except.ok r → fs1.get q = fs.get q) ∧
    (∀ q, fs.resolve false q ≠ Except.ok r → fs1.lget q = fs.lget q) ∧
    (plainName c.BinaryName → Join [utf8 "/bin", c.BinaryName] = utf8 "/bin/" ++ c.BinaryName) := by
  have hw := Install_linux_ok h
  have hrt := resolve_follow hr hlink
  obtain ⟨m, hget, hnew, hold⟩ := osWriteFile_get hw
  obtain ⟨_, _, _, _, hlinks, _⟩ := osWriteFile_ok hw
  have hoth := osWriteFile_others hw hrt hsole
  exact ⟨⟨m, hget,
      lget_of_get (by rw [resolve_congr hlinks]; exact hr) (by rw [hlinks]; exact hlink) hget,
      hnew, hold⟩,
    hlinks, hoth.1, hoth.2, Join_bin_plain c.BinaryName⟩

/-- C5 amended, at concrete inputs.  In `mergedFS` the path `/bin/tool` leads to
`/usr/bin/tool`, an older file with mode 0700 and no second name: installing `toolCrate`
replaces its contents, keeps the mode, and leaves every other path as it was.  In the empty
file system the new file `/bin/tool` gets mode 0755. -/
theorem Install_writes_joined_path_witness :
    (mergedFS.resolve false (Join [utf8 "/bin", toolCrate.BinaryName]) =
        Except.ok (utf8 "/usr/bin/tool") ∧
      lookup (utf8 "/usr/bin/tool") mergedFS.links = none ∧
      Install "linux" toolCrate mergedFS = (Res.ok (), mergedFSAfter) ∧
      (∃ m, mergedFSAfter.get (Join [utf8 "/bin", toolCrate.BinaryName]) =
          some (Node.file (toolCrate.BinaryFile.getD []) m) ∧
        mergedFSAfter.lget (Join [utf8 "/bin", toolCrate.BinaryName]) =
          some (LNode.node (Node.file (toolCrate.BinaryFile.getD []) m)) ∧
        (mergedFS.get (Join [utf8 "/bin", toolCrate.BinaryName]) = none →
          m = 0o755 &&& (0o777 ^^^ (mergedFS.umask &&& 0o777))) ∧
        (∀ d m0, mergedFS.get (Join [utf8 "/bin", toolCrate.BinaryName]) =
          some (Node.file d m0) → m = m0)) ∧
      mergedFSAfter.links = mergedFS.links ∧
      (∀ q, mergedFS.resolve true q ≠ Except.ok (utf8 "/usr/bin/tool") →
        mergedFSAfter.get q = mergedFS.get q) ∧
      (∀ q, mergedFS.resolve false q ≠ Except.ok (utf8 "/usr/bin/tool") →
        mergedFSAfter.lget q = mergedFS.lget q) ∧
      (plainName toolCrate.BinaryName →
        Join [utf8 "/bin", toolCrate.BinaryName] = utf8 "/bin/" ++ toolCrate.BinaryName)) ∧
    (Install "linux" toolCrate emptyFS =
        (Res.ok (), FS.ofNodes [(utf8 "/bin/tool", Node.file [0x7F, 0x45, 0x4C, 0x46] 0o755)]
          0o022) ∧
      plainName toolCrate.BinaryName ∧
      Join [utf8 "/bin", toolCrate.BinaryName] = utf8 "/bin/" ++ toolCrate.BinaryName) :=
  ⟨⟨by decide, by decide, by decide,
      Install_writes_joined_path toolCrate mergedFS mergedFSAfter (utf8 "/usr/bin/tool")
        (by decide) (by decide) mergedFS_sole (by decide)⟩,
    ⟨by decide, by unfold plainName; decide,
      (Install_writes_joined_path toolCrate emptyFS
        (FS.ofNodes [(utf8 "/bin/tool", Node.file [0x7F, 0x45, 0x4C, 0x46] 0o755)] 0o022)
        (utf8 "/bin/tool") (by decide) (by decide)
        (fun i hi => by
          rw [show lookup (utf8 "/bin/tool") emptyFS.names = none by decide] at hi
          exact Option.noConfusion hi)
        (by decide)).2.2.2.2 (by unfold plainName; decide)⟩⟩

/-! ## `buildCrate` -/

/-- C8. The result of `buildCrate`.  When `f` names a regular file with contents `b`, the
crate returned has `ProjectName = n`, `BinaryName = path.Base(f)`, `BinaryFile = b` and
`SourceURL = u`, and the file system is unchanged.  When `f` names no regular file (nothing
is there, or a directory, which cannot be read) the process is terminated by `log.Fatalf`, no
crate is returned and the file system is unchanged.  `path.Base(f)` is the last segment
of `f`: what follows its last slash. -/
theorem buildCrate_result (n f u : Bytes) (fs : FS) :
    (∀ b m, fs.get f = some (Node.file b m) →
      buildCrate n f u fs = (Res.ok ⟨n, Base f, some b, u⟩, fs)) ∧
    ((∀ b m, fs.get f ≠ some (Node.file b m)) → ∃ x, buildCrate n f u fs = (Res.fatal x, fs)) ∧
    (∀ d s, f = d ++ s → (d = [] ∨ d.getLast? = some slash) → s ≠ [] → slash ∉ s →
      Base f = s) := by
  refine ⟨?_, ?_, ?_⟩
  · intro b m h
    simp [buildCrate, osOpen, get_eq_some.mp h, readAll]
  · intro h
    unfold buildCrate osOpen
    cases hs : osStat f fs with
    | error e => exact ⟨_, rfl⟩
    | ok node =>
      cases node with
      | dir => exact ⟨_, rfl⟩
      | file b m => exact absurd (get_eq_some.mpr hs) (h b m)
  · intro d s hf hd hs hns
    rw [hf]
    exact Base_last_segment d s hd hs hns

/-- C8, at concrete inputs: `build/tool` is a regular file of `sourceFS`, nothing is at that
path in the empty file system, and `tool` is the last segment of `build/tool`. -/
theorem buildCrate_result_witness :
    (sourceFS.get (utf8 "build/tool") = some (Node.file [0x7F, 0x45, 0x4C, 0x46] 0o755) ∧
      buildCrate (utf8 "tool") (utf8 "build/tool") [] sourceFS = (Res.ok toolCrate, sourceFS)) ∧
    ((∀ b m, emptyFS.get (utf8 "build/tool") ≠ some (Node.file b m)) ∧
      ∃ x, buildCrate (utf8 "tool") (utf8 "build/tool") [] emptyFS = (Res.fatal x, emptyFS)) ∧
    Base (utf8 "build/tool") = utf8 "tool" :=
  ⟨⟨by decide,
      (buildCrate_result (utf8 "tool") (utf8 "build/tool") [] sourceFS).1
        [0x7F, 0x45, 0x4C, 0x46] 0o755 (by decide)⟩,
    ⟨fun b m => by rw [show emptyFS.get (utf8 "build/tool") = none by decide]; simp,
      (buildCrate_result (utf8 "tool") (utf8 "build/tool") [] emptyFS).2.1
        (fun b m => by rw [show emptyFS.get (utf8 "build/tool") = none by decide]; simp)⟩,
    (buildCrate_result (utf8 "tool") (utf8 "build/tool") [] emptyFS).2.2 (utf8 "build/")
      (utf8 "tool") (by decide) (by decide) (by decide) (by decide)⟩

/-! ## `main`: the pull command -/

/-- C10. The status gate of pull.  When the command is `pull` (under any of its names) and
the response to the GET request has a status other than 200, the process is terminated with
`Failed to pull crate, status code: ...` and the file system is unchanged: nothing is
installed or saved.  This holds for every response body, readable or not, well-formed or
not, so the outcome does not depend on the body: it is never deserialized.  (With an empty
URL no request is made at all: the process is terminated with
`Please provide a source URL to pull the crate.`, the file system unchanged.) -/
theorem pull_status_gate (w : World) (status : Nat) (body : Option Bytes)
    (hcmd : w.args.getD 0 [] ∈ [utf8 "pull", utf8 "Pull", utf8 "P", utf8 "p"])
    (hresp : w.http (w.args.getD 1 []) = HttpResult.response status body)
    (hstatus : status ≠ 200) :
    (w.args.getD 1 [] ≠ [] → main w = (Exit.fatal (Fatal.pullStatus status), w.fs)) ∧
    (w.args.getD 1 [] = [] → main w = (Exit.fatal Fatal.noSourceURL, w.fs)) := by
  have h1 : w.args.getD 0 [] ∉ [utf8 "build", utf8 "Build", utf8 "B", utf8 "b"] := by
    intro h
    revert hcmd
    generalize w.args.getD 0 [] = cmd at h
    simp only [List.mem_cons, List.mem_singleton, List.not_mem_nil, or_false] at h
    rcases h with h | h | h | h <;> subst h <;> decide
  have h2 : w.args.getD 0 [] ∉ [utf8 "install", utf8 "Install", utf8 "I", utf8 "i"] := by
    intro h
    revert hcmd
    generalize w.args.getD 0 [] = cmd at h
    simp only [List.mem_cons, List.mem_singleton, List.not_mem_nil, or_false] at h
    rcases h with h | h | h | h <;> subst h <;> decide
  have h3 : w.args.getD 0 [] ∉ [utf8 "uninstall", utf8 "Uninstall", utf8 "U", utf8 "u"] := by
    intro h
    revert hcmd
    generalize w.args.getD 0 [] = cmd at h
    simp only [List.mem_cons, List.mem_singleton, List.not_mem_nil, or_false] at h
    rcases h with h | h | h | h <;> subst h <;> decide
  have h4 : w.args.getD 0 [] ∉ [utf8 "get-bin", utf8 "Get-bin", utf8 "g", utf8 "G"] := by
    intro h
    revert hcmd
    generalize w.args.getD 0 [] = cmd at h
    simp only [List.mem_cons, List.mem_singleton, List.not_mem_nil, or_false] at h
    rcases h with h | h | h | h <;> subst h <;> decide
  constructor
  · intro hurl
    have h5 : ¬ (w.args.getD 1 []).length = 0 := fun h => hurl (List.length_eq_zero.mp h)
    unfold main mainWith
    simp only [if_neg h1, if_neg h2, if_neg h3, if_neg h4, if_pos hcmd, if_neg h5, hresp,
      if_pos hstatus]
  · intro hurl
    have h5 : (w.args.getD 1 []).length = 0 := by rw [hurl]; rfl
    unfold main mainWith
    simp only [if_neg h1, if_neg h2, if_neg h3, if_neg h4, if_pos hcmd, if_pos h5]

/-- C10, at a concrete input: the server answers 404 with a well-formed crate document. -/
theorem pull_status_gate_witness :
    pullNotFoundWorld.args.getD 0 [] ∈ [utf8 "pull", utf8 "Pull", utf8 "P", utf8 "p"] ∧
    pullNotFoundWorld.http (pullNotFoundWorld.args.getD 1 []) =
      HttpResult.response 404 (some (Marshal toolCrate)) ∧
    404 ≠ 200 ∧ pullNotFoundWorld.args.getD 1 [] ≠ [] ∧
    main pullNotFoundWorld = (Exit.fatal (Fatal.pullStatus 404), pullNotFoundWorld.fs) :=
  ⟨by decide, rfl, by decide, by decide,
    (pull_status_gate pullNotFoundWorld 404 (some (Marshal toolCrate)) (by decide) rfl
      (by decide)).1 (by decide)⟩

/-- The install command has the payload guard: run as root, when the crate file loads and
its payload has length 0, the process is terminated with `No binary file found in crate`
and nothing is written. -/
theorem install_guards_empty_payload (w : World) (crate : Crate)
    (hcmd : w.args.getD 0 [] ∈ [utf8 "install", utf8 "Install", utf8 "I", utf8 "i"])
    (hroot : w.euid = 0)
    (hload : LoadCrate (w.args.getD 1 []) w.fs = (Res.ok crate, w.fs))
    (hlen : crate.payloadLen = 0) :
    main w = (Exit.fatal (Fatal.noBinary crate.ProjectName), w.fs) := by
  have h1 : w.args.getD 0 [] ∉ [utf8 "build", utf8 "Build", utf8 "B", utf8 "b"] := by
    intro h
    revert hcmd
    generalize w.args.getD 0 [] = cmd at h
    simp only [List.mem_cons, List.mem_singleton, List.not_mem_nil, or_false] at h
    rcases h with h | h | h | h <;> subst h <;> decide
  unfold main mainWith
  simp only [if_neg h1, if_pos hcmd, getRoot, hroot, ne_eq, not_true_eq_false, if_false, hload,
    hlen, or_true, if_true]

/-- The get-bin command has the payload guard: when the crate file loads and its payload has
length 0, the process is terminated with `No binary file found in crate` and nothing is
written. -/
theorem getbin_guards_empty_payload (w : World) (crate : Crate)
    (hcmd : w.args.getD 0 [] ∈ [utf8 "get-bin", utf8 "Get-bin", utf8 "g", utf8 "G"])
    (hload : LoadCrate (w.args.getD 1 []) w.fs = (Res.ok crate, w.fs))
    (hlen : crate.payloadLen = 0) :
    main w = (Exit.fatal (Fatal.noBinary crate.ProjectName), w.fs) := by
  have h1 : w.args.getD 0 [] ∉ [utf8 "build", utf8 "Build", utf8 "B", utf8 "b"] := by
    intro h
    revert hcmd
    generalize w.args.getD 0 [] = cmd at h
    simp only [List.mem_cons, List.mem_singleton, List.not_mem_nil, or_false] at h
    rcases h with h | h | h | h <;> subst h <;> decide
  have h2 : w.args.getD 0 [] ∉ [utf8 "install", utf8 "Install", utf8 "I", utf8 "i"] := by
    intro h
    revert hcmd
    generalize w.args.getD 0 [] = cmd at h
    simp only [List.mem_cons, List.mem_singleton, List.not_mem_nil, or_false] at h
    rcases h with h | h | h | h <;> subst h <;> decide
  have h3 : w.args.getD 0 [] ∉ [utf8 "uninstall", utf8 "Uninstall", utf8 "U", utf8 "u"] := by
    intro h
    revert hcmd
    generalize w.args.getD 0 [] = cmd at h
    simp only [List.mem_cons, List.mem_singleton, List.not_mem_nil, or_false] at h
    rcases h with h | h | h | h <;> subst h <;> decide
  unfold main mainWith
  simp only [if_neg h1, if_neg h2, if_neg h3, if_pos hcmd, hload, hlen, or_true, if_true]

/-- C3. The payload guard is missing on the pull path.  The document `emptyPayloadDoc`
decodes to a crate with an empty payload.  The command `install` on a file holding it is
terminated with `No binary file found in crate`, and nothing is written; but `pull` of the
same document followed by the answer `install` ends with success, having written the empty
file `/bin/x`. -/
theorem pull_install_skips_payload_guard :
    (jsonUnmarshal emptyPayloadDoc).map Crate.payloadLen = Except.ok 0 ∧
    main installEmptyWorld = (Exit.fatal (Fatal.noBinary (utf8 "x")), installEmptyWorld.fs) ∧
    main pullEmptyWorld =
      (Exit.success, FS.ofNodes [(utf8 "/bin/x", Node.file [] 0o755)] 0o022) := by
  refine ⟨by decide, by decide, by decide⟩

/-! ## The scanner: enough fuel -/

theorem skipSpace_length (X : Bytes) : (skipSpace X).length ≤ X.length := by
  unfold skipSpace
  exact (List.dropWhile_sublist _).length_le

theorem scanString_length (n : Nat) :
    ∀ (X raw R : Bytes), X.length ≤ n → scanString X = some (raw, R) → R.length < X.length := by
  induction n with
  | zero =>
    intro X raw R hX h
    have : X = [] := List.length_eq_zero.mp (Nat.le_zero.mp hX)
    subst this
    simp [scanString] at h
  | succ n ih =>
    intro X raw R hX h
    cases X with
    | nil => simp [scanString] at h
    | cons c rest =>
      rw [scanString_cons] at h
      simp only [List.length_cons] at hX ⊢
      split_ifs at h with h1 h2 h3
      · injection h with h
        injection h with _ h
        subst h
        omega
      · cases rest with
        | nil => simp at h
        | cons e rest2 =>
          simp only [List.length_cons] at hX ⊢
          simp only at h
          split_ifs at h with h4 h5
          · cases hr : scanString rest2 with
            | none => simp [hr] at h
            | some r =>
              obtain ⟨raw2, R2⟩ := r
              simp only [hr, Option.map_some', Option.some.injEq, Prod.mk.injEq] at h
              have := ih rest2 raw2 R2 (by omega) hr
              rw [← h.2]
              omega
          · rcases rest2 with _ | ⟨h1, _ | ⟨h2, _ | ⟨h3, _ | ⟨h4, rest3⟩⟩⟩⟩ <;>
              simp only at h <;> try exact Option.noConfusion h
            split_ifs at h
            cases hr : scanString rest3 with
            | none => simp [hr] at h
            | some r =>
              obtain ⟨raw2, R2⟩ := r
              simp only [hr, Option.map_some', Option.some.injEq, Prod.mk.injEq] at h
              have := ih rest3 raw2 R2 (by simp only [List.length_cons] at hX; omega) hr
              rw [← h.2]
              simp only [List.length_cons]
              omega
      · cases hr : scanString rest with
        | none => simp [hr] at h
        | some r =>
          obtain ⟨raw2, R2⟩ := r
          simp only [hr, Option.map_some', Option.some.injEq, Prod.mk.injEq] at h
          have := ih rest raw2 R2 (by omega) hr
          rw [← h.2]
          omega

theorem stripLit_length (lit : Bytes) : ∀ (s R : Bytes), stripLit lit s = some R →
    R.length ≤ s.length := by
  induction lit with
  | nil =>
    intro s R h
    cases s <;> simp [stripLit] at h <;> subst h <;> simp
  | cons a as ih =>
    intro s R h
    cases s with
    | nil => simp [stripLit] at h
    | cons b bs =>
      simp only [stripLit] at h
      split_ifs at h
      have := ih bs R h
      simp only [List.length_cons]
      omega

theorem scanFrac_length (lit s l R : Bytes) (h : scanFrac lit s = some (l, R)) :
    R.length ≤ s.length := by
  unfold scanFrac at h
  split at h
  · simp only [Option.some.injEq, Prod.mk.injEq] at h
    rw [← h.2]
  · simp only at h
    split_ifs at h <;> simp only [Option.some.injEq, Prod.mk.injEq] at h <;> rw [← h.2]
    simp only [List.length_drop, List.length_cons]
    omega

theorem scanExp_length (lit s l R : Bytes) (h : scanExp lit s = some (l, R)) :
    R.length ≤ s.length := by
  unfold scanExp at h
  split at h
  · simp only [Option.some.injEq, Prod.mk.injEq] at h
    rw [← h.2]
  · simp only at h
    split_ifs at h <;> simp only [Option.some.injEq, Prod.mk.injEq] at h <;> rw [← h.2]
    simp only [List.length_drop, List.length_cons]
    omega

theorem scanNumber_length (s lit R : Bytes) (h : scanNumber s = some (lit, R)) :
    R.length < s.length := by
  unfold scanNumber at h
  simp only at h
  split at h
  · exact Option.noConfusion h
  · rename_i d s1 hs0
    have h0 : s1.length < s.length := by
      have := congrArg List.length hs0
      simp only [List.length_drop, List.length_cons] at this
      omega
    split_ifs at h <;>
    · split at h
      · exact Option.noConfusion h
      · rename_i lit2 s2 hfrac
        have h1 := scanFrac_length _ _ _ _ hfrac
        have h2 := scanExp_length _ _ _ _ h
        simp only [List.length_drop] at h1
        omega

theorem skipSpace_cons_length {X rest : Bytes} {c : Byte} (h : skipSpace X = c :: rest) :
    rest.length < X.length := by
  have := skipSpace_length X
  rw [h, List.length_cons] at this
  omega

/-- Whatever the fuel, a value, a list of members or a list of elements that is scanned
takes at least one byte of the input. -/
theorem parse_length (f : Nat) :
    (∀ X v R, parseValue f X = some (v, R) → R.length < X.length) ∧
    (∀ X ms R, parseMembers f X = some (ms, R) → R.length < X.length) ∧
    (∀ X vs R, parseElements f X = some (vs, R) → R.length < X.length) := by
  induction f with
  | zero =>
    refine ⟨?_, ?_, ?_⟩ <;> intro X v R h
    · rw [parseValue.eq_1] at h
      exact Option.noConfusion h
    · rw [parseMembers.eq_1] at h
      exact Option.noConfusion h
    · rw [parseElements.eq_1] at h
      exact Option.noConfusion h
  | succ f ih =>
    obtain ⟨ihV, ihM, ihE⟩ := ih
    refine ⟨?_, ?_, ?_⟩
    · intro X v R h
      rw [parseValue.eq_2] at h
      split at h
      · exact Option.noConfusion h
      · rename_i c rest hsk
        have hrest := skipSpace_cons_length hsk
        split_ifs at h with h1 h2 h3 h4 h5 h6 h7
        · split at h
          · exact Option.noConfusion h
          · rename_i c1 rest1 hsk1
            have hrest1 := skipSpace_cons_length hsk1
            split_ifs at h
            · simp only [Option.some.injEq, Prod.mk.injEq] at h
              rw [← h.2]
              omega
            · obtain ⟨r, hr, hv⟩ := Option.map_eq_some'.mp h
              simp only [Prod.mk.injEq] at hv
              have := ihM _ _ _ (show parseMembers f (c1 :: rest1) = some (r.1, r.2) from hr)
              rw [← hv.2]
              simp only [List.length_cons] at this
              omega
        · split at h
          · exact Option.noConfusion h
          · rename_i c1 rest1 hsk1
            have hrest1 := skipSpace_cons_length hsk1
            split_ifs at h
            · simp only [Option.some.injEq, Prod.mk.injEq] at h
              rw [← h.2]
              omega
            · obtain ⟨r, hr, hv⟩ := Option.map_eq_some'.mp h
              simp only [Prod.mk.injEq] at hv
              have := ihE _ _ _ (show parseElements f (c1 :: rest1) = some (r.1, r.2) from hr)
              rw [← hv.2]
              simp only [List.length_cons] at this
              omega
        · obtain ⟨r, hr, hv⟩ := Option.map_eq_some'.mp h
          simp only [Prod.mk.injEq] at hv
          have := scanString_length rest.length rest r.1 r.2 (Nat.le_refl _) hr
          rw [← hv.2]
          omega
        · obtain ⟨r, hr, hv⟩ := Option.map_eq_some'.mp h
          simp only [Prod.mk.injEq] at hv
          have := scanNumber_length (c :: rest) r.1 r.2 hr
          rw [← hv.2]
          simp only [List.length_cons] at this
          omega
        · obtain ⟨r, hr, hv⟩ := Option.map_eq_some'.mp h
          simp only [Prod.mk.injEq] at hv
          have := stripLit_length _ _ _ hr
          rw [← hv.2]
          omega
        · obtain ⟨r, hr, hv⟩ := Option.map_eq_some'.mp h
          simp only [Prod.mk.injEq] at hv
          have := stripLit_length _ _ _ hr
          rw [← hv.2]
          omega
        · obtain ⟨r, hr, hv⟩ := Option.map_eq_some'.mp h
          simp only [Prod.mk.injEq] at hv
          have := stripLit_length _ _ _ hr
          rw [← hv.2]
          omega
    · intro X ms R h
      rw [parseMembers.eq_2] at h
      split at h
      · exact Option.noConfusion h
      · rename_i c rest hsk
        have hrest := skipSpace_cons_length hsk
        split_ifs at h
        split at h
        · exact Option.noConfusion h
        · rename_i key rest1 hkey
          have h1 := scanString_length rest.length rest key rest1 (Nat.le_refl _) hkey
          split at h
          · exact Option.noConfusion h
          · rename_i c2 rest2 hsk2
            have h2 := skipSpace_cons_length hsk2
            split_ifs at h
            split at h
            · exact Option.noConfusion h
            · rename_i v rest3 hv
              have h3 := ihV _ _ _ hv
              split at h
              · exact Option.noConfusion h
              · rename_i c4 rest4 hsk4
                have h4 := skipSpace_cons_length hsk4
                split_ifs at h
                · obtain ⟨r, hr, hvv⟩ := Option.map_eq_some'.mp h
                  simp only [Prod.mk.injEq] at hvv
                  have := ihM _ _ _ (show parseMembers f rest4 = some (r.1, r.2) from hr)
                  rw [← hvv.2]
                  omega
                · simp only [Option.some.injEq, Prod.mk.injEq] at h
                  rw [← h.2]
                  omega
    · intro X vs R h
      rw [parseElements.eq_2] at h
      split at h
      · exact Option.noConfusion h
      · rename_i v rest hv
        have h1 := ihV _ _ _ hv
        split at h
        · exact Option.noConfusion h
        · rename_i c rest1 hsk
          have h2 := skipSpace_cons_length hsk
          split_ifs at h
          · obtain ⟨r, hr, hvv⟩ := Option.map_eq_some'.mp h
            simp only [Prod.mk.injEq] at hvv
            have := ihE _ _ _ (show parseElements f rest1 = some (r.1, r.2) from hr)
            rw [← hvv.2]
            omega
          · simp only [Option.some.injEq, Prod.mk.injEq] at h
            rw [← h.2]
            omega

/-- The fuel the scanner needs is bounded by what it reads: if some fuel lets it read a
value from `X` leaving `R`, then so does every fuel above the number of bytes read. -/
theorem parse_fuel (g : Nat) :
    (∀ X v R, parseValue g X = some (v, R) →
      ∀ f, X.length - R.length + 1 ≤ f → parseValue f X = some (v, R)) ∧
    (∀ X ms R, parseMembers g X = some (ms, R) →
      ∀ f, X.length - R.length + 1 ≤ f → parseMembers f X = some (ms, R)) ∧
    (∀ X vs R, parseElements g X = some (vs, R) →
      ∀ f, X.length - R.length + 1 ≤ f → parseElements f X = some (vs, R)) := by
  induction g with
  | zero =>
    refine ⟨?_, ?_, ?_⟩ <;> intro X v R h
    · rw [parseValue.eq_1] at h
      exact Option.noConfusion h
    · rw [parseMembers.eq_1] at h
      exact Option.noConfusion h
    · rw [parseElements.eq_1] at h
      exact Option.noConfusion h
  | succ g ih =>
    obtain ⟨ihV, ihM, ihE⟩ := ih
    obtain ⟨lenV, lenM, lenE⟩ := parse_length g
    refine ⟨?_, ?_, ?_⟩
    · intro X v R h f hf
      have hlen := (parse_length (g + 1)).1 X v R h
      obtain ⟨f, rfl⟩ : ∃ f1, f = f1 + 1 := ⟨f - 1, by omega⟩
      rw [parseValue.eq_2] at h ⊢
      split at h
      · exact Option.noConfusion h
      · rename_i c rest hsk
        have hrest := skipSpace_cons_length hsk
        try simp only [hsk]
        split_ifs at h ⊢ with h1 h2 h3 h4 h5 h6 h7
        · split at h
          · exact Option.noConfusion h
          · rename_i c1 rest1 hsk1
            have hrest1 := skipSpace_cons_length hsk1
            try simp only [hsk1]
            split_ifs at h ⊢
            · exact h
            · obtain ⟨r, hr, hv⟩ := Option.map_eq_some'.mp h
              simp only [Prod.mk.injEq] at hv
              have hl := lenM _ _ _ (show parseMembers g (c1 :: rest1) = some (r.1, r.2) from hr)
              have := ihM _ _ _ (show parseMembers g (c1 :: rest1) = some (r.1, r.2) from hr) f
                (by rw [hv.2]; rw [hv.2] at hl; simp only [List.length_cons] at hl ⊢; omega)
              rw [this, Option.map_some', hv.1, hv.2]
        · split at h
          · exact Option.noConfusion h
          · rename_i c1 rest1 hsk1
            have hrest1 := skipSpace_cons_length hsk1
            try simp only [hsk1]
            split_ifs at h ⊢
            · exact h
            · obtain ⟨r, hr, hv⟩ := Option.map_eq_some'.mp h
              simp only [Prod.mk.injEq] at hv
              have hl := lenE _ _ _ (show parseElements g (c1 :: rest1) = some (r.1, r.2) from hr)
              have := ihE _ _ _ (show parseElements g (c1 :: rest1) = some (r.1, r.2) from hr) f
                (by rw [hv.2]; rw [hv.2] at hl; simp only [List.length_cons] at hl ⊢; omega)
              rw [this, Option.map_some', hv.1, hv.2]
        · exact h
        · exact h
        · exact h
        · exact h
        · exact h
    · intro X ms R h f hf
      have hlen := (parse_length (g + 1)).2.1 X ms R h
      obtain ⟨f, rfl⟩ : ∃ f1, f = f1 + 1 := ⟨f - 1, by omega⟩
      rw [parseMembers.eq_2] at h ⊢
      split at h
      · exact Option.noConfusion h
      · rename_i c rest hsk
        have hrest := skipSpace_cons_length hsk
        try simp only [hsk]
        split_ifs at h ⊢
        split at h
        · exact Option.noConfusion h
        · rename_i key rest1 hkey
          have h1 := scanString_length rest.length rest key rest1 (Nat.le_refl _) hkey
          try simp only [hkey]
          split at h
          · exact Option.noConfusion h
          · rename_i c2 rest2 hsk2
            have h2 := skipSpace_cons_length hsk2
            try simp only [hsk2]
            split_ifs at h ⊢
            split at h
            · exact Option.noConfusion h
            · rename_i v rest3 hv
              have h3 := lenV _ _ _ hv
              split at h
              · exact Option.noConfusion h
              · rename_i c4 rest4 hsk4
                have h4 := skipSpace_cons_length hsk4
                have hR : R.length ≤ rest4.length := by
                  split_ifs at h
                  · obtain ⟨r, hr, hvv⟩ := Option.map_eq_some'.mp h
                    simp only [Prod.mk.injEq] at hvv
                    have := lenM _ _ _ (show parseMembers g rest4 = some (r.1, r.2) from hr)
                    rw [← hvv.2]
                    omega
                  · simp only [Option.some.injEq, Prod.mk.injEq] at h
                    rw [← h.2]
                have hv1 := ihV _ _ _ hv f (by omega)
                rw [hv1]
                simp only
                try simp only [hsk4]
                split_ifs at h ⊢
                · obtain ⟨r, hr, hvv⟩ := Option.map_eq_some'.mp h
                  simp only [Prod.mk.injEq] at hvv
                  have := ihM _ _ _ (show parseMembers g rest4 = some (r.1, r.2) from hr) f
                    (by rw [hvv.2]; omega)
                  rw [this, Option.map_some', hvv.1, hvv.2]
                · exact h
    · intro X vs R h f hf
      have hlen := (parse_length (g + 1)).2.2 X vs R h
      obtain ⟨f, rfl⟩ : ∃ f1, f = f1 + 1 := ⟨f - 1, by omega⟩
      rw [parseElements.eq_2] at h ⊢
      split at h
      · exact Option.noConfusion h
      · rename_i v rest hv
        have h1 := lenV _ _ _ hv
        split at h
        · exact Option.noConfusion h
        · rename_i c rest1 hsk
          have h2 := skipSpace_cons_length hsk
          have hR : R.length ≤ rest1.length := by
            split_ifs at h
            · obtain ⟨r, hr, hvv⟩ := Option.map_eq_some'.mp h
              simp only [Prod.mk.injEq] at hvv
              have := lenE _ _ _ (show parseElements g rest1 = some (r.1, r.2) from hr)
              rw [← hvv.2]
              omega
            · simp only [Option.some.injEq, Prod.mk.injEq] at h
              rw [← h.2]
          have hv1 := ihV _ _ _ hv f (by omega)
          rw [hv1]
          simp only
          try simp only [hsk]
          split_ifs at h ⊢
          · obtain ⟨r, hr, hvv⟩ := Option.map_eq_some'.mp h
            simp only [Prod.mk.injEq] at hvv
            have := ihE _ _ _ (show parseElements g rest1 = some (r.1, r.2) from hr) f
              (by rw [hvv.2]; omega)
            rw [this, Option.map_some', hvv.1, hvv.2]
          · exact h

/-- The fuel `decoderDecode` and `jsonUnmarshal` give the scanner is enough: whatever any
amount of fuel lets it read, it reads with fuel `X.length + 1`. -/
theorem parseValue_enough (g : Nat) (X : Bytes) (v : JSON) (R : Bytes)
    (h : parseValue g X = some (v, R)) : parseValue (X.length + 1) X = some (v, R) :=
  (parse_fuel g).1 X v R h (X.length + 1) (by omega)

theorem parseValue_never (X : Bytes) (h : parseValue (X.length + 1) X = none) :
    ∀ g, parseValue g X = none := by
  intro g
  cases hg : parseValue g X with
  | none => rfl
  | some r =>
    have := parseValue_enough g X r.1 r.2 hg
    rw [h] at this
    exact Option.noConfusion this

/-! ## `LoadCrate`: the documents it rejects -/

theorem parseValue_of_blank (n : Nat) (data : Bytes) (h : skipSpace data = []) :
    parseValue n data = none := by
  cases n with
  | zero => rfl
  | succ n => rw [parseValue.eq_2, h]

theorem decodeElems_reject (items : List JSON) (h : ∃ x ∈ items, isByteElem x = false) :
    ∃ e, decodeElems items = Except.error e := by
  induction items with
  | nil =>
    obtain ⟨x, hx, _⟩ := h
    exact absurd hx (List.not_mem_nil _)
  | cons y ys ih =>
    obtain ⟨x, hx, hbad⟩ := h
    cases hy : decodeElem y with
    | error e => exact ⟨e, by simp [decodeElems, hy]⟩
    | ok b =>
      rcases List.mem_cons.mp hx with hx | hx
      · subst hx
        exfalso
        cases x with
        | num lit =>
          simp only [isByteElem, Bool.and_eq_false_imp, decide_eq_false_iff_not] at hbad
          simp only [decodeElem] at hy
          split_ifs at hy with hc
          exact hbad hc.1 hc.2
        | null => simp [isByteElem] at hbad
        | bool _ => simp [decodeElem] at hy
        | str _ => simp [decodeElem] at hy
        | arr _ => simp [decodeElem] at hy
        | obj _ => simp [decodeElem] at hy
      · obtain ⟨e, he⟩ := ih ⟨x, hx, hbad⟩
        exact ⟨e, by simp [decodeElems, hy, he, Except.map]⟩

theorem setField_reject (c : Crate) (f : Field) (v : JSON) (h : rejectedValue f v) :
    ∃ e, setField c f v = Except.error e := by
  cases f <;> cases v <;>
    first
    | exact False.elim h
    | exact ⟨_, rfl⟩
    | skip
  · rename_i raw
    simp only [rejectedValue] at h
    cases hu : unquote raw with
    | none => exact ⟨DecodeErr.malformed, by simp [setField, decodeBytes, hu, Except.map]⟩
    | some s =>
      exact ⟨DecodeErr.base64, by simp [setField, decodeBytes, hu, h s hu, Except.map]⟩
  · rename_i items
    simp only [rejectedValue] at h
    obtain ⟨e, he⟩ := decodeElems_reject items h
    exact ⟨e, by simp [setField, decodeBytes, he, Except.map]⟩

theorem decodeMembers_reject (ms : List (Bytes × JSON)) :
    ∀ c : Crate,
      (∃ k x key f, (k, x) ∈ ms ∧ unquote k = some key ∧ fieldOf key = some f ∧
        rejectedValue f x) →
      ∃ e, decodeMembers c ms = Except.error e := by
  induction ms with
  | nil =>
    rintro c ⟨k, x, key, f, hmem, _⟩
    exact absurd hmem (List.not_mem_nil _)
  | cons m ms ih =>
    rintro c ⟨k, x, key, f, hmem, hk, hf, hrej⟩
    obtain ⟨k0, x0⟩ := m
    rcases List.mem_cons.mp hmem with heq | hmem
    · injection heq with h1 h2
      subst h1
      subst h2
      obtain ⟨e, he⟩ := setField_reject c f x hrej
      exact ⟨e, by simp [decodeMembers, hk, hf, he]⟩
    · have htail := fun c1 => ih c1 ⟨k, x, key, f, hmem, hk, hf, hrej⟩
      cases hu : unquote k0 with
      | none => exact ⟨DecodeErr.malformed, by simp [decodeMembers, hu]⟩
      | some key0 =>
        cases hf0 : fieldOf key0 with
        | none =>
          obtain ⟨e, he⟩ := htail c
          exact ⟨e, by simp [decodeMembers, hu, hf0, he]⟩
        | some f0 =>
          cases hs : setField c f0 x0 with
          | error e => exact ⟨e, by simp [decodeMembers, hu, hf0, hs]⟩
          | ok c1 =>
            obtain ⟨e, he⟩ := htail c1
            exact ⟨e, by simp [decodeMembers, hu, hf0, hs, he]⟩

/-- C9, amended.  For a file with contents `data`, `LoadCrate` returns the error
`failed to decode crate` and no crate (and leaves the file system as it is) when `data` does
not start with a well-formed JSON value (the scanner reads none, whatever its fuel); when
its first value is a string, a number, a boolean or an array; and when its first value is an
object one of whose members names a crate field (up to case) and gives it a value the field
cannot take: not a string or `null` for the three string fields, not `null`, base64 text or
an array of bytes for `BinaryFile`. -/
theorem LoadCrate_rejects (p data : Bytes) (m : Nat) (fs : FS)
    (hfile : fs.get p = some (Node.file data m)) :
    ((∀ g, parseValue g data = none) →
      ∃ e, LoadCrate p fs = (Res.error (Err.decodeCrate e), fs)) ∧
    (∀ g v rest, parseValue g data = some (v, rest) →
      (v ≠ JSON.null → (∀ ms, v ≠ JSON.obj ms) →
        LoadCrate p fs = (Res.error (Err.decodeCrate DecodeErr.typeMismatch), fs)) ∧
      (∀ ms, v = JSON.obj ms →
        (∃ k x key f, (k, x) ∈ ms ∧ unquote k = some key ∧ fieldOf key = some f ∧
          rejectedValue f x) →
        ∃ e, LoadCrate p fs = (Res.error (Err.decodeCrate e), fs))) := by
  have hload : ∀ e, decoderDecode data = Except.error e →
      LoadCrate p fs = (Res.error (Err.decodeCrate e), fs) := by
    intro e he
    simp only [LoadCrate, osOpen, get_eq_some.mp hfile, readAll, he]
  refine ⟨?_, ?_⟩
  · intro hnone
    by_cases hb : skipSpace data = []
    · exact ⟨_, hload _ (by rw [decoderDecode, if_pos hb])⟩
    · exact ⟨_, hload _ (by rw [decoderDecode, if_neg hb, hnone])⟩
  · intro g v rest hg
    have hsome := parseValue_enough g data v rest hg
    have hb : skipSpace data ≠ [] := by
      intro hb
      rw [parseValue_of_blank _ _ hb] at hsome
      exact Option.noConfusion hsome
    have hdec : decoderDecode data = unmarshalCrate v := by
      unfold decoderDecode
      rw [if_neg hb, hsome]
    refine ⟨?_, ?_⟩
    · intro hnull hobj
      apply hload
      rw [hdec]
      cases v with
      | null => exact absurd rfl hnull
      | obj ms => exact absurd rfl (hobj ms)
      | bool _ => rfl
      | num _ => rfl
      | str _ => rfl
      | arr _ => rfl
    · intro ms hv hbad
      subst hv
      obtain ⟨e, he⟩ := decodeMembers_reject ms Crate.zero hbad
      exact ⟨e, hload e (by rw [hdec, unmarshalCrate, he])⟩

/-- C9, refuted as stated.  `LoadCrate` returns a crate and no error for the object without
members (all four fields are missing and come out zero), for an object with a fifth member
`Extra`, and for the value `null`, which is not an object. -/
theorem LoadCrate_accepts_other_documents :
    LoadCrate (utf8 "empty.json") documentsFS = (Res.ok Crate.zero, documentsFS) ∧
    LoadCrate (utf8 "extra.json") documentsFS =
      (Res.ok ⟨utf8 "p", utf8 "b", some [], []⟩, documentsFS) ∧
    LoadCrate (utf8 "null.json") documentsFS = (Res.ok Crate.zero, documentsFS) := by
  refine ⟨by decide, by decide, by decide⟩

/-- C9 amended, at concrete inputs: a truncated object, an array, and an object whose
project name is a number. -/
theorem LoadCrate_rejects_witness :
    (documentsFS.get (utf8 "cut.json") = some (Node.file (utf8 "\x7b\"ProjectName\":") 0o644) ∧
      (∀ g, parseValue g (utf8 "\x7b\"ProjectName\":") = none) ∧
      ∃ e, LoadCrate (utf8 "cut.json") documentsFS = (Res.error (Err.decodeCrate e), documentsFS)) ∧
    (documentsFS.get (utf8 "array.json") = some (Node.file (utf8 "[1]") 0o644) ∧
      parseValue 4 (utf8 "[1]") = some (JSON.arr [JSON.num [49]], []) ∧
      LoadCrate (utf8 "array.json") documentsFS =
        (Res.error (Err.decodeCrate DecodeErr.typeMismatch), documentsFS)) ∧
    (documentsFS.get (utf8 "number.json") =
        some (Node.file (utf8 "\x7b\"ProjectName\":5\x7d") 0o644) ∧
      parseValue 4 (utf8 "\x7b\"ProjectName\":5\x7d") =
        some (JSON.obj [(utf8 "ProjectName", JSON.num [53])], []) ∧
      rejectedValue Field.ProjectName (JSON.num [53]) ∧
      ∃ e, LoadCrate (utf8 "number.json") documentsFS =
        (Res.error (Err.decodeCrate e), documentsFS)) :=
  ⟨⟨by decide, parseValue_never _ (by rfl),
      (LoadCrate_rejects (utf8 "cut.json") (utf8 "\x7b\"ProjectName\":") 0o644 documentsFS
        (by decide)).1 (parseValue_never _ (by rfl))⟩,
    ⟨by decide, by rfl,
      ((LoadCrate_rejects (utf8 "array.json") (utf8 "[1]") 0o644 documentsFS (by decide)).2 4 _ _
        (by rfl : parseValue 4 (utf8 "[1]") = some (JSON.arr [JSON.num [49]], []))).1
        (fun h => JSON.noConfusion h) (fun ms h => JSON.noConfusion h)⟩,
    ⟨by decide, by rfl, trivial,
      ((LoadCrate_rejects (utf8 "number.json") (utf8 "\x7b\"ProjectName\":5\x7d") 0o644
        documentsFS (by decide)).2 4 _ _
        (by rfl : parseValue 4 (utf8 "\x7b\"ProjectName\":5\x7d") =
          some (JSON.obj [(utf8 "ProjectName", JSON.num [53])], []))).2 _ rfl
        ⟨utf8 "ProjectName", JSON.num [53], utf8 "ProjectName", Field.ProjectName,
          List.mem_singleton.mpr rfl, by decide, by decide, trivial⟩⟩⟩

end Gocrate
